import Mathlib

/-!
# LipsyncDe: German text to timed Oculus visemes

A shallow embedding of `src/modules/lipsync-de.mjs` (class `LipsyncDe`).

Modelling conventions.

* A JavaScript string is modelled by the list of its code points (`Str`), the unit that
  `for (const char of segment)` iterates over.  Every key and value of the rule tables lies in
  the Basic Multilingual Plane, so searching and splitting by code point agrees with the
  code-unit search of `replaceAll` and `split` on well-formed strings.
* Numbers are exact rationals (`ℚ`) or integers.  The sums and products of `addViseme` and
  `wordsToVisemes` are modelled twice: in exact arithmetic, and with the rounding of the
  arithmetic as a parameter (`addVisemeRounded`, `wordsToVisemesRounded`), which
  `roundDouble`, the rounding of IEEE 754 binary64, instantiates.
* A property read `obj[key]` on an object literal consults the object's own entries and then
  `Object.prototype`; the three possible outcomes are kept apart by `Member`.
* Host builtins whose tables are not part of the class are parameters: `toLowerCase` for
  `wordsToVisemes`, `normalize('NFD')` and `normalize('NFC')` for `preProcessText`.  Concrete
  runs use the stand-ins `asciiToLowerCase`, `nfdLatin` and `nfcLatin`, each of which agrees
  with the builtin on the strings it is run on.
* A global `replace` with a regular expression is modelled by one pass over the text that
  carries the state of the match in progress.
-/

namespace LipsyncDe

/-- A JavaScript string, as the list of its code points. -/
abbrev Str := List Char

/-! ## Rule tables (constructor, lines 11-110) -/

/-- German IPA phonemes to Oculus visemes (`this.phonemeToViseme`, lines 15-53). -/
def phonemeToViseme : List (Str × Str) :=
  [ -- Vowels - Long
    ("iː".toList, "I".toList), ("yː".toList, "U".toList), ("uː".toList, "U".toList),
    ("eː".toList, "E".toList), ("øː".toList, "O".toList),
    ("oː".toList, "O".toList), ("ɛː".toList, "E".toList), ("aː".toList, "aa".toList),
    -- Vowels - Short
    ("ɪ".toList, "I".toList), ("ʏ".toList, "U".toList), ("ʊ".toList, "U".toList),
    ("ɛ".toList, "E".toList), ("œ".toList, "O".toList),
    ("ɔ".toList, "O".toList), ("a".toList, "aa".toList),
    -- Reduced vowels
    ("ə".toList, "E".toList), ("ɐ".toList, "aa".toList),
    -- Diphthongs
    ("aɪ".toList, "aa I".toList), ("aʊ".toList, "aa U".toList), ("ɔʏ".toList, "O I".toList),
    -- Consonants - Bilabials
    ("p".toList, "PP".toList), ("b".toList, "PP".toList), ("m".toList, "PP".toList),
    -- Labiodentals
    ("f".toList, "FF".toList), ("v".toList, "FF".toList),
    -- Alveolars
    ("t".toList, "DD".toList), ("d".toList, "DD".toList), ("n".toList, "nn".toList),
    ("l".toList, "nn".toList), ("s".toList, "SS".toList), ("z".toList, "SS".toList),
    -- Post-alveolars
    ("ʃ".toList, "SS".toList), ("ʒ".toList, "SS".toList), ("tʃ".toList, "CH".toList),
    ("dʒ".toList, "CH".toList),
    -- Velars/Uvulars
    ("k".toList, "kk".toList), ("g".toList, "kk".toList), ("ŋ".toList, "nn".toList),
    ("x".toList, "kk".toList), ("ç".toList, "kk".toList),
    -- German R
    ("ʀ".toList, "SS".toList), ("ʁ".toList, "SS".toList), ("r".toList, "RR".toList),
    -- Affricates
    ("pf".toList, "SS".toList), ("ts".toList, "SS".toList),
    -- Approximants
    ("j".toList, "I".toList), ("h".toList, "kk".toList) ]

/-- German orthographic patterns to IPA phonemes (`this.letterRules`, lines 57-77), in the
insertion order of the object literal. -/
def letterRules : List (Str × Str) :=
  [ -- Consonant clusters
    ("sch".toList, "ʃ".toList), ("tsch".toList, "tʃ".toList), ("pf".toList, "pf".toList),
    ("qu".toList, "kv".toList),
    ("ck".toList, "k".toList), ("dt".toList, "t".toList), ("ng".toList, "ŋ".toList),
    ("nk".toList, "ŋk".toList),
    ("sp".toList, "ʃp".toList), ("st".toList, "ʃt".toList),
    -- Umlauts and special characters
    ("ä".toList, "ɛ".toList), ("ö".toList, "ø".toList), ("ü".toList, "y".toList),
    ("ß".toList, "ss".toList),
    -- Vowel length indicators
    ("aa".toList, "aː".toList), ("ee".toList, "eː".toList), ("oo".toList, "oː".toList),
    ("uu".toList, "uː".toList),
    ("ie".toList, "iː".toList), ("ah".toList, "aː".toList), ("eh".toList, "eː".toList),
    ("oh".toList, "oː".toList),
    ("uh".toList, "uː".toList),
    -- Diphthongs
    ("ei".toList, "aɪ".toList), ("ai".toList, "aɪ".toList), ("au".toList, "aʊ".toList),
    ("eu".toList, "ɔʏ".toList), ("äu".toList, "ɔʏ".toList),
    -- Common consonant mappings
    ("ch".toList, "ç".toList), ("th".toList, "t".toList), ("ph".toList, "f".toList),
    ("rh".toList, "r".toList),
    ("gh".toList, "g".toList), ("sh".toList, "ʃ".toList) ]

/-- Simple letter-to-phoneme fallback mapping (`this.letterToPhoneme`, lines 80-86). -/
def letterToPhoneme : List (Str × Str) :=
  [ ("a".toList, "a".toList), ("b".toList, "b".toList), ("c".toList, "k".toList),
    ("d".toList, "d".toList), ("e".toList, "ɛ".toList), ("f".toList, "f".toList),
    ("g".toList, "g".toList),
    ("h".toList, "h".toList), ("i".toList, "ɪ".toList), ("j".toList, "j".toList),
    ("k".toList, "k".toList), ("l".toList, "l".toList), ("m".toList, "m".toList),
    ("n".toList, "n".toList),
    ("o".toList, "ɔ".toList), ("p".toList, "p".toList), ("q".toList, "k".toList),
    ("r".toList, "ʁ".toList), ("s".toList, "s".toList), ("t".toList, "t".toList),
    ("u".toList, "ʊ".toList),
    ("v".toList, "f".toList), ("w".toList, "v".toList), ("x".toList, "ks".toList),
    ("y".toList, "ʏ".toList), ("z".toList, "ts".toList),
    ("ä".toList, "ɛ".toList), ("ö".toList, "ø".toList), ("ü".toList, "y".toList),
    ("ß".toList, "ss".toList) ]

/-- Viseme durations in relative units (`this.visemeDurations`, lines 90-94). -/
def visemeDurations : List (Str × ℚ) :=
  [ ("aa".toList, 95/100), ("E".toList, 90/100), ("I".toList, 92/100), ("O".toList, 96/100),
    ("U".toList, 95/100),
    ("PP".toList, 108/100), ("SS".toList, 123/100), ("DD".toList, 105/100),
    ("FF".toList, 100/100), ("kk".toList, 121/100),
    ("nn".toList, 88/100), ("RR".toList, 88/100), ("CH".toList, 115/100), ("sil".toList, 1) ]

/-- Pauses in relative units (`this.specialDurations`, line 97).  The last key is the
apostrophe, code point 39. -/
def specialDurations : List (Str × ℚ) :=
  [ (" ".toList, 1), (",".toList, 3), (".".toList, 4), ("!".toList, 4), ("?".toList, 4),
    (";".toList, 2), (":".toList, 2), ("-".toList, 5/10), ([Char.ofNat 39], 3/10) ]

/-! ## Host semantics used by the class -/

/-- Names of the members of `Object.prototype`, which every object literal inherits
(ECMAScript 20.1.3 and Annex B.2.2).  Each of them is a function, except `__proto__`, an
accessor that yields `Object.prototype` itself. -/
def objectPrototypeKeys : List Str :=
  [ "constructor".toList, "__defineGetter__".toList, "__defineSetter__".toList,
    "hasOwnProperty".toList, "__lookupGetter__".toList, "__lookupSetter__".toList,
    "isPrototypeOf".toList, "propertyIsEnumerable".toList, "toString".toList,
    "valueOf".toList, "__proto__".toList, "toLocaleString".toList ]

/-- Outcome of the property read `obj[key]` on one of the table objects. -/
inductive Member (α : Type) where
  /-- The key is an entry of the object literal. -/
  | own (value : α)
  /-- The key is not an entry but names a member of `Object.prototype`: the value read is a
  function or object, hence truthy, not a string and not a number. -/
  | inherited
  /-- The read yields `undefined`. -/
  | undefined
deriving DecidableEq

/-- The property read `obj[key]`. -/
def getMember {α : Type} (obj : List (Str × α)) (key : Str) : Member α :=
  match obj.lookup key with
  | some value => Member.own value
  | none => if key ∈ objectPrototypeKeys then Member.inherited else Member.undefined

/-- How a run of the code can fail to deliver a rational-timed result. -/
inductive Failure where
  /-- A `TypeError` is thrown. -/
  | typeError
  /-- No exception, but a value that is neither a string nor a number enters the output;
  the embedding does not follow the run further.  `wordsToVisemes` never gets there. -/
  | outsideModel
deriving DecidableEq

/-- JavaScript `WhiteSpace` and `LineTerminator` code points, the ones `trim` removes. -/
def isWhiteSpace (c : Char) : Bool :=
  c.toNat ∈ [0x09, 0x0A, 0x0B, 0x0C, 0x0D, 0x20, 0xA0, 0x1680, 0x2000, 0x2001, 0x2002,
    0x2003, 0x2004, 0x2005, 0x2006, 0x2007, 0x2008, 0x2009, 0x200A, 0x2028, 0x2029, 0x202F,
    0x205F, 0x3000, 0xFEFF]

/-- `String.prototype.trim`. -/
def trim (s : Str) : Str :=
  ((s.dropWhile isWhiteSpace).reverse.dropWhile isWhiteSpace).reverse

/-- Scan of `replaceAll`: `skip` counts the characters of the current match still to be
consumed. -/
def replaceAllAux (pattern replacement : Str) : Nat → Str → Str
  | _, [] => []
  | skip + 1, _ :: cs => replaceAllAux pattern replacement skip cs
  | 0, c :: cs =>
    if pattern.isPrefixOf (c :: cs) then
      replacement ++ replaceAllAux pattern replacement (pattern.length - 1) cs
    else
      c :: replaceAllAux pattern replacement 0 cs

/-- `text.replaceAll(pattern, replacement)` for a non-empty string `pattern` and a
replacement without `$`: every occurrence found scanning left to right, each search resuming
after the previous match, is replaced. -/
def replaceAll (pattern replacement text : Str) : Str :=
  replaceAllAux pattern replacement 0 text

/-- `s.split(sep)` for a one-character separator. -/
def split (sep : Char) : Str → List Str
  | [] => [[]]
  | c :: cs =>
    if c = sep then [] :: split sep cs
    else
      match split sep cs with
      | [] => [[c]]
      | seg :: segs => (c :: seg) :: segs

/-- Stable insertion for `sort((a, b) => b.length - a.length)`: `a`, which precedes the
elements of the list in the original order, goes before the first element that is not
strictly longer. -/
def insertByLength (a : Str) : List Str → List Str
  | [] => [a]
  | b :: bs => if b.length > a.length then b :: insertByLength a bs else a :: b :: bs

/-- `keys.sort((a, b) => b.length - a.length)`; `Array.prototype.sort` is stable. -/
def sortByLength (keys : List Str) : List Str :=
  keys.foldr insertByLength []

/-- A stand-in for `toLowerCase` on Basic Latin: `A`-`Z` go to `a`-`z`, every other
character is kept.  It agrees with the builtin on strings whose only cased characters are
Basic Latin or already lower case. -/
def asciiToLowerCase (s : Str) : Str :=
  s.map fun c => if 65 ≤ c.toNat ∧ c.toNat ≤ 90 then Char.ofNat (c.toNat + 32) else c

/-! ## addViseme (lines 187-201) -/

/-- The output object of `wordsToVisemes`. -/
structure Output where
  words : Str
  visemes : List Str
  times : List ℚ
  durations : List ℚ
deriving DecidableEq

/-- `this.visemeDurations[viseme] || 1`: an own entry unless it is zero, else `1`; `none` when
the read yields an inherited member of `Object.prototype`, which is truthy and not a
number. -/
def durationOrOne (viseme : Str) : Option ℚ :=
  match getMember visemeDurations viseme with
  | Member.own d => some (if d = 0 then 1 else d)
  | Member.undefined => some 1
  | Member.inherited => none

/-- `durations[durations.length - 1] += x`.  On an empty array the assignment would only
create the property `-1`; the elements, none, are unchanged. -/
def addToLast (x : ℚ) : List ℚ → List ℚ
  | [] => []
  | [d] => [d + x]
  | d :: ds => d :: addToLast x ds

/-- `addViseme(output, viseme, currentTime)`: the mutated output object and the returned time
position; `none` when the duration read is not a number. -/
def addViseme (output : Output) (viseme : Str) (currentTime : ℚ) : Option (Output × ℚ) :=
  if output.visemes.length ≠ 0 ∧ output.visemes.getLast? = some viseme then
    -- Extend duration for consecutive identical visemes (70% overlap)
    (durationOrOne viseme).map fun d =>
      let extensionDuration := 7/10 * d
      ({ output with durations := addToLast extensionDuration output.durations },
        currentTime + extensionDuration)
  else
    -- Add new viseme
    (durationOrOne viseme).map fun duration =>
      ({ output with
          visemes := output.visemes ++ [viseme]
          times := output.times ++ [currentTime]
          durations := output.durations ++ [duration] },
        currentTime + duration)

/-! ## wordsToVisemes (lines 208-254) -/

/-- The loop state: the output object and `currentTime`. -/
abbrev State := Output × ℚ

/-- `Object.keys(this.letterRules).sort((a, b) => b.length - a.length)` (line 218). -/
def patterns : List Str :=
  sortByLength (letterRules.map Prod.fst)

/-- Body of the Pass 1 loop (lines 221-223); every pattern is a key of `letterRules`. -/
def applyRule (processedText pattern : Str) : Str :=
  match letterRules.lookup pattern with
  | some phoneme => replaceAll pattern ('|' :: phoneme ++ ['|']) processedText
  | none => processedText

/-- Pass 1 (lines 220-224). -/
def rewrite (processedText : Str) : Str :=
  patterns.foldl applyRule processedText

/-- The loop `for (const viseme of visemeSequence)` (lines 233-235). -/
def addVisemes (st : State) : List Str → Except Failure State
  | [] => Except.ok st
  | viseme :: rest =>
    match addViseme st.1 viseme st.2 with
    | some st1 => addVisemes st1 rest
    | none => Except.error Failure.outsideModel

/-- Lines 240-244: the character has a phoneme; its viseme, if any, is added unsplit. -/
def visemeStep (st : State) (phoneme : Str) : Except Failure State :=
  match getMember phonemeToViseme phoneme with
  | Member.own viseme =>
    if viseme ≠ [] then
      match addViseme st.1 viseme st.2 with
      | some st1 => Except.ok st1
      | none => Except.error Failure.outsideModel
    else Except.ok st
  | Member.undefined => Except.ok st
  | Member.inherited => Except.error Failure.outsideModel

/-- Lines 245-248: `else if (this.specialDurations[char] !== undefined)`, spaces and
punctuation. -/
def pauseStep (st : State) (char : Char) : Except Failure State :=
  match getMember specialDurations [char] with
  | Member.own d => Except.ok (st.1, st.2 + d)
  | Member.undefined => Except.ok st
  | Member.inherited => Except.error Failure.outsideModel

/-- Body of the character loop (lines 239-248). -/
def processChar (st : State) (char : Char) : Except Failure State :=
  match getMember letterToPhoneme [char] with
  | Member.own phoneme => if phoneme ≠ [] then visemeStep st phoneme else pauseStep st char
  | Member.undefined => pauseStep st char
  | Member.inherited => Except.error Failure.outsideModel

/-- The loop `for (const char of segment)` (lines 238-249). -/
def processChars (st : State) : Str → Except Failure State
  | [] => Except.ok st
  | char :: rest =>
    match processChar st char with
    | Except.ok st1 => processChars st1 rest
    | Except.error e => Except.error e

/-- Body of the Pass 2 loop (lines 230-250).  When `this.phonemeToViseme[segment]` is an
inherited member it is truthy and has no `split` method: the call throws a `TypeError`. -/
def processSegment (st : State) (segment : Str) : Except Failure State :=
  match getMember phonemeToViseme segment with
  | Member.own value =>
    if value ≠ [] then addVisemes st (split ' ' value) else processChars st segment
  | Member.inherited => Except.error Failure.typeError
  | Member.undefined => processChars st segment

/-- The loop `for (const segment of segments)` (lines 229-251). -/
def processSegments (st : State) : List Str → Except Failure State
  | [] => Except.ok st
  | segment :: rest =>
    match processSegment st segment with
    | Except.ok st1 => processSegments st1 rest
    | Except.error e => Except.error e

/-- `processedText.split('|').filter(s => s.length > 0)` (line 227). -/
def segments (processedText : Str) : List Str :=
  (split '|' processedText).filter fun s => s.length > 0

/-- The output object as `wordsToVisemes` creates it (line 209). -/
def emptyOutput (text : Str) : Output :=
  { words := text, visemes := [], times := [], durations := [] }

/-- `wordsToVisemes(text)`, with the host's `toLowerCase` as a parameter. -/
def wordsToVisemes (toLowerCase : Str → Str) (text : Str) : Except Failure Output :=
  let output : Output := emptyOutput text
  let currentTime : ℚ := 0
  if text = [] ∨ (trim text).length = 0 then Except.ok output
  else
    let processedText := rewrite (toLowerCase text)
    Except.map Prod.fst (processSegments (output, currentTime) (segments processedText))

/-! ## Vocabulary used by the statements -/

/-- The closed viseme vocabulary: the keys of `visemeDurations`. -/
def vocabulary : List Str :=
  visemeDurations.map Prod.fst

/-- Every character that occurs in a key of `letterRules`, `phonemeToViseme`,
`letterToPhoneme` or `specialDurations`. -/
def tableKeyChars : List Char :=
  (letterRules.map Prod.fst ++ phonemeToViseme.map Prod.fst ++ letterToPhoneme.map Prod.fst
    ++ specialDurations.map Prod.fst).flatten

/-- The entries of the output in sequence: the end of each one (start plus duration) stands
in relation `R` to the start of the next one, and the end of the last one to the time
position. -/
def Separated (R : ℚ → ℚ → Prop) (st : State) : Prop :=
  st.1.times.length = st.1.durations.length ∧
  (st.1.times.zip st.1.durations).Chain' (fun a b => R (a.1 + a.2) b.1) ∧
  ∀ e ∈ (st.1.times.zip st.1.durations).getLast?, R (e.1 + e.2) st.2

/-! ## Number words and symbols (constructor, lines 99-109) -/

/-- German number words (`this.ones`, line 100). -/
def ones : List Str :=
  [ "null".toList, "eins".toList, "zwei".toList, "drei".toList, "vier".toList, "fünf".toList,
    "sechs".toList, "sieben".toList, "acht".toList, "neun".toList ]

/-- The words for 10 to 19 (`this.teens`, line 101). -/
def teens : List Str :=
  [ "zehn".toList, "elf".toList, "zwölf".toList, "dreizehn".toList, "vierzehn".toList,
    "fünfzehn".toList, "sechzehn".toList, "siebzehn".toList, "achtzehn".toList,
    "neunzehn".toList ]

/-- The words for the tens (`this.tens`, line 102). -/
def tens : List Str :=
  [ [], [], "zwanzig".toList, "dreißig".toList, "vierzig".toList, "fünfzig".toList,
    "sechzig".toList, "siebzig".toList, "achtzig".toList, "neunzig".toList ]

/-- German symbols to words (`this.symbols`, lines 105-108). -/
def symbols : List (Str × Str) :=
  [ ("%".toList, "Prozent".toList), ("€".toList, "Euro".toList), ("&".toList, "und".toList),
    ("+".toList, "plus".toList), ("$".toList, "Dollar".toList),
    ("=".toList, "gleich".toList), ("@".toList, "at".toList), ("#".toList, "Hashtag".toList),
    ("*".toList, "Stern".toList) ]

/-- The character class of `this.symbolsReg`, `/[%€&\+\$=@#\*]/g` (line 109). -/
def symbolsReg : List Char :=
  ['%', '€', '&', '+', '$', '=', '@', '#', '*']

/-! ## numberToGermanWords (lines 117-144) -/

/-- The argument `{string|number} num` of `numberToGermanWords`.  A number is integer-valued;
the embedding follows the code exactly as long as no number of 2^53 or more has to be
printed. -/
inductive NumArg where
  | str (s : Str)
  | num (n : ℤ)
deriving DecidableEq

/-- Value of a character as a digit in radix 10 or 16. -/
def digitValue (radix : ℕ) (c : Char) : Option ℕ :=
  if c.isDigit then some (c.toNat - 48)
  else if radix = 16 ∧ 'a' ≤ c ∧ c ≤ 'f' then some (c.toNat - 87)
  else if radix = 16 ∧ 'A' ≤ c ∧ c ≤ 'F' then some (c.toNat - 55)
  else none

/-- Value of the longest prefix of digits; `none` when the string starts with no digit. -/
def parseDigits (radix : ℕ) : Option ℕ → Str → Option ℕ
  | acc, [] => acc
  | acc, c :: cs =>
    match digitValue radix c with
    | some d => parseDigits radix (some (acc.getD 0 * radix + d)) cs
    | none => acc

/-- The optional sign of `parseInt`: the sign and the rest of the string. -/
def stripSign : Str → ℤ × Str
  | '-' :: rest => (-1, rest)
  | '+' :: rest => (1, rest)
  | s => (1, s)

/-- The optional `0x` or `0X` prefix of `parseInt`: the radix and the rest of the string. -/
def stripRadix : Str → ℕ × Str
  | '0' :: 'x' :: rest => (16, rest)
  | '0' :: 'X' :: rest => (16, rest)
  | s => (10, s)

/-- `parseInt(string)` without a radix argument: leading white space, an optional sign, an
optional hexadecimal prefix, then the longest prefix of digits; `none` is `NaN`.  The value
is the exact integer. -/
def parseIntString (s : Str) : Option ℤ :=
  let signed := stripSign (s.dropWhile isWhiteSpace)
  let based := stripRadix signed.2
  (parseDigits based.1 none based.2).map fun v => signed.1 * (v : ℤ)

/-- `Number.prototype.toString` on an integer. -/
def numberToString (n : ℤ) : Str :=
  if n < 0 then '-' :: Nat.toDigits 10 n.natAbs else Nat.toDigits 10 n.natAbs

/-- `parseInt(num)`; a number is first converted to a string, which gives it back. -/
def parseInt : NumArg → Option ℤ
  | NumArg.str s => parseIntString s
  | NumArg.num n => some n

/-- The string `num.toString()`. -/
def NumArg.toStr : NumArg → Str
  | NumArg.str s => s
  | NumArg.num n => numberToString n

/-- `[...num.toString()].map(digit => this.ones[parseInt(digit)]).join(" ")` (line 143); an
element that is `undefined` is joined as the empty string. -/
def spellDigits (s : Str) : Str :=
  List.intercalate [' '] (s.map fun digit =>
    match parseIntString [digit] with
    | some d => ones.getD d.toNat []
    | none => [])

/-- Measure by which the recursion of `numberToGermanWords` goes down. -/
def NumArg.size (num : NumArg) : ℕ :=
  match parseInt num with
  | none => 0
  | some n => 2 * n.natAbs + (if n < 0 then 1 else 0)

/-- `numberToGermanWords(num)` (lines 117-144).  Every index into `ones`, `teens` and `tens`
is in range. -/
def numberToGermanWords (num : NumArg) : Str :=
  match _hparse : parseInt num with
  | none => num.toStr
  | some n =>
    if _h0 : n = 0 then "null".toList
    else if _hneg : n < 0 then "minus ".toList ++ numberToGermanWords (NumArg.num (-n))
    else if _h10 : n < 10 then ones.getD n.toNat []
    else if _h20 : n < 20 then teens.getD (n.toNat - 10) []
    else if _h100 : n < 100 then
      let tens_ := n.toNat / 10
      let ones_ := n.toNat % 10
      (if ones_ > 0 then ones.getD ones_ [] ++ "und".toList else []) ++ tens.getD tens_ []
    else if _h1000 : n < 1000 then
      let hundreds := n.toNat / 100
      let remainder := n.toNat % 100
      ones.getD hundreds [] ++ "hundert".toList ++
        (if remainder > 0 then numberToGermanWords (NumArg.num remainder) else [])
    else if _h1000000 : n < 1000000 then
      let thousands := n.toNat / 1000
      let remainder := n.toNat % 1000
      numberToGermanWords (NumArg.num thousands) ++ "tausend".toList ++
        (if remainder > 0 then numberToGermanWords (NumArg.num remainder) else [])
    else spellDigits num.toStr
termination_by num.size
decreasing_by
  all_goals simp only [NumArg.size]
  all_goals rw [_hparse]
  all_goals simp only [parseInt]
  all_goals split_ifs <;> omega

/-! ## preProcessText (lines 151-178)

The regular expressions carry no `u` flag, so they see UTF-16 code units.  Every class used
contains Basic Multilingual Plane characters only, which makes matching by code point the
same, except for `\D`: it matches each half of a surrogate pair, and two halves in a row are
never equal. -/

/-- `.replace(this.symbolsReg, (symbol) => ' ' + this.symbols[symbol] + ' ')` (line 154). -/
def replaceSymbols (s : Str) : Str :=
  s.flatMap fun symbol =>
    if symbol ∈ symbolsReg then
      match symbols.lookup [symbol] with
      | some word => ' ' :: word ++ [' ']
      | none => ' ' :: "undefined".toList ++ [' ']
    else [symbol]

/-- Where the scan of `/(\d+),(\d+)/g` stands: not after digits, after digits that can still
open a match, or inside the second group of a match. -/
inductive CommaState where
  | noDigits
  | freshDigits
  | secondGroup
deriving DecidableEq

/-- One pass for `.replace(/(\d+),(\d+)/g, '$1 Komma $2')`: a comma is rewritten when the
digits before it have not been used as the second group of the previous match and a digit
follows. -/
def decimalCommaAux : CommaState → Str → Str
  | _, [] => []
  | state, c :: cs =>
    if c.isDigit then
      c :: decimalCommaAux (if state = CommaState.secondGroup then state
                            else CommaState.freshDigits) cs
    else if c = ',' ∧ state = CommaState.freshDigits ∧ (cs.head?.map Char.isDigit) = some true then
      " Komma ".toList ++ decimalCommaAux CommaState.secondGroup cs
    else c :: decimalCommaAux CommaState.noDigits cs

/-- German decimal notation (line 157). -/
def decimalComma (s : Str) : Str :=
  decimalCommaAux CommaState.noDigits s

/-- The replacement of a finished run of digits: nothing for no run. -/
def flushDigits (run : Str) : Str :=
  if run = [] then [] else numberToGermanWords (NumArg.str run)

/-- One pass for `.replace(/\d+/g, this.numberToGermanWords.bind(this))`: `run` collects the
digits of the current match. -/
def replaceNumbersAux : Str → Str → Str
  | run, [] => flushDigits run
  | run, c :: cs =>
    if c.isDigit then replaceNumbersAux (run ++ [c]) cs
    else flushDigits run ++ c :: replaceNumbersAux [] cs

/-- Convert numbers to German words (line 160): every maximal run of digits is replaced by
the result of `numberToGermanWords` on it. -/
def replaceNumbers (s : Str) : Str :=
  replaceNumbersAux [] s

/-- Remove unwanted characters, `.replace(/[#_*"":;]/g, '')` (line 163). -/
def removeUnwanted (s : Str) : Str :=
  s.filter fun c => c ∉ ['#', '_', '*', '"', ':', ';']

/-- A code unit that `(\D)` can capture three times in a row: not a digit and not half of a
surrogate pair. -/
def repeatable (c : Char) : Bool :=
  !c.isDigit && c.toNat < 0x10000

/-- One pass for `.replace(/(\D)\1\1+/g, "$1$1")`: `count` is the number of times `prev` has
been seen in a row; from the third time on the character is dropped. -/
def limitRepetitionAux : Option Char → ℕ → Str → Str
  | _, _, [] => []
  | prev, count, c :: cs =>
    if prev = some c ∧ repeatable c = true then
      if 2 ≤ count then limitRepetitionAux prev count cs
      else c :: limitRepetitionAux prev (count + 1) cs
    else c :: limitRepetitionAux (some c) 1 cs

/-- Limit character repetition to two (line 166). -/
def limitRepetition (s : Str) : Str :=
  limitRepetitionAux none 0 s

/-- One pass for `.replace(/\s+/g, ' ')`: `inRun` tells that the previous character was white
space, already replaced by the space. -/
def normalizeSpacingAux : Bool → Str → Str
  | _, [] => []
  | inRun, c :: cs =>
    if isWhiteSpace c then
      if inRun then normalizeSpacingAux true cs else ' ' :: normalizeSpacingAux true cs
    else c :: normalizeSpacingAux false cs

/-- Normalize spacing (line 169). -/
def normalizeSpacing (s : Str) : Str :=
  normalizeSpacingAux false s

/-- Remove the combining marks U+0300 to U+036F (line 173). -/
def stripMarks (s : Str) : Str :=
  s.filter fun c => !(0x300 ≤ c.toNat && c.toNat ≤ 0x36f)

/-- `preProcessText(s)`, with the host's `normalize('NFD')` and `normalize('NFC')` as
parameters. -/
def preProcessText (nfd nfc : Str → Str) (s : Str) : Str :=
  trim (nfc (stripMarks (nfd (normalizeSpacing (limitRepetition (removeUnwanted
    (replaceNumbers (decimalComma (replaceSymbols s)))))))))

/-- Canonical decompositions, from the Unicode Character Database, of the letters of the
Latin-1 Supplement block and of U+2260 (not equal to). -/
def canonicalDecompositions : List (ℕ × List ℕ) :=
  [
    (0x00C0, [0x0041, 0x0300]), (0x00C1, [0x0041, 0x0301]), (0x00C2, [0x0041, 0x0302]), (0x00C3, [0x0041, 0x0303]),
    (0x00C4, [0x0041, 0x0308]), (0x00C5, [0x0041, 0x030A]), (0x00C7, [0x0043, 0x0327]), (0x00C8, [0x0045, 0x0300]),
    (0x00C9, [0x0045, 0x0301]), (0x00CA, [0x0045, 0x0302]), (0x00CB, [0x0045, 0x0308]), (0x00CC, [0x0049, 0x0300]),
    (0x00CD, [0x0049, 0x0301]), (0x00CE, [0x0049, 0x0302]), (0x00CF, [0x0049, 0x0308]), (0x00D1, [0x004E, 0x0303]),
    (0x00D2, [0x004F, 0x0300]), (0x00D3, [0x004F, 0x0301]), (0x00D4, [0x004F, 0x0302]), (0x00D5, [0x004F, 0x0303]),
    (0x00D6, [0x004F, 0x0308]), (0x00D9, [0x0055, 0x0300]), (0x00DA, [0x0055, 0x0301]), (0x00DB, [0x0055, 0x0302]),
    (0x00DC, [0x0055, 0x0308]), (0x00DD, [0x0059, 0x0301]), (0x00E0, [0x0061, 0x0300]), (0x00E1, [0x0061, 0x0301]),
    (0x00E2, [0x0061, 0x0302]), (0x00E3, [0x0061, 0x0303]), (0x00E4, [0x0061, 0x0308]), (0x00E5, [0x0061, 0x030A]),
    (0x00E7, [0x0063, 0x0327]), (0x00E8, [0x0065, 0x0300]), (0x00E9, [0x0065, 0x0301]), (0x00EA, [0x0065, 0x0302]),
    (0x00EB, [0x0065, 0x0308]), (0x00EC, [0x0069, 0x0300]), (0x00ED, [0x0069, 0x0301]), (0x00EE, [0x0069, 0x0302]),
    (0x00EF, [0x0069, 0x0308]), (0x00F1, [0x006E, 0x0303]), (0x00F2, [0x006F, 0x0300]), (0x00F3, [0x006F, 0x0301]),
    (0x00F4, [0x006F, 0x0302]), (0x00F5, [0x006F, 0x0303]), (0x00F6, [0x006F, 0x0308]), (0x00F9, [0x0075, 0x0300]),
    (0x00FA, [0x0075, 0x0301]), (0x00FB, [0x0075, 0x0302]), (0x00FC, [0x0075, 0x0308]), (0x00FD, [0x0079, 0x0301]),
    (0x00FF, [0x0079, 0x0308]), (0x2260, [0x003D, 0x0338]) ]

/-- A stand-in for `normalize('NFD')`: each character is replaced by its entry in
`canonicalDecompositions`.  It agrees with the builtin on strings made of Basic Latin and
Latin-1 Supplement characters and U+2260. -/
def nfdLatin (s : Str) : Str :=
  s.flatMap fun c =>
    match canonicalDecompositions.lookup c.toNat with
    | some d => d.map Char.ofNat
    | none => [c]

/-- A stand-in for `normalize('NFC')`: the identity.  It agrees with the builtin on strings
without combining marks. -/
def nfcLatin (s : Str) : Str :=
  s

/-- A numeric string in the sense of the specification: after optional leading white space
and an optional sign it starts with a decimal digit. -/
def isNumeric (s : Str) : Bool :=
  match (stripSign (s.dropWhile isWhiteSpace)).2 with
  | c :: _ => c.isDigit
  | [] => false

/-- The word `w` stands in `t` between two spaces. -/
def Padded (w t : Str) : Prop :=
  ∃ A B, t = A ++ ' ' :: (w ++ ' ' :: B)

/-! ## Number arithmetic of the host (lines 190-199 and 247)

A JavaScript number is an IEEE 754 binary64 value, and every `+` and `*` rounds its exact
result to the nearest one.  `addViseme` and `wordsToVisemes` above compute in exact
rationals.  The definitions of this section repeat them with the rounding `fl` of the
arithmetic as a parameter: a numeric literal `x` of the source denotes `fl x`, a sum
`fl (a + b)`, a product `fl (a * b)`.  With `fl = id` they are the exact ones, with
`fl = roundDouble` they compute the numbers that the code computes.  `roundDouble` has no
largest and no smallest exponent: it is the binary64 rounding of zero and of every number
whose magnitude lies between the smallest normal number `2 ^ -1022` and the largest number
`2 ^ 1024 - 2 ^ 971`, the range that the durations of a string and their sums stay in. -/

/-- Rounding of a rational to the nearest integer, a tie going to the even one. -/
def roundHalfEven (z : ℚ) : ℤ :=
  if z - ⌊z⌋ < 1/2 then ⌊z⌋
  else if 1/2 < z - ⌊z⌋ then ⌊z⌋ + 1
  else if ⌊z⌋ % 2 = 0 then ⌊z⌋ else ⌊z⌋ + 1

/-- The unit in the last place of the binary64 numbers of the binade of `q`, for `0 < q`:
with `2 ^ k ≤ q < 2 ^ (k + 1)` the 53-bit significands are the multiples of `2 ^ (k - 52)`. -/
def ulp (q : ℚ) : ℚ :=
  2 ^ (Int.log 2 q - 52)

/-- Rounding of a positive rational to the nearest binary64 number. -/
def roundPos (q : ℚ) : ℚ :=
  roundHalfEven (q / ulp q) * ulp q

/-- The Number value of a rational: IEEE 754 binary64, round to nearest, ties to even. -/
def roundDouble (q : ℚ) : ℚ :=
  if q = 0 then 0 else if 0 < q then roundPos q else -roundPos (-q)

/-- `this.visemeDurations[viseme] || 1` over the arithmetic `fl`: the literals of the table
and the literal `1` denote their values under `fl`. -/
def durationOrOneRounded (fl : ℚ → ℚ) (viseme : Str) : Option ℚ :=
  match getMember visemeDurations viseme with
  | Member.own d => some (if fl d = 0 then fl 1 else fl d)
  | Member.undefined => some (fl 1)
  | Member.inherited => none

/-- `durations[durations.length - 1] += x` over the arithmetic `fl`. -/
def addToLastRounded (fl : ℚ → ℚ) (x : ℚ) : List ℚ → List ℚ
  | [] => []
  | [d] => [fl (d + x)]
  | d :: ds => d :: addToLastRounded fl x ds

/-- `addViseme(output, viseme, currentTime)` (lines 187-201) over the arithmetic `fl`. -/
def addVisemeRounded (fl : ℚ → ℚ) (output : Output) (viseme : Str) (currentTime : ℚ) :
    Option (Output × ℚ) :=
  if output.visemes.length ≠ 0 ∧ output.visemes.getLast? = some viseme then
    -- Extend duration for consecutive identical visemes (70% overlap)
    (durationOrOneRounded fl viseme).map fun d =>
      let extensionDuration := fl (fl (7/10) * d)
      ({ output with durations := addToLastRounded fl extensionDuration output.durations },
        fl (currentTime + extensionDuration))
  else
    -- Add new viseme
    (durationOrOneRounded fl viseme).map fun duration =>
      ({ output with
          visemes := output.visemes ++ [viseme]
          times := output.times ++ [currentTime]
          durations := output.durations ++ [duration] },
        fl (currentTime + duration))

/-- The loop `for (const viseme of visemeSequence)` (lines 233-235) over `fl`. -/
def addVisemesRounded (fl : ℚ → ℚ) (st : State) : List Str → Except Failure State
  | [] => Except.ok st
  | viseme :: rest =>
    match addVisemeRounded fl st.1 viseme st.2 with
    | some st1 => addVisemesRounded fl st1 rest
    | none => Except.error Failure.outsideModel

/-- Lines 240-244 over `fl`. -/
def visemeStepRounded (fl : ℚ → ℚ) (st : State) (phoneme : Str) : Except Failure State :=
  match getMember phonemeToViseme phoneme with
  | Member.own viseme =>
    if viseme ≠ [] then
      match addVisemeRounded fl st.1 viseme st.2 with
      | some st1 => Except.ok st1
      | none => Except.error Failure.outsideModel
    else Except.ok st
  | Member.undefined => Except.ok st
  | Member.inherited => Except.error Failure.outsideModel

/-- Lines 245-248 over `fl`: `currentTime += this.specialDurations[char]`. -/
def pauseStepRounded (fl : ℚ → ℚ) (st : State) (char : Char) : Except Failure State :=
  match getMember specialDurations [char] with
  | Member.own d => Except.ok (st.1, fl (st.2 + fl d))
  | Member.undefined => Except.ok st
  | Member.inherited => Except.error Failure.outsideModel

/-- Body of the character loop (lines 239-248) over `fl`. -/
def processCharRounded (fl : ℚ → ℚ) (st : State) (char : Char) : Except Failure State :=
  match getMember letterToPhoneme [char] with
  | Member.own phoneme =>
    if phoneme ≠ [] then visemeStepRounded fl st phoneme else pauseStepRounded fl st char
  | Member.undefined => pauseStepRounded fl st char
  | Member.inherited => Except.error Failure.outsideModel

/-- The loop `for (const char of segment)` (lines 238-249) over `fl`. -/
def processCharsRounded (fl : ℚ → ℚ) (st : State) : Str → Except Failure State
  | [] => Except.ok st
  | char :: rest =>
    match processCharRounded fl st char with
    | Except.ok st1 => processCharsRounded fl st1 rest
    | Except.error e => Except.error e

/-- Body of the Pass 2 loop (lines 230-250) over `fl`. -/
def processSegmentRounded (fl : ℚ → ℚ) (st : State) (segment : Str) : Except Failure State :=
  match getMember phonemeToViseme segment with
  | Member.own value =>
    if value ≠ [] then addVisemesRounded fl st (split ' ' value)
    else processCharsRounded fl st segment
  | Member.inherited => Except.error Failure.typeError
  | Member.undefined => processCharsRounded fl st segment

/-- The loop `for (const segment of segments)` (lines 229-251) over `fl`. -/
def processSegmentsRounded (fl : ℚ → ℚ) (st : State) : List Str → Except Failure State
  | [] => Except.ok st
  | segment :: rest =>
    match processSegmentRounded fl st segment with
    | Except.ok st1 => processSegmentsRounded fl st1 rest
    | Except.error e => Except.error e

/-- `wordsToVisemes(text)` (lines 208-254) over the arithmetic `fl`, with the host's
`toLowerCase` as a parameter. -/
def wordsToVisemesRounded (fl : ℚ → ℚ) (toLowerCase : Str → Str) (text : Str) :
    Except Failure Output :=
  let output : Output := emptyOutput text
  let currentTime : ℚ := 0
  if text = [] ∨ (trim text).length = 0 then Except.ok output
  else
    let processedText := rewrite (toLowerCase text)
    Except.map Prod.fst
      (processSegmentsRounded fl (output, currentTime) (segments processedText))

/-- The duration with which an entry for `viseme` is appended (`duration`, line 196); `0`
where the read is not a number. -/
def baseDuration (fl : ℚ → ℚ) (viseme : Str) : ℚ :=
  (durationOrOneRounded fl viseme).getD 0

/-- One coalescing extension (lines 190-192) applied to `x`, the last duration or the time
position: `x + extensionDuration` with `extensionDuration = 0.7 * baseDuration`. -/
def extend (fl : ℚ → ℚ) (viseme : Str) (x : ℚ) : ℚ :=
  fl (x + fl (fl (7/10) * baseDuration fl viseme))

/-- The entry `e = (viseme, time, duration)` was appended and then extended `k` times, and
the time position `next` stands in relation `R` to the value that the same `k` extensions
give when they start from the end of the appended entry, `time + baseDuration`. -/
def Linked (fl : ℚ → ℚ) (R : ℚ → ℚ → Prop) (e : Str × ℚ × ℚ) (next : ℚ) : Prop :=
  ∃ k : ℕ, e.2.2 = Nat.iterate (extend fl e.1) k (baseDuration fl e.1) ∧
    R (Nat.iterate (extend fl e.1) k (fl (e.2.1 + baseDuration fl e.1))) next

/-- The entries of the output, each with its viseme, start time and duration. -/
def entries (output : Output) : List (Str × ℚ × ℚ) :=
  output.visemes.zip (output.times.zip output.durations)

/-- Loop invariant over the arithmetic `fl`: the three lists run in parallel, the time
position is a number of the arithmetic, every entry is linked to the start of the next one
and the last entry to the time position. -/
def SeparatedRounded (fl : ℚ → ℚ) (R : ℚ → ℚ → Prop) (st : State) : Prop :=
  st.1.visemes.length = st.1.times.length ∧ st.1.times.length = st.1.durations.length ∧
  fl st.2 = st.2 ∧
  (entries st.1).Chain' (fun a b => Linked fl R a b.2.1) ∧
  ∀ e ∈ (entries st.1).getLast?, Linked fl R e st.2

deriving instance DecidableEq for Except

/-! ## Facts about the tables -/

theorem lookup_mem {α : Type} (key : Str) (value : α) :
    ∀ obj : List (Str × α), obj.lookup key = some value → (key, value) ∈ obj
  | [], h => by simp at h
  | (k, v) :: rest, h => by
    by_cases hk : key = k
    · subst hk
      simp [List.lookup] at h
      simp [h]
    · have hb : (key == k) = false := by simpa using hk
      simp only [List.lookup, hb] at h
      exact List.mem_cons_of_mem _ (lookup_mem key value rest h)

theorem visemeDurations_pos : ∀ e ∈ visemeDurations, 0 < e.2 := by decide!

theorem specialDurations_nonneg : ∀ e ∈ specialDurations, 0 ≤ e.2 := by decide!

theorem durationOrOne_pos (viseme : Str) (d : ℚ) (h : durationOrOne viseme = some d) :
    0 < d := by
  unfold durationOrOne getMember at h
  cases hl : visemeDurations.lookup viseme with
  | none =>
    rw [hl] at h
    by_cases hp : viseme ∈ objectPrototypeKeys
    · simp [hp] at h
    · simp [hp] at h
      rw [← h]; norm_num
  | some x =>
    rw [hl] at h
    have hx := visemeDurations_pos _ (lookup_mem viseme x _ hl)
    simp only [Option.some.injEq] at h
    rw [← h]
    split_ifs with h0
    · norm_num
    · exact hx

theorem durationOrOne_eq (viseme : Str) (h : viseme ∉ objectPrototypeKeys) :
    durationOrOne viseme = some ((visemeDurations.lookup viseme).getD 1) := by
  unfold durationOrOne getMember
  cases hl : visemeDurations.lookup viseme with
  | none => simp [h]
  | some x =>
    have hx := visemeDurations_pos _ (lookup_mem viseme x _ hl)
    simp [ne_of_gt hx]

/-! ## Coalescing of a run of one viseme -/

theorem addVisemes_repeat (words viseme : Str) (d : ℚ) (hd : durationOrOne viseme = some d) :
    ∀ (n : ℕ) (x t : ℚ),
      addVisemes (⟨words, [viseme], [0], [x]⟩, t) (List.replicate n viseme) =
        Except.ok (⟨words, [viseme], [0], [x + n * (7/10) * d]⟩, t + n * (7/10) * d)
  | 0, x, t => by simp [addVisemes]
  | n + 1, x, t => by
    have ih := addVisemes_repeat words viseme d hd n (x + 7/10 * d) (t + 7/10 * d)
    simp only [List.replicate_succ, addVisemes, addViseme, hd]
    simp only [List.length_singleton, ne_eq, one_ne_zero, not_false_eq_true,
      List.getLast?_singleton, and_self, ↓reduceIte, Option.map_some', addToLast]
    rw [ih]
    have e1 : x + 7 / 10 * d + (n : ℚ) * (7 / 10) * d
        = x + ((n + 1 : ℕ) : ℚ) * (7 / 10) * d := by
      push_cast; ring
    have e2 : t + 7 / 10 * d + (n : ℚ) * (7 / 10) * d
        = t + ((n + 1 : ℕ) : ℚ) * (7 / 10) * d := by
      push_cast; ring
    rw [e1, e2]

/-- The coalescing law in exact arithmetic.  For every viseme token whose duration read
`visemeDurations[v]` is a number or absent (that is, `v` does not name a member of `Object.prototype`) and every
`N ≥ 1`: feeding `v` to `addViseme` `N` times in a row, from an empty output and cursor `0`
and threading the returned cursor as the loop of lines 233-235 does, leaves the single entry
`visemes = [v]`, `times = [0]` with duration `d + (N-1) * 0.7 * d`, `d` being
`visemeDurations[v]` or `1` when absent, and the final cursor is that duration.  Moreover
`wordsToVisemes("mmm")` has `visemes = ["PP"]`, `durations = [1.08 + 2 * 0.7 * 1.08]`:
one entry for three input characters. -/
theorem addViseme_coalescing_law (words viseme : Str) (N : ℕ) (hN : 1 ≤ N)
    (hv : viseme ∉ objectPrototypeKeys) :
    (addVisemes (⟨words, [], [], []⟩, 0) (List.replicate N viseme) =
        Except.ok
          (⟨words, [viseme], [0],
              [(visemeDurations.lookup viseme).getD 1
                + ((N : ℚ) - 1) * (7 / 10) * (visemeDurations.lookup viseme).getD 1]⟩,
            (visemeDurations.lookup viseme).getD 1
              + ((N : ℚ) - 1) * (7 / 10) * (visemeDurations.lookup viseme).getD 1))
    ∧ wordsToVisemes asciiToLowerCase "mmm".toList =
        Except.ok ⟨"mmm".toList, ["PP".toList], [0], [108 / 100 + 2 * (7 / 10) * (108 / 100)]⟩
    ∧ (["PP".toList] : List Str).length < "mmm".toList.length := by
  refine ⟨?_, by decide!, by decide⟩
  obtain ⟨n, rfl⟩ : ∃ n, N = n + 1 := ⟨N - 1, by omega⟩
  have hd := durationOrOne_eq viseme hv
  have h := addVisemes_repeat words viseme _ hd n ((visemeDurations.lookup viseme).getD 1)
    (0 + (visemeDurations.lookup viseme).getD 1)
  simp only [List.replicate_succ, addVisemes, addViseme, hd]
  simp only [List.length_nil, ne_eq, not_true_eq_false, false_and, ↓reduceIte, Option.map_some',
    List.nil_append]
  rw [h]
  simp

/-- The exact-arithmetic law at three calls with the token `PP`. -/
theorem addViseme_coalescing_law_witness :
    1 ≤ 3 ∧ "PP".toList ∉ objectPrototypeKeys ∧
    addVisemes (⟨[], [], [], []⟩, 0) (List.replicate 3 "PP".toList) =
      Except.ok (⟨[], ["PP".toList], [0], [108 / 100 + 2 * (7 / 10) * (108 / 100)]⟩,
        108 / 100 + 2 * (7 / 10) * (108 / 100)) :=
  ⟨by decide, by decide, by
    have h := (addViseme_coalescing_law [] "PP".toList 3 (by decide) (by decide)).1
    rw [h]
    decide!⟩

/-- C2 (longest pattern wins).  The patterns are applied in non-increasing length order (a
pattern comes only after all strictly longer ones), they are exactly the keys of
`letterRules`, and every pattern given as the whole input is rewritten to its own delimited
phoneme, also when it contains a shorter pattern.  `wordsToVisemes("tsch")` yields `["CH"]`
and `wordsToVisemes("sch")` yields `["SS"]`. -/
theorem longest_pattern_wins :
    List.Pairwise (fun a b : Str => b.length ≤ a.length) patterns
    ∧ patterns.Perm (letterRules.map Prod.fst)
    ∧ (∀ r ∈ letterRules, rewrite r.1 = '|' :: r.2 ++ ['|'])
    ∧ rewrite "tsch".toList = "|tʃ|".toList
    ∧ wordsToVisemes asciiToLowerCase "tsch".toList =
        Except.ok ⟨"tsch".toList, ["CH".toList], [0], [115 / 100]⟩
    ∧ wordsToVisemes asciiToLowerCase "sch".toList =
        Except.ok ⟨"sch".toList, ["SS".toList], [0], [123 / 100]⟩ := by
  refine ⟨by decide, by decide, by decide, by decide, by decide!, by decide!⟩

/-! ## What the loops preserve -/

theorem phonemeToViseme_split_vocabulary :
    ∀ e ∈ phonemeToViseme, ∀ v ∈ split ' ' e.2, v ∈ vocabulary := by decide

theorem letterToPhoneme_viseme_vocabulary :
    ∀ e ∈ letterToPhoneme, ∀ vis ∈ phonemeToViseme.lookup e.2, vis ∈ vocabulary := by decide

theorem getMember_own {α : Type} (obj : List (Str × α)) (key : Str) (value : α)
    (h : getMember obj key = Member.own value) : (key, value) ∈ obj := by
  unfold getMember at h
  cases hl : obj.lookup key with
  | none =>
    rw [hl] at h
    split_ifs at h
  | some v =>
    rw [hl] at h
    simp only [Member.own.injEq] at h
    exact h ▸ lookup_mem key v obj hl

theorem wordsToVisemes_blank (toLowerCase : Str → Str) (text : Str)
    (hb : text = [] ∨ (trim text).length = 0) :
    wordsToVisemes toLowerCase text = Except.ok (emptyOutput text) := by
  unfold wordsToVisemes
  exact if_pos hb

theorem wordsToVisemes_nonblank (toLowerCase : Str → Str) (text : Str)
    (hb : ¬ (text = [] ∨ (trim text).length = 0)) :
    wordsToVisemes toLowerCase text =
      Except.map Prod.fst
        (processSegments (emptyOutput text, 0) (segments (rewrite (toLowerCase text)))) := by
  unfold wordsToVisemes
  exact if_neg hb

theorem addViseme_eq (output : Output) (viseme : Str) (currentTime : ℚ) (st1 : State)
    (h : addViseme output viseme currentTime = some st1) :
    ∃ d, durationOrOne viseme = some d ∧ 0 < d ∧
      ((output.visemes.getLast? = some viseme ∧
          st1 = (⟨output.words, output.visemes, output.times,
                  addToLast (7 / 10 * d) output.durations⟩, currentTime + 7 / 10 * d)) ∨
        (output.visemes.getLast? ≠ some viseme ∧
          st1 = (⟨output.words, output.visemes ++ [viseme], output.times ++ [currentTime],
                  output.durations ++ [d]⟩, currentTime + d))) := by
  unfold addViseme at h
  cases hd : durationOrOne viseme with
  | none => simp [hd] at h
  | some d =>
    refine ⟨d, rfl, durationOrOne_pos viseme d hd, ?_⟩
    rw [hd] at h
    by_cases hl : output.visemes.getLast? = some viseme
    · left
      have hne : output.visemes.length ≠ 0 := by
        intro h0
        rw [List.length_eq_zero] at h0
        rw [h0] at hl
        simp at hl
      rw [if_pos ⟨hne, hl⟩] at h
      simp only [Option.map_some', Option.some.injEq] at h
      exact ⟨hl, h.symm⟩
    · right
      rw [if_neg (fun hc => hl hc.2)] at h
      simp only [Option.map_some', Option.some.injEq] at h
      exact ⟨hl, h.symm⟩

theorem addVisemes_preserves (P : State → Prop)
    (hadd : ∀ st v st1, v ∈ vocabulary → P st → addViseme st.1 v st.2 = some st1 → P st1) :
    ∀ (vs : List Str) (st st1 : State), (∀ v ∈ vs, v ∈ vocabulary) → P st →
      addVisemes st vs = Except.ok st1 → P st1
  | [], st, st1, _, hP, h => by
    simp only [addVisemes, Except.ok.injEq] at h
    exact h ▸ hP
  | v :: vs, st, st1, hvs, hP, h => by
    unfold addVisemes at h
    cases ha : addViseme st.1 v st.2 with
    | none => simp [ha] at h
    | some st2 =>
      rw [ha] at h
      exact addVisemes_preserves P hadd vs st2 st1 (fun w hw => hvs w (List.mem_cons_of_mem _ hw))
        (hadd st v st2 (hvs v (List.mem_cons_self _ _)) hP ha) h

theorem visemeStep_preserves (P : State → Prop)
    (hadd : ∀ st v st1, v ∈ vocabulary → P st → addViseme st.1 v st.2 = some st1 → P st1)
    (st : State) (phoneme : Str) (st1 : State) (hph : phoneme ∈ letterToPhoneme.map Prod.snd)
    (hP : P st) (h : visemeStep st phoneme = Except.ok st1) : P st1 := by
  unfold visemeStep at h
  cases hm : getMember phonemeToViseme phoneme with
  | inherited => simp [hm] at h
  | undefined =>
    rw [hm] at h
    simp only [Except.ok.injEq] at h
    exact h ▸ hP
  | own viseme =>
    rw [hm] at h
    simp only at h
    by_cases hvis : viseme = []
    · simp only [hvis, ne_eq, not_true_eq_false, ↓reduceIte, Except.ok.injEq] at h
      exact h ▸ hP
    · simp only [ne_eq, hvis, not_false_eq_true, ↓reduceIte] at h
      cases ha : addViseme st.1 viseme st.2 with
      | none => simp [ha] at h
      | some st2 =>
        rw [ha] at h
        simp only [Except.ok.injEq] at h
        obtain ⟨e, he, rfl⟩ := List.mem_map.1 hph
        have hlk : phonemeToViseme.lookup e.2 = some viseme := by
          unfold getMember at hm
          cases hl : phonemeToViseme.lookup e.2 with
          | none =>
            rw [hl] at hm
            split_ifs at hm
          | some w =>
            rw [hl] at hm
            simp only [Member.own.injEq] at hm
            rw [hm]
        exact h ▸ hadd st viseme st2 (letterToPhoneme_viseme_vocabulary e he viseme hlk) hP ha

theorem pauseStep_preserves (P : State → Prop)
    (hpause : ∀ (st : State) (d : ℚ), 0 ≤ d → P st → P (st.1, st.2 + d))
    (st : State) (char : Char) (st1 : State) (hP : P st)
    (h : pauseStep st char = Except.ok st1) : P st1 := by
  unfold pauseStep at h
  cases hm : getMember specialDurations [char] with
  | inherited => simp [hm] at h
  | undefined =>
    rw [hm] at h
    simp only [Except.ok.injEq] at h
    exact h ▸ hP
  | own d =>
    rw [hm] at h
    simp only [Except.ok.injEq] at h
    exact h ▸ hpause st d (specialDurations_nonneg _ (getMember_own _ _ _ hm)) hP

theorem processChar_preserves (P : State → Prop)
    (hadd : ∀ st v st1, v ∈ vocabulary → P st → addViseme st.1 v st.2 = some st1 → P st1)
    (hpause : ∀ (st : State) (d : ℚ), 0 ≤ d → P st → P (st.1, st.2 + d))
    (st : State) (char : Char) (st1 : State) (hP : P st)
    (h : processChar st char = Except.ok st1) : P st1 := by
  unfold processChar at h
  cases hm : getMember letterToPhoneme [char] with
  | inherited => simp [hm] at h
  | undefined =>
    rw [hm] at h
    exact pauseStep_preserves P hpause st char st1 hP h
  | own phoneme =>
    rw [hm] at h
    simp only at h
    by_cases hph : phoneme = []
    · simp only [hph, ne_eq, not_true_eq_false, ↓reduceIte] at h
      exact pauseStep_preserves P hpause st char st1 hP h
    · simp only [ne_eq, hph, not_false_eq_true, ↓reduceIte] at h
      exact visemeStep_preserves P hadd st phoneme st1
        (List.mem_map.2 ⟨_, getMember_own _ _ _ hm, rfl⟩) hP h

theorem processChars_preserves (P : State → Prop)
    (hadd : ∀ st v st1, v ∈ vocabulary → P st → addViseme st.1 v st.2 = some st1 → P st1)
    (hpause : ∀ (st : State) (d : ℚ), 0 ≤ d → P st → P (st.1, st.2 + d)) :
    ∀ (segment : Str) (st st1 : State), P st → processChars st segment = Except.ok st1 → P st1
  | [], st, st1, hP, h => by
    simp only [processChars, Except.ok.injEq] at h
    exact h ▸ hP
  | c :: cs, st, st1, hP, h => by
    unfold processChars at h
    cases hc : processChar st c with
    | error e => simp [hc] at h
    | ok st2 =>
      rw [hc] at h
      exact processChars_preserves P hadd hpause cs st2 st1
        (processChar_preserves P hadd hpause st c st2 hP hc) h

theorem processSegment_preserves (P : State → Prop)
    (hadd : ∀ st v st1, v ∈ vocabulary → P st → addViseme st.1 v st.2 = some st1 → P st1)
    (hpause : ∀ (st : State) (d : ℚ), 0 ≤ d → P st → P (st.1, st.2 + d))
    (st : State) (segment : Str) (st1 : State) (hP : P st)
    (h : processSegment st segment = Except.ok st1) : P st1 := by
  unfold processSegment at h
  cases hm : getMember phonemeToViseme segment with
  | inherited => simp [hm] at h
  | undefined =>
    rw [hm] at h
    exact processChars_preserves P hadd hpause segment st st1 hP h
  | own value =>
    rw [hm] at h
    simp only at h
    by_cases hv : value = []
    · simp only [hv, ne_eq, not_true_eq_false, ↓reduceIte] at h
      exact processChars_preserves P hadd hpause segment st st1 hP h
    · simp only [ne_eq, hv, not_false_eq_true, ↓reduceIte] at h
      exact addVisemes_preserves P hadd _ st st1
        (phonemeToViseme_split_vocabulary _ (getMember_own _ _ _ hm)) hP h

theorem processSegments_preserves (P : State → Prop)
    (hadd : ∀ st v st1, v ∈ vocabulary → P st → addViseme st.1 v st.2 = some st1 → P st1)
    (hpause : ∀ (st : State) (d : ℚ), 0 ≤ d → P st → P (st.1, st.2 + d)) :
    ∀ (segs : List Str) (st st1 : State), P st →
      processSegments st segs = Except.ok st1 → P st1
  | [], st, st1, hP, h => by
    simp only [processSegments, Except.ok.injEq] at h
    exact h ▸ hP
  | s :: ss, st, st1, hP, h => by
    unfold processSegments at h
    cases hc : processSegment st s with
    | error e => simp [hc] at h
    | ok st2 =>
      rw [hc] at h
      exact processSegments_preserves P hadd hpause ss st2 st1
        (processSegment_preserves P hadd hpause st s st2 hP hc) h

/-- A property of the loop state that holds initially and is kept by every `addViseme` call
on a vocabulary token and by every pause holds of the returned output. -/
theorem wordsToVisemes_preserves (P : State → Prop)
    (hadd : ∀ st v st1, v ∈ vocabulary → P st → addViseme st.1 v st.2 = some st1 → P st1)
    (hpause : ∀ (st : State) (d : ℚ), 0 ≤ d → P st → P (st.1, st.2 + d))
    (toLowerCase : Str → Str) (text : Str) (out : Output)
    (h0 : P (emptyOutput text, 0))
    (h : wordsToVisemes toLowerCase text = Except.ok out) : ∃ t, P (out, t) := by
  by_cases hb : text = [] ∨ (trim text).length = 0
  · rw [wordsToVisemes_blank toLowerCase text hb] at h
    simp only [Except.ok.injEq] at h
    exact ⟨0, h ▸ h0⟩
  · rw [wordsToVisemes_nonblank toLowerCase text hb] at h
    generalize segments (rewrite (toLowerCase text)) = segs at h
    cases hs : processSegments (emptyOutput text, 0) segs with
    | error e =>
      rw [hs] at h
      simp [Except.map] at h
    | ok st =>
      have hP := processSegments_preserves P hadd hpause _ _ st h0 hs
      rw [hs] at h
      simp only [Except.map, Except.ok.injEq] at h
      exact ⟨st.2, h ▸ hP⟩

/-! ## Invariants of the output sequence -/

theorem addToLast_length (x : ℚ) : ∀ ds : List ℚ, (addToLast x ds).length = ds.length
  | [] => rfl
  | [_] => rfl
  | _ :: e :: ds => by
    simp only [addToLast, List.length_cons]
    have ih := addToLast_length x (e :: ds)
    simp only [List.length_cons] at ih
    omega

theorem addToLast_pos (x : ℚ) (hx : 0 < x) :
    ∀ ds : List ℚ, (∀ d ∈ ds, 0 < d) → ∀ d ∈ addToLast x ds, 0 < d
  | [], _, d, hd => by simp [addToLast] at hd
  | [e], h, d, hd => by
    simp only [addToLast, List.mem_singleton] at hd
    have he := h e (List.mem_singleton_self e)
    rw [hd]
    linarith
  | e :: f :: ds, h, d, hd => by
    simp only [addToLast, List.mem_cons] at hd
    rcases hd with hd | hd
    · rw [hd]
      exact h e (List.mem_cons_self _ _)
    · exact addToLast_pos x hx (f :: ds) (fun y hy => h y (List.mem_cons_of_mem _ hy)) d
        (by simpa [List.mem_cons] using hd)

theorem addViseme_lengths (st : State) (viseme : Str) (st1 : State)
    (hl : st.1.visemes.length = st.1.times.length ∧ st.1.times.length = st.1.durations.length)
    (h : addViseme st.1 viseme st.2 = some st1) :
    st1.1.visemes.length = st1.1.times.length ∧
      st1.1.times.length = st1.1.durations.length := by
  obtain ⟨d, -, -, ⟨-, rfl⟩ | ⟨-, rfl⟩⟩ := addViseme_eq _ _ _ _ h
  · simpa [addToLast_length] using hl
  · simp only [List.length_append, List.length_singleton]
    omega

theorem addViseme_times (st : State) (viseme : Str) (st1 : State)
    (hs : st.1.times.Pairwise (· ≤ ·) ∧ ∀ x ∈ st.1.times, x ≤ st.2)
    (h : addViseme st.1 viseme st.2 = some st1) :
    st1.1.times.Pairwise (· ≤ ·) ∧ ∀ x ∈ st1.1.times, x ≤ st1.2 := by
  obtain ⟨d, -, hd, ⟨-, rfl⟩ | ⟨-, rfl⟩⟩ := addViseme_eq _ _ _ _ h
  · refine ⟨hs.1, fun x hx => ?_⟩
    have := hs.2 x hx
    simp only
    linarith
  · refine ⟨?_, fun x hx => ?_⟩
    · simp only
      rw [List.pairwise_append]
      refine ⟨hs.1, List.pairwise_singleton _ _, fun a ha b hb => ?_⟩
      rw [List.mem_singleton] at hb
      exact hb ▸ hs.2 a ha
    · simp only [List.mem_append, List.mem_singleton] at hx
      simp only
      rcases hx with hx | hx
      · have := hs.2 x hx
        linarith
      · rw [hx]
        linarith

theorem addViseme_durations (st : State) (viseme : Str) (st1 : State)
    (hp : ∀ d ∈ st.1.durations, 0 < d)
    (h : addViseme st.1 viseme st.2 = some st1) : ∀ d ∈ st1.1.durations, 0 < d := by
  obtain ⟨d, -, hd, ⟨-, rfl⟩ | ⟨-, rfl⟩⟩ := addViseme_eq _ _ _ _ h
  · exact addToLast_pos _ (by linarith) _ hp
  · intro x hx
    simp only [List.mem_append, List.mem_singleton] at hx
    rcases hx with hx | hx
    · exact hp x hx
    · exact hx ▸ hd

theorem addViseme_visemes (st : State) (viseme : Str) (st1 : State) (hv : viseme ∈ vocabulary)
    (hp : ∀ v ∈ st.1.visemes, v ∈ vocabulary)
    (h : addViseme st.1 viseme st.2 = some st1) : ∀ v ∈ st1.1.visemes, v ∈ vocabulary := by
  obtain ⟨d, -, -, ⟨-, rfl⟩ | ⟨-, rfl⟩⟩ := addViseme_eq _ _ _ _ h
  · exact hp
  · intro x hx
    simp only [List.mem_append, List.mem_singleton] at hx
    rcases hx with hx | hx
    · exact hp x hx
    · exact hx ▸ hv

theorem trim_eq_nil (text : Str) (h : ∀ c ∈ text, isWhiteSpace c = true) : trim text = [] := by
  unfold trim
  rw [List.dropWhile_eq_nil_iff.2 h]
  rfl

/-- C3 (monotonic start times).  Whenever `wordsToVisemes` returns, `times[i] ≤ times[i+1]`
for every valid index `i`. -/
theorem times_nondecreasing (toLowerCase : Str → Str) (text : Str) (out : Output)
    (h : wordsToVisemes toLowerCase text = Except.ok out)
    (i : ℕ) (hi : i + 1 < out.times.length) :
    out.times[i] ≤ out.times[i + 1] := by
  obtain ⟨t, hP, -⟩ := wordsToVisemes_preserves
    (fun st => st.1.times.Pairwise (· ≤ ·) ∧ ∀ x ∈ st.1.times, x ≤ st.2)
    (fun st v st1 _ hs ha => addViseme_times st v st1 hs ha)
    (fun st d hd hs => ⟨hs.1, fun x hx => le_trans (hs.2 x hx) (by simp only; linarith)⟩)
    toLowerCase text out ⟨List.Pairwise.nil, fun x hx => by simp [emptyOutput] at hx⟩ h
  have hsorted : out.times.Pairwise (· ≤ ·) := hP
  exact List.pairwise_iff_getElem.1 hsorted i (i + 1) (by omega) hi (by omega)

/-- Witness for C3: `wordsToVisemes("ab")` has `times = [0, 0.95]`. -/
theorem times_nondecreasing_witness :
    wordsToVisemes asciiToLowerCase "ab".toList =
        Except.ok ⟨"ab".toList, ["aa".toList, "PP".toList], [0, 95 / 100], [95 / 100, 108 / 100]⟩
    ∧ ([0, 95 / 100] : List ℚ)[0] ≤ ([0, 95 / 100] : List ℚ)[1] :=
  ⟨by decide!,
    times_nondecreasing asciiToLowerCase "ab".toList
      ⟨"ab".toList, ["aa".toList, "PP".toList], [0, 95 / 100], [95 / 100, 108 / 100]⟩
      (by decide!) 0 (by decide)⟩

/-- C4 (parallel lists).  Whenever `wordsToVisemes` returns, `visemes`, `times` and
`durations` have the same length; and `addViseme` keeps the three lengths equal on any output
object on which they are equal. -/
theorem parallel_lists :
    (∀ (toLowerCase : Str → Str) (text : Str) (out : Output),
      wordsToVisemes toLowerCase text = Except.ok out →
        out.visemes.length = out.times.length ∧ out.times.length = out.durations.length)
    ∧ (∀ (output : Output) (viseme : Str) (currentTime : ℚ) (st1 : State),
      output.visemes.length = output.times.length ∧
        output.times.length = output.durations.length →
      addViseme output viseme currentTime = some st1 →
        st1.1.visemes.length = st1.1.times.length ∧
          st1.1.times.length = st1.1.durations.length) := by
  constructor
  · intro toLowerCase text out h
    obtain ⟨t, hP⟩ := wordsToVisemes_preserves
      (fun st => st.1.visemes.length = st.1.times.length ∧
        st.1.times.length = st.1.durations.length)
      (fun st v st1 _ hs ha => addViseme_lengths st v st1 hs ha)
      (fun st d _ hs => hs)
      toLowerCase text out ⟨rfl, rfl⟩ h
    exact hP
  · intro output viseme currentTime st1 hl h
    exact addViseme_lengths (output, currentTime) viseme st1 hl h

/-- Witness for C4: `wordsToVisemes("ab")` returns three lists of length 2. -/
theorem parallel_lists_witness :
    wordsToVisemes asciiToLowerCase "ab".toList =
        Except.ok ⟨"ab".toList, ["aa".toList, "PP".toList], [0, 95 / 100], [95 / 100, 108 / 100]⟩
    ∧ (["aa".toList, "PP".toList] : List Str).length = ([0, 95 / 100] : List ℚ).length
    ∧ ([0, 95 / 100] : List ℚ).length = ([95 / 100, 108 / 100] : List ℚ).length :=
  ⟨by decide!,
    parallel_lists.1 asciiToLowerCase "ab".toList
      ⟨"ab".toList, ["aa".toList, "PP".toList], [0, 95 / 100], [95 / 100, 108 / 100]⟩
      (by decide!)⟩

/-- C5 (closed viseme vocabulary).  Whenever `wordsToVisemes` returns, every emitted token is
a key of `visemeDurations`, that is one of aa, E, I, O, U, PP, SS, DD, FF, kk, nn, RR, CH,
sil, and contains no space; the tokens come from the split values of the direct path and from
the unsplit values of the character path. -/
theorem closed_viseme_vocabulary (toLowerCase : Str → Str) (text : Str) (out : Output)
    (h : wordsToVisemes toLowerCase text = Except.ok out) :
    (∀ v ∈ out.visemes, v ∈ vocabulary ∧ ' ' ∉ v)
    ∧ vocabulary = [ "aa".toList, "E".toList, "I".toList, "O".toList, "U".toList,
        "PP".toList, "SS".toList, "DD".toList, "FF".toList, "kk".toList, "nn".toList,
        "RR".toList, "CH".toList, "sil".toList ] := by
  refine ⟨?_, by decide⟩
  obtain ⟨t, hP⟩ := wordsToVisemes_preserves
    (fun st => ∀ v ∈ st.1.visemes, v ∈ vocabulary)
    (fun st v st1 hv hs ha => addViseme_visemes st v st1 hv hs ha)
    (fun st d _ hs => hs)
    toLowerCase text out (fun v hv => by simp [emptyOutput] at hv) h
  have hsp : ∀ v ∈ vocabulary, ' ' ∉ v := by decide
  exact fun v hv => ⟨hP v hv, hsp v (hP v hv)⟩

/-- Witness for C5: the tokens of `wordsToVisemes("ei")`, a diphthong expanded by the direct
path. -/
theorem closed_viseme_vocabulary_witness :
    wordsToVisemes asciiToLowerCase "ei".toList =
        Except.ok ⟨"ei".toList, ["aa".toList, "I".toList], [0, 95 / 100], [95 / 100, 92 / 100]⟩
    ∧ ∀ v ∈ ["aa".toList, "I".toList], v ∈ vocabulary ∧ ' ' ∉ v :=
  ⟨by decide!,
    (closed_viseme_vocabulary asciiToLowerCase "ei".toList
      ⟨"ei".toList, ["aa".toList, "I".toList], [0, 95 / 100], [95 / 100, 92 / 100]⟩
      (by decide!)).1⟩

/-- C6 (no fatal conditions) fails on the code: for the input `__proto__`, which no pattern
rewrites, the read `this.phonemeToViseme[segment]` yields `Object.prototype`, and calling its
missing `split` method throws a `TypeError`. -/
theorem wordsToVisemes_proto_throws :
    rewrite (asciiToLowerCase "__proto__".toList) = "__proto__".toList
    ∧ getMember phonemeToViseme "__proto__".toList = Member.inherited
    ∧ wordsToVisemes asciiToLowerCase "__proto__".toList = Except.error Failure.typeError := by
  refine ⟨by decide, by decide, by decide⟩

/-- C7 (empty input).  For an input that is empty or consists only of white space,
`wordsToVisemes` returns `visemes = []`, `times = []`, `durations = []` and `words` equal to
the input. -/
theorem blank_input_empty_output (toLowerCase : Str → Str) (text : Str)
    (h : ∀ c ∈ text, isWhiteSpace c = true) :
    wordsToVisemes toLowerCase text =
      Except.ok { words := text, visemes := [], times := [], durations := [] } := by
  rw [wordsToVisemes_blank toLowerCase text (Or.inr (by rw [trim_eq_nil text h]; rfl))]
  rfl

/-- Witness for C7: a space, a tab and a line feed. -/
theorem blank_input_empty_output_witness :
    (∀ c ∈ [' ', Char.ofNat 9, Char.ofNat 10], isWhiteSpace c = true)
    ∧ wordsToVisemes asciiToLowerCase [' ', Char.ofNat 9, Char.ofNat 10] =
        Except.ok { words := [' ', Char.ofNat 9, Char.ofNat 10],
                    visemes := [], times := [], durations := [] } :=
  ⟨by decide, blank_input_empty_output asciiToLowerCase _ (by decide)⟩

/-- C8 (positive durations).  Whenever `wordsToVisemes` returns, every element of
`durations` is strictly positive. -/
theorem durations_positive (toLowerCase : Str → Str) (text : Str) (out : Output)
    (h : wordsToVisemes toLowerCase text = Except.ok out) :
    ∀ d ∈ out.durations, 0 < d := by
  obtain ⟨t, hP⟩ := wordsToVisemes_preserves
    (fun st => ∀ d ∈ st.1.durations, 0 < d)
    (fun st v st1 _ hs ha => addViseme_durations st v st1 hs ha)
    (fun st d _ hs => hs)
    toLowerCase text out (fun d hd => by simp [emptyOutput] at hd) h
  exact hP

/-- Witness for C8: the coalesced duration of `wordsToVisemes("mmm")`. -/
theorem durations_positive_witness :
    wordsToVisemes asciiToLowerCase "mmm".toList =
        Except.ok ⟨"mmm".toList, ["PP".toList], [0], [324 / 125]⟩
    ∧ ∀ d ∈ ([324 / 125] : List ℚ), 0 < d :=
  ⟨by decide!,
    durations_positive asciiToLowerCase "mmm".toList
      ⟨"mmm".toList, ["PP".toList], [0], [324 / 125]⟩ (by decide!)⟩

/-! ## Characters outside every table -/

theorem replaceAllAux_of_disjoint (pattern replacement : Str) (hp : pattern ≠ []) :
    ∀ text : Str, (∀ c ∈ text, c ∉ pattern) → replaceAllAux pattern replacement 0 text = text
  | [], _ => rfl
  | c :: cs, h => by
    obtain ⟨p, ps, rfl⟩ := List.exists_cons_of_ne_nil hp
    have hc : p ≠ c := by
      intro hpc
      exact h c (List.mem_cons_self _ _) (hpc ▸ List.mem_cons_self _ _)
    have hpre : (p :: ps).isPrefixOf (c :: cs) = false := by
      simp [List.isPrefixOf, hc]
    simp only [replaceAllAux, hpre, Bool.false_eq_true, ↓reduceIte, List.cons.injEq, true_and]
    exact replaceAllAux_of_disjoint (p :: ps) replacement hp cs
      (fun d hd => h d (List.mem_cons_of_mem _ hd))

theorem patterns_chars : ∀ p ∈ patterns, p ≠ [] ∧ ∀ c ∈ p, c ∈ tableKeyChars := by decide

theorem applyRule_of_unknown (text pattern : Str) (hp : pattern ∈ patterns)
    (h : ∀ c ∈ text, c ∉ tableKeyChars) : applyRule text pattern = text := by
  unfold applyRule
  cases letterRules.lookup pattern with
  | none => rfl
  | some phoneme =>
    exact replaceAllAux_of_disjoint pattern _ (patterns_chars pattern hp).1 text
      (fun c hc hcp => h c hc ((patterns_chars pattern hp).2 c hcp))

theorem foldl_applyRule_of_unknown (text : Str) (h : ∀ c ∈ text, c ∉ tableKeyChars) :
    ∀ ps : List Str, (∀ p ∈ ps, p ∈ patterns) → ps.foldl applyRule text = text
  | [], _ => rfl
  | p :: ps, hps => by
    rw [List.foldl_cons, applyRule_of_unknown text p (hps p (List.mem_cons_self _ _)) h]
    exact foldl_applyRule_of_unknown text h ps (fun q hq => hps q (List.mem_cons_of_mem _ hq))

theorem rewrite_of_unknown (text : Str) (h : ∀ c ∈ text, c ∉ tableKeyChars) :
    rewrite text = text :=
  foldl_applyRule_of_unknown text h patterns (fun _ hp => hp)

theorem split_of_not_mem (sep : Char) : ∀ text : Str, sep ∉ text → split sep text = [text]
  | [], _ => rfl
  | c :: cs, h => by
    have hc : c ≠ sep := fun hcs => h (hcs ▸ List.mem_cons_self _ _)
    have ih := split_of_not_mem sep cs (fun hm => h (List.mem_cons_of_mem _ hm))
    simp [split, hc, ih]

theorem objectPrototypeKeys_chars :
    ∀ k ∈ objectPrototypeKeys, ∃ c ∈ k, c ∈ tableKeyChars := by decide

theorem phonemeToViseme_chars :
    ∀ e ∈ phonemeToViseme, e.1 ≠ [] ∧ ∀ c ∈ e.1, c ∈ tableKeyChars := by decide

theorem letterToPhoneme_chars :
    ∀ e ∈ letterToPhoneme, e.1 ≠ [] ∧ ∀ c ∈ e.1, c ∈ tableKeyChars := by decide

theorem specialDurations_chars :
    ∀ e ∈ specialDurations, e.1 ≠ [] ∧ ∀ c ∈ e.1, c ∈ tableKeyChars := by decide!

theorem getMember_of_unknown {α : Type} (obj : List (Str × α)) (key : Str)
    (hobj : ∀ e ∈ obj, e.1 ≠ [] ∧ ∀ c ∈ e.1, c ∈ tableKeyChars)
    (h : ∀ c ∈ key, c ∉ tableKeyChars) : getMember obj key = Member.undefined := by
  unfold getMember
  cases hl : obj.lookup key with
  | some value =>
    exfalso
    have hk := hobj _ (lookup_mem key value obj hl)
    obtain ⟨c, cs, hcs⟩ := List.exists_cons_of_ne_nil hk.1
    have hc : c ∈ key := by
      have : key = c :: cs := hcs
      rw [this]
      exact List.mem_cons_self _ _
    exact h c hc (hk.2 c hc)
  | none =>
    have hn : key ∉ objectPrototypeKeys := by
      intro hmem
      obtain ⟨c, hc, hct⟩ := objectPrototypeKeys_chars key hmem
      exact h c hc hct
    simp [hn]

theorem processChar_of_unknown (st : State) (char : Char) (h : char ∉ tableKeyChars) :
    processChar st char = Except.ok st := by
  have hkey : ∀ c ∈ [char], c ∉ tableKeyChars := by
    intro c hc
    rw [List.mem_singleton] at hc
    exact hc ▸ h
  unfold processChar
  rw [getMember_of_unknown letterToPhoneme [char] letterToPhoneme_chars hkey]
  unfold pauseStep
  rw [getMember_of_unknown specialDurations [char] specialDurations_chars hkey]

theorem processChars_of_unknown (st : State) :
    ∀ segment : Str, (∀ c ∈ segment, c ∉ tableKeyChars) → processChars st segment = Except.ok st
  | [], _ => rfl
  | c :: cs, h => by
    unfold processChars
    rw [processChar_of_unknown st c (h c (List.mem_cons_self _ _))]
    exact processChars_of_unknown st cs (fun d hd => h d (List.mem_cons_of_mem _ hd))

theorem processSegments_of_unknown (st : State) (text : Str)
    (h : ∀ c ∈ text, c ≠ '|' ∧ c ∉ tableKeyChars) :
    processSegments st (segments (rewrite text)) = Except.ok st := by
  have hu : ∀ c ∈ text, c ∉ tableKeyChars := fun c hc => (h c hc).2
  rw [rewrite_of_unknown text hu]
  unfold segments
  rw [split_of_not_mem '|' text (fun hm => (h _ hm).1 rfl)]
  cases text with
  | nil => rfl
  | cons c cs =>
    simp only [List.filter, List.length_cons, gt_iff_lt, Nat.zero_lt_succ, decide_True]
    unfold processSegments processSegment
    rw [getMember_of_unknown phonemeToViseme (c :: cs) phonemeToViseme_chars hu]
    simp only
    rw [processChars_of_unknown st (c :: cs) hu]
    rfl

/-- C9 as stated fails: the one-character input `A` is non-blank, is not the delimiter and
occurs in no key of the four tables, yet lowercasing turns it into `a` and a viseme is
emitted. -/
theorem unknown_characters_counterexample :
    trim ['A'] ≠ [] ∧ (∀ c ∈ ['A'], c ≠ '|' ∧ c ∉ tableKeyChars)
    ∧ wordsToVisemes asciiToLowerCase ['A'] =
        Except.ok ⟨['A'], ["aa".toList], [0], [95 / 100]⟩
    ∧ wordsToVisemes asciiToLowerCase ['A'] ≠ Except.ok ⟨['A'], [], [], []⟩ := by
  refine ⟨by decide, by decide, by decide!, by decide⟩

/-- C9 amended (unknown-character resilience).  For every non-blank input whose lower-cased
form, the text that is actually processed, is made only of characters that are not `|` and
occur in no key of `letterRules`, `phonemeToViseme`, `letterToPhoneme` or `specialDurations`,
`wordsToVisemes` returns with `visemes`, `times` and `durations` empty, and the loop ends in
the state it started in: no viseme and no time advance. -/
theorem unknown_characters_skipped (toLowerCase : Str → Str) (text : Str)
    (_hnb : trim text ≠ [])
    (h : ∀ c ∈ toLowerCase text, c ≠ '|' ∧ c ∉ tableKeyChars) :
    wordsToVisemes toLowerCase text =
        Except.ok { words := text, visemes := [], times := [], durations := [] }
    ∧ processSegments (emptyOutput text, 0) (segments (rewrite (toLowerCase text))) =
        Except.ok (emptyOutput text, 0) := by
  have hs := processSegments_of_unknown (emptyOutput text, 0) (toLowerCase text) h
  refine ⟨?_, hs⟩
  by_cases hb : text = [] ∨ (trim text).length = 0
  · rw [wordsToVisemes_blank toLowerCase text hb]
    rfl
  · rw [wordsToVisemes_nonblank toLowerCase text hb, hs]
    rfl

/-- Witness for C9 amended: the input `~`. -/
theorem unknown_characters_skipped_witness :
    trim ['~'] ≠ [] ∧ (∀ c ∈ asciiToLowerCase ['~'], c ≠ '|' ∧ c ∉ tableKeyChars)
    ∧ wordsToVisemes asciiToLowerCase ['~'] =
        Except.ok { words := ['~'], visemes := [], times := [], durations := [] } :=
  ⟨by decide, by decide,
    (unknown_characters_skipped asciiToLowerCase ['~'] (by decide) (by decide)).1⟩

/-- C10 as stated fails: the rule `qu -> kv` has a phoneme that is no key of
`phonemeToViseme`, yet `wordsToVisemes("qu")` emits two visemes. -/
theorem drop_policy_counterexample :
    ("qu".toList, "kv".toList) ∈ letterRules
    ∧ getMember phonemeToViseme "kv".toList = Member.undefined
    ∧ wordsToVisemes asciiToLowerCase "qu".toList =
        Except.ok ⟨"qu".toList, ["kk".toList, "FF".toList], [0, 121 / 100],
          [121 / 100, 100 / 100]⟩
    ∧ wordsToVisemes asciiToLowerCase "qu".toList ≠ Except.ok ⟨"qu".toList, [], [], []⟩ := by
  refine ⟨by decide, by decide, by decide!, by decide⟩

/-- C10 amended (drop policy).  A `letterToPhoneme` phoneme that is no key of
`phonemeToViseme` is silently dropped: the character step leaves the state unchanged.  A
`letterRules` phoneme that is no key of `phonemeToViseme` is not dropped as a whole: for such
a rule `wordsToVisemes(pattern)` is the result of reading the characters of the phoneme string
one by one through the character loop.  The rules concerned are qu, nk, sp, st, ö, ü and ß;
`qu` emits `kk`, `FF` and `ö` emits nothing. -/
theorem drop_policy_by_character :
    (∀ (st : State) (char : Char) (phoneme : Str),
      getMember letterToPhoneme [char] = Member.own phoneme →
      getMember phonemeToViseme phoneme = Member.undefined →
        processChar st char = Except.ok st)
    ∧ (∀ r ∈ letterRules, getMember phonemeToViseme r.2 = Member.undefined →
        wordsToVisemes asciiToLowerCase r.1 =
          Except.map Prod.fst (processChars (emptyOutput r.1, 0) r.2))
    ∧ (letterRules.filter fun r => getMember phonemeToViseme r.2 = Member.undefined) =
        [ ("qu".toList, "kv".toList), ("nk".toList, "ŋk".toList), ("sp".toList, "ʃp".toList),
          ("st".toList, "ʃt".toList), ("ö".toList, "ø".toList), ("ü".toList, "y".toList),
          ("ß".toList, "ss".toList) ]
    ∧ wordsToVisemes asciiToLowerCase "qu".toList =
        Except.ok ⟨"qu".toList, ["kk".toList, "FF".toList], [0, 121 / 100],
          [121 / 100, 100 / 100]⟩
    ∧ wordsToVisemes asciiToLowerCase "ö".toList = Except.ok ⟨"ö".toList, [], [], []⟩ := by
  refine ⟨?_, by decide!, by decide, by decide!, by decide!⟩
  intro st char phoneme hl hv
  have hne : phoneme ≠ [] := by
    have hvals : ∀ e ∈ letterToPhoneme, e.2 ≠ [] := by decide
    exact hvals _ (getMember_own _ _ _ hl)
  unfold processChar
  rw [hl]
  simp only [ne_eq, hne, not_false_eq_true, ↓reduceIte]
  unfold visemeStep
  rw [hv]

/-- Witness for C10 amended: the letter `ö`, whose phoneme `ø` has no viseme. -/
theorem drop_policy_by_character_witness :
    getMember letterToPhoneme ['ö'] = Member.own "ø".toList
    ∧ getMember phonemeToViseme "ø".toList = Member.undefined
    ∧ processChar (emptyOutput [], 0) 'ö' = Except.ok (emptyOutput [], 0) :=
  ⟨by decide, by decide,
    drop_policy_by_character.1 (emptyOutput [], 0) 'ö' "ø".toList (by decide) (by decide)⟩

/-! ## When `wordsToVisemes` returns -/

theorem vocabulary_not_inherited : ∀ v ∈ vocabulary, v ∉ objectPrototypeKeys := by decide

theorem objectPrototypeKeys_length : ∀ k ∈ objectPrototypeKeys, k.length ≠ 1 := by decide

theorem letterToPhoneme_not_inherited :
    ∀ e ∈ letterToPhoneme, getMember phonemeToViseme e.2 ≠ Member.inherited := by decide

theorem getMember_char_ne_inherited {α : Type} (obj : List (Str × α)) (char : Char) :
    getMember obj [char] ≠ Member.inherited := by
  unfold getMember
  cases obj.lookup [char] with
  | some value => simp
  | none =>
    have hn : [char] ∉ objectPrototypeKeys :=
      fun hm => objectPrototypeKeys_length _ hm rfl
    simp [hn]

theorem addViseme_isSome (st : State) (viseme : Str) (hv : viseme ∈ vocabulary) :
    ∃ st1, addViseme st.1 viseme st.2 = some st1 := by
  unfold addViseme
  rw [durationOrOne_eq viseme (vocabulary_not_inherited viseme hv)]
  split_ifs <;> exact ⟨_, rfl⟩

theorem addVisemes_returns :
    ∀ (vs : List Str) (st : State), (∀ v ∈ vs, v ∈ vocabulary) →
      ∃ st1, addVisemes st vs = Except.ok st1
  | [], st, _ => ⟨st, rfl⟩
  | v :: vs, st, h => by
    obtain ⟨st2, h2⟩ := addViseme_isSome st v (h v (List.mem_cons_self _ _))
    unfold addVisemes
    rw [h2]
    exact addVisemes_returns vs st2 (fun w hw => h w (List.mem_cons_of_mem _ hw))

theorem visemeStep_returns (st : State) (phoneme : Str)
    (hph : phoneme ∈ letterToPhoneme.map Prod.snd) :
    ∃ st1, visemeStep st phoneme = Except.ok st1 := by
  obtain ⟨e, he, rfl⟩ := List.mem_map.1 hph
  unfold visemeStep
  cases hm : getMember phonemeToViseme e.2 with
  | inherited => exact absurd hm (letterToPhoneme_not_inherited e he)
  | undefined => exact ⟨st, rfl⟩
  | own viseme =>
    simp only
    by_cases hvis : viseme = []
    · simp only [hvis, ne_eq, not_true_eq_false, ↓reduceIte]
      exact ⟨st, rfl⟩
    · simp only [ne_eq, hvis, not_false_eq_true, ↓reduceIte]
      have hlk : phonemeToViseme.lookup e.2 = some viseme := by
        unfold getMember at hm
        cases hl : phonemeToViseme.lookup e.2 with
        | none =>
          rw [hl] at hm
          split_ifs at hm
        | some w =>
          rw [hl] at hm
          simp only [Member.own.injEq] at hm
          rw [hm]
      obtain ⟨st2, h2⟩ := addViseme_isSome st viseme
        (letterToPhoneme_viseme_vocabulary e he viseme hlk)
      rw [h2]
      exact ⟨st2, rfl⟩

theorem pauseStep_returns (st : State) (char : Char) :
    ∃ st1, pauseStep st char = Except.ok st1 := by
  unfold pauseStep
  cases hm : getMember specialDurations [char] with
  | inherited => exact absurd hm (getMember_char_ne_inherited _ _)
  | undefined => exact ⟨st, rfl⟩
  | own d => exact ⟨_, rfl⟩

theorem processChar_returns (st : State) (char : Char) :
    ∃ st1, processChar st char = Except.ok st1 := by
  unfold processChar
  cases hm : getMember letterToPhoneme [char] with
  | inherited => exact absurd hm (getMember_char_ne_inherited _ _)
  | undefined => exact pauseStep_returns st char
  | own phoneme =>
    simp only
    by_cases hph : phoneme = []
    · simp only [hph, ne_eq, not_true_eq_false, ↓reduceIte]
      exact pauseStep_returns st char
    · simp only [ne_eq, hph, not_false_eq_true, ↓reduceIte]
      exact visemeStep_returns st phoneme (List.mem_map.2 ⟨_, getMember_own _ _ _ hm, rfl⟩)

theorem processChars_returns :
    ∀ (segment : Str) (st : State), ∃ st1, processChars st segment = Except.ok st1
  | [], st => ⟨st, rfl⟩
  | c :: cs, st => by
    obtain ⟨st2, h2⟩ := processChar_returns st c
    unfold processChars
    rw [h2]
    exact processChars_returns cs st2

theorem processSegment_returns (st : State) (segment : Str)
    (h : getMember phonemeToViseme segment ≠ Member.inherited) :
    ∃ st1, processSegment st segment = Except.ok st1 := by
  unfold processSegment
  cases hm : getMember phonemeToViseme segment with
  | inherited => exact absurd hm h
  | undefined => exact processChars_returns segment st
  | own value =>
    simp only
    by_cases hv : value = []
    · simp only [hv, ne_eq, not_true_eq_false, ↓reduceIte]
      exact processChars_returns segment st
    · simp only [ne_eq, hv, not_false_eq_true, ↓reduceIte]
      exact addVisemes_returns _ st (phonemeToViseme_split_vocabulary _ (getMember_own _ _ _ hm))

theorem processSegments_returns :
    ∀ (segs : List Str) (st : State),
      (∀ s ∈ segs, getMember phonemeToViseme s ≠ Member.inherited) →
      ∃ st1, processSegments st segs = Except.ok st1
  | [], st, _ => ⟨st, rfl⟩
  | s :: ss, st, h => by
    obtain ⟨st2, h2⟩ := processSegment_returns st s (h s (List.mem_cons_self _ _))
    unfold processSegments
    rw [h2]
    exact processSegments_returns ss st2 (fun t ht => h t (List.mem_cons_of_mem _ ht))

/-- The call returns whenever no segment of the rewritten text reads an inherited member
from `phonemeToViseme`. -/
theorem wordsToVisemes_returns (toLowerCase : Str → Str) (text : Str)
    (h : ∀ s ∈ segments (rewrite (toLowerCase text)),
      getMember phonemeToViseme s ≠ Member.inherited) :
    ∃ out, wordsToVisemes toLowerCase text = Except.ok out := by
  by_cases hb : text = [] ∨ (trim text).length = 0
  · exact ⟨_, wordsToVisemes_blank toLowerCase text hb⟩
  · obtain ⟨st, hst⟩ := processSegments_returns _ (emptyOutput text, 0) h
    rw [wordsToVisemes_nonblank toLowerCase text hb, hst]
    exact ⟨st.1, rfl⟩

/-! ## Direct resolution, frame and adjacency -/

theorem phonemeToViseme_values_ne_nil : ∀ e ∈ phonemeToViseme, e.2 ≠ [] := by decide

theorem getMember_of_lookup {α : Type} (obj : List (Str × α)) (key : Str) (value : α)
    (h : obj.lookup key = some value) : getMember obj key = Member.own value := by
  unfold getMember
  rw [h]

/-- C17 (direct phoneme resolution).  For a segment that is a key of `phonemeToViseme`, the
segment loop body is exactly the viseme loop over the value split on spaces, in the listed
order; the character loop is not entered.  Each diphthong pattern yields its two visemes in
table order. -/
theorem direct_phoneme_resolution :
    (∀ (st : State) (segment value : Str), phonemeToViseme.lookup segment = some value →
      processSegment st segment = addVisemes st (split ' ' value))
    ∧ split ' ' "aa I".toList = ["aa".toList, "I".toList]
    ∧ wordsToVisemes asciiToLowerCase "ei".toList =
        Except.ok ⟨"ei".toList, ["aa".toList, "I".toList], [0, 95 / 100], [95 / 100, 92 / 100]⟩
    ∧ wordsToVisemes asciiToLowerCase "ai".toList =
        Except.ok ⟨"ai".toList, ["aa".toList, "I".toList], [0, 95 / 100], [95 / 100, 92 / 100]⟩
    ∧ wordsToVisemes asciiToLowerCase "au".toList =
        Except.ok ⟨"au".toList, ["aa".toList, "U".toList], [0, 95 / 100], [95 / 100, 95 / 100]⟩
    ∧ wordsToVisemes asciiToLowerCase "eu".toList =
        Except.ok ⟨"eu".toList, ["O".toList, "I".toList], [0, 96 / 100], [96 / 100, 92 / 100]⟩
    ∧ wordsToVisemes asciiToLowerCase "äu".toList =
        Except.ok ⟨"äu".toList, ["O".toList, "I".toList], [0, 96 / 100],
          [96 / 100, 92 / 100]⟩ := by
  refine ⟨?_, by decide, by decide!, by decide!, by decide!, by decide!, by decide!⟩
  intro st segment value h
  have hne := phonemeToViseme_values_ne_nil _ (lookup_mem segment value _ h)
  unfold processSegment
  rw [getMember_of_lookup _ _ _ h]
  simp only [ne_eq, hne, not_false_eq_true, ↓reduceIte]

/-- Witness for C17: the segment `aɪ`, whose value is `aa I`. -/
theorem direct_phoneme_resolution_witness :
    phonemeToViseme.lookup "aɪ".toList = some "aa I".toList
    ∧ processSegment (emptyOutput [], 0) "aɪ".toList =
        addVisemes (emptyOutput [], 0) (split ' ' "aa I".toList) :=
  ⟨by decide, direct_phoneme_resolution.1 (emptyOutput [], 0) "aɪ".toList "aa I".toList
    (by decide)⟩

theorem addToLast_dropLast (x : ℚ) : ∀ ds : List ℚ, (addToLast x ds).dropLast = ds.dropLast
  | [] => rfl
  | [_] => rfl
  | d :: e :: ds => by
    have ih := addToLast_dropLast x (e :: ds)
    cases hds : addToLast x (e :: ds) with
    | nil =>
      have := addToLast_length x (e :: ds)
      rw [hds] at this
      simp at this
    | cons f fs =>
      rw [hds] at ih
      simp only [addToLast, hds, List.dropLast_cons₂]
      rw [ih]

/-- C18 (frame of `addViseme`).  On an output object with equal-length lists, a call that
coalesces leaves `visemes` and `times` as they are and changes no duration but the last; a
call that appends keeps the previous lists as prefixes of the new ones, which are one element
longer, `times` ending in the given cursor.  `words` is never touched, and the call yields a
number whenever the token does not name a member of `Object.prototype`. -/
theorem addViseme_frame :
    (∀ (output : Output) (viseme : Str) (currentTime : ℚ) (st1 : State),
      output.visemes.length = output.times.length ∧
        output.times.length = output.durations.length →
      addViseme output viseme currentTime = some st1 →
        st1.1.words = output.words
        ∧ (output.visemes.getLast? = some viseme →
            st1.1.visemes = output.visemes ∧ st1.1.times = output.times
            ∧ st1.1.durations.dropLast = output.durations.dropLast
            ∧ st1.1.durations.length = output.durations.length)
        ∧ (output.visemes.getLast? ≠ some viseme →
            st1.1.visemes = output.visemes ++ [viseme]
            ∧ st1.1.times = output.times ++ [currentTime]
            ∧ ∃ d, st1.1.durations = output.durations ++ [d]))
    ∧ (∀ (output : Output) (viseme : Str) (currentTime : ℚ),
      viseme ∉ objectPrototypeKeys → ∃ st1, addViseme output viseme currentTime = some st1) := by
  constructor
  · intro output viseme currentTime st1 _ h
    obtain ⟨d, -, -, ⟨hl, rfl⟩ | ⟨hl, rfl⟩⟩ := addViseme_eq _ _ _ _ h
    · exact ⟨rfl, fun _ => ⟨rfl, rfl, addToLast_dropLast _ _, addToLast_length _ _⟩,
        fun hn => absurd hl hn⟩
    · exact ⟨rfl, fun hc => absurd hc hl, fun _ => ⟨rfl, rfl, d, rfl⟩⟩
  · intro output viseme currentTime hv
    unfold addViseme
    rw [durationOrOne_eq viseme hv]
    split_ifs <;> exact ⟨_, rfl⟩

/-- Witness for C18: a coalescing call on a one-entry output. -/
theorem addViseme_frame_witness :
    addViseme ⟨[], ["PP".toList], [0], [108 / 100]⟩ "PP".toList (108 / 100)
        = some (⟨[], ["PP".toList], [0], [108 / 100 + 7 / 10 * (108 / 100)]⟩,
            108 / 100 + 7 / 10 * (108 / 100))
    ∧ ([108 / 100 + 7 / 10 * (108 / 100)] : List ℚ).dropLast = ([108 / 100] : List ℚ).dropLast :=
  ⟨by decide!,
    ((addViseme_frame.1 ⟨[], ["PP".toList], [0], [108 / 100]⟩ "PP".toList (108 / 100)
      (⟨[], ["PP".toList], [0], [108 / 100 + 7 / 10 * (108 / 100)]⟩,
        108 / 100 + 7 / 10 * (108 / 100))
      ⟨rfl, rfl⟩ (by decide!)).2.1 (by decide)).2.2.1⟩

theorem addViseme_chain (st : State) (viseme : Str) (st1 : State)
    (hc : st.1.visemes.Chain' (· ≠ ·))
    (h : addViseme st.1 viseme st.2 = some st1) : st1.1.visemes.Chain' (· ≠ ·) := by
  obtain ⟨d, -, -, ⟨-, rfl⟩ | ⟨hl, rfl⟩⟩ := addViseme_eq _ _ _ _ h
  · exact hc
  · refine List.Chain'.append hc (List.chain'_singleton _) ?_
    intro x hx y hy
    simp only [List.head?_cons, Option.mem_def, Option.some.injEq] at hy
    rw [Option.mem_def] at hx
    intro hxy
    exact hl (by rw [hx, hxy, hy])

/-- C20 (no adjacent duplicates).  Whenever `wordsToVisemes` returns, no two consecutive
elements of `visemes` are equal; pauses and skipped characters between two occurrences of a
token do not matter, the comparison being with the last emitted token. -/
theorem no_adjacent_duplicates (toLowerCase : Str → Str) (text : Str) (out : Output)
    (h : wordsToVisemes toLowerCase text = Except.ok out)
    (i : ℕ) (hi : i + 1 < out.visemes.length) :
    out.visemes[i] ≠ out.visemes[i + 1] := by
  obtain ⟨t, hP⟩ := wordsToVisemes_preserves
    (fun st => st.1.visemes.Chain' (· ≠ ·))
    (fun st v st1 _ hs ha => addViseme_chain st v st1 hs ha)
    (fun st d _ hs => hs)
    toLowerCase text out List.chain'_nil h
  have hchain : out.visemes.Chain' (· ≠ ·) := hP
  exact List.chain'_iff_get.1 hchain i (by omega)

/-- Witness for C20: in `m m a` the two `PP` are separated by a pause and coalesce. -/
theorem no_adjacent_duplicates_witness :
    wordsToVisemes asciiToLowerCase "m ma".toList =
        Except.ok ⟨"m ma".toList, ["PP".toList, "aa".toList], [0, 2836 / 1000],
          [1836 / 1000, 95 / 100]⟩
    ∧ (["PP".toList, "aa".toList] : List Str)[0] ≠ (["PP".toList, "aa".toList] : List Str)[1] :=
  ⟨by decide!,
    no_adjacent_duplicates asciiToLowerCase "m ma".toList
      ⟨"m ma".toList, ["PP".toList, "aa".toList], [0, 2836 / 1000], [1836 / 1000, 95 / 100]⟩
      (by decide!) 0 (by decide)⟩

/-! ## Entries do not overlap -/

theorem addToLast_concat (x : ℚ) : ∀ (ds : List ℚ) (d : ℚ), addToLast x (ds ++ [d]) = ds ++ [d + x]
  | [], _ => rfl
  | [e], d => rfl
  | e :: f :: ds, d => by
    have ih := addToLast_concat x (f :: ds) d
    simp only [List.cons_append] at ih ⊢
    simp only [addToLast, ih]

theorem addViseme_separated (R : ℚ → ℚ → Prop) (hrefl : ∀ a, R a a)
    (hshift : ∀ a b x, R a b → R (a + x) (b + x)) (st : State) (viseme : Str) (st1 : State)
    (hs : Separated R st) (h : addViseme st.1 viseme st.2 = some st1) : Separated R st1 := by
  obtain ⟨hlen, hchain, hlast⟩ := hs
  obtain ⟨d, -, -, ⟨-, rfl⟩ | ⟨-, rfl⟩⟩ := addViseme_eq _ _ _ _ h
  · -- the last duration is extended
    rcases List.eq_nil_or_concat st.1.durations with hnil | ⟨ds, d0, hds⟩
    · rw [hnil] at hlen hchain hlast ⊢
      exact ⟨by simpa [addToLast] using hlen, by simp [addToLast],
        by simp [addToLast]⟩
    · rcases List.eq_nil_or_concat st.1.times with htnil | ⟨ts, t0, hts⟩
      · rw [htnil, hds] at hlen
        simp at hlen
      · rw [List.concat_eq_append] at hds hts
        have hl : ts.length = ds.length := by
          rw [hts, hds] at hlen
          simpa using hlen
        rw [hts, hds, List.zip_append hl] at hchain hlast
        simp only [List.zip_cons_cons, List.zip_nil_right] at hchain hlast
        refine ⟨?_, ?_, ?_⟩
        · simp only [addToLast_length]
          exact hlen
        · simp only
          rw [hts, hds, addToLast_concat, List.zip_append hl]
          simp only [List.zip_cons_cons, List.zip_nil_right]
          rw [List.chain'_append] at hchain ⊢
          exact ⟨hchain.1, List.chain'_singleton _, fun a ha b hb => by
            have := hchain.2.2 a ha (t0, d0) rfl
            simp only [List.head?_cons, Option.mem_def, Option.some.injEq] at hb
            rw [← hb]
            exact this⟩
        · simp only
          rw [hts, hds, addToLast_concat, List.zip_append hl]
          simp only [List.zip_cons_cons, List.zip_nil_right, List.getLast?_concat,
            Option.mem_def, Option.some.injEq]
          intro e he
          have := hlast (t0, d0) (by simp)
          rw [← he]
          have h2 := hshift _ _ (7 / 10 * d) this
          simp only at h2 ⊢
          rw [add_assoc] at h2
          exact h2
  · -- a new entry starts at the time position
    have hz : (st.1.times ++ [st.2]).zip (st.1.durations ++ [d])
        = st.1.times.zip st.1.durations ++ [(st.2, d)] := by
      rw [List.zip_append hlen]
      rfl
    refine ⟨?_, ?_, ?_⟩
    · simp only [List.length_append, List.length_singleton]
      omega
    · simp only
      rw [hz]
      refine List.Chain'.append hchain (List.chain'_singleton _) ?_
      intro a ha b hb
      simp only [List.head?_cons, Option.mem_def, Option.some.injEq] at hb
      rw [← hb]
      exact hlast a ha
    · simp only
      rw [hz]
      intro e he
      simp only [List.getLast?_concat, Option.mem_def, Option.some.injEq] at he
      rw [← he]
      exact hrefl _

theorem separated_getElem (R : ℚ → ℚ → Prop) (out : Output) (t : ℚ)
    (hs : Separated R (out, t)) (i : ℕ) (h1 : i + 1 < out.times.length)
    (h2 : i < out.durations.length) :
    R (out.times[i] + out.durations[i]) out.times[i + 1] := by
  have hlen : out.times.length = out.durations.length := hs.1
  have hchain : (out.times.zip out.durations).Chain' (fun a b => R (a.1 + a.2) b.1) := hs.2.1
  have hzl : (out.times.zip out.durations).length = out.times.length := by
    rw [List.length_zip]
    omega
  have hc := List.chain'_iff_get.1 hchain i (by omega)
  simp only [List.get_eq_getElem, List.getElem_zip] at hc
  exact hc

/-! ## Loops over characters of a given kind -/

theorem pauseStep_preserves_on (P : State → Prop) (C : Char → Prop)
    (hpause : ∀ (st : State) (c : Char) (d : ℚ), C c →
      getMember specialDurations [c] = Member.own d → P st → P (st.1, st.2 + d))
    (st : State) (char : Char) (st1 : State) (hC : C char) (hP : P st)
    (h : pauseStep st char = Except.ok st1) : P st1 := by
  unfold pauseStep at h
  cases hm : getMember specialDurations [char] with
  | inherited => simp [hm] at h
  | undefined =>
    rw [hm] at h
    simp only [Except.ok.injEq] at h
    exact h ▸ hP
  | own d =>
    rw [hm] at h
    simp only [Except.ok.injEq] at h
    exact h ▸ hpause st char d hC hm hP

theorem processChar_preserves_on (P : State → Prop) (C : Char → Prop)
    (hadd : ∀ st v st1, v ∈ vocabulary → P st → addViseme st.1 v st.2 = some st1 → P st1)
    (hpause : ∀ (st : State) (c : Char) (d : ℚ), C c →
      getMember specialDurations [c] = Member.own d → P st → P (st.1, st.2 + d))
    (st : State) (char : Char) (st1 : State) (hC : C char) (hP : P st)
    (h : processChar st char = Except.ok st1) : P st1 := by
  unfold processChar at h
  cases hm : getMember letterToPhoneme [char] with
  | inherited => simp [hm] at h
  | undefined =>
    rw [hm] at h
    exact pauseStep_preserves_on P C hpause st char st1 hC hP h
  | own phoneme =>
    rw [hm] at h
    simp only at h
    by_cases hph : phoneme = []
    · simp only [hph, ne_eq, not_true_eq_false, ↓reduceIte] at h
      exact pauseStep_preserves_on P C hpause st char st1 hC hP h
    · simp only [ne_eq, hph, not_false_eq_true, ↓reduceIte] at h
      exact visemeStep_preserves P hadd st phoneme st1
        (List.mem_map.2 ⟨_, getMember_own _ _ _ hm, rfl⟩) hP h

theorem processChars_preserves_on (P : State → Prop) (C : Char → Prop)
    (hadd : ∀ st v st1, v ∈ vocabulary → P st → addViseme st.1 v st.2 = some st1 → P st1)
    (hpause : ∀ (st : State) (c : Char) (d : ℚ), C c →
      getMember specialDurations [c] = Member.own d → P st → P (st.1, st.2 + d)) :
    ∀ (segment : Str) (st st1 : State), (∀ c ∈ segment, C c) → P st →
      processChars st segment = Except.ok st1 → P st1
  | [], st, st1, _, hP, h => by
    simp only [processChars, Except.ok.injEq] at h
    exact h ▸ hP
  | c :: cs, st, st1, hC, hP, h => by
    unfold processChars at h
    cases hc : processChar st c with
    | error e => simp [hc] at h
    | ok st2 =>
      rw [hc] at h
      exact processChars_preserves_on P C hadd hpause cs st2 st1
        (fun d hd => hC d (List.mem_cons_of_mem _ hd))
        (processChar_preserves_on P C hadd hpause st c st2 (hC c (List.mem_cons_self _ _)) hP hc)
        h

theorem processSegment_preserves_on (P : State → Prop) (C : Char → Prop)
    (hadd : ∀ st v st1, v ∈ vocabulary → P st → addViseme st.1 v st.2 = some st1 → P st1)
    (hpause : ∀ (st : State) (c : Char) (d : ℚ), C c →
      getMember specialDurations [c] = Member.own d → P st → P (st.1, st.2 + d))
    (st : State) (segment : Str) (st1 : State) (hC : ∀ c ∈ segment, C c) (hP : P st)
    (h : processSegment st segment = Except.ok st1) : P st1 := by
  unfold processSegment at h
  cases hm : getMember phonemeToViseme segment with
  | inherited => simp [hm] at h
  | undefined =>
    rw [hm] at h
    exact processChars_preserves_on P C hadd hpause segment st st1 hC hP h
  | own value =>
    rw [hm] at h
    simp only at h
    by_cases hv : value = []
    · simp only [hv, ne_eq, not_true_eq_false, ↓reduceIte] at h
      exact processChars_preserves_on P C hadd hpause segment st st1 hC hP h
    · simp only [ne_eq, hv, not_false_eq_true, ↓reduceIte] at h
      exact addVisemes_preserves P hadd _ st st1
        (phonemeToViseme_split_vocabulary _ (getMember_own _ _ _ hm)) hP h

theorem processSegments_preserves_on (P : State → Prop) (C : Char → Prop)
    (hadd : ∀ st v st1, v ∈ vocabulary → P st → addViseme st.1 v st.2 = some st1 → P st1)
    (hpause : ∀ (st : State) (c : Char) (d : ℚ), C c →
      getMember specialDurations [c] = Member.own d → P st → P (st.1, st.2 + d)) :
    ∀ (segs : List Str) (st st1 : State), (∀ s ∈ segs, ∀ c ∈ s, C c) → P st →
      processSegments st segs = Except.ok st1 → P st1
  | [], st, st1, _, hP, h => by
    simp only [processSegments, Except.ok.injEq] at h
    exact h ▸ hP
  | s :: ss, st, st1, hC, hP, h => by
    unfold processSegments at h
    cases hc : processSegment st s with
    | error e => simp [hc] at h
    | ok st2 =>
      rw [hc] at h
      exact processSegments_preserves_on P C hadd hpause ss st2 st1
        (fun t ht => hC t (List.mem_cons_of_mem _ ht))
        (processSegment_preserves_on P C hadd hpause st s st2 (hC s (List.mem_cons_self _ _))
          hP hc) h

/-! ## Where the characters of the segments come from -/

theorem replaceAllAux_mem (pattern replacement : Str) (c : Char) :
    ∀ (text : Str) (skip : ℕ), c ∈ replaceAllAux pattern replacement skip text →
      c ∈ text ∨ c ∈ replacement
  | [], _, h => by simp [replaceAllAux] at h
  | d :: ds, skip + 1, h => by
    simp only [replaceAllAux] at h
    rcases replaceAllAux_mem pattern replacement c ds skip h with h1 | h1
    · exact Or.inl (List.mem_cons_of_mem _ h1)
    · exact Or.inr h1
  | d :: ds, 0, h => by
    simp only [replaceAllAux] at h
    split_ifs at h
    · rcases List.mem_append.1 h with h1 | h1
      · exact Or.inr h1
      · rcases replaceAllAux_mem pattern replacement c ds _ h1 with h2 | h2
        · exact Or.inl (List.mem_cons_of_mem _ h2)
        · exact Or.inr h2
    · rcases List.mem_cons.1 h with h1 | h1
      · exact Or.inl (h1 ▸ List.mem_cons_self _ _)
      · rcases replaceAllAux_mem pattern replacement c ds _ h1 with h2 | h2
        · exact Or.inl (List.mem_cons_of_mem _ h2)
        · exact Or.inr h2

theorem applyRule_mem (text pattern : Str) (c : Char) (h : c ∈ applyRule text pattern) :
    c ∈ text ∨ c = '|' ∨ c ∈ (letterRules.map Prod.snd).flatten := by
  unfold applyRule at h
  cases hl : letterRules.lookup pattern with
  | none =>
    rw [hl] at h
    exact Or.inl h
  | some phoneme =>
    rw [hl] at h
    rcases replaceAllAux_mem _ _ c text 0 h with h1 | h1
    · exact Or.inl h1
    · right
      simp only [List.mem_cons, List.mem_append, List.mem_singleton] at h1
      rcases h1 with (h1 | h1) | h1 | h1
      · exact Or.inl h1
      · exact Or.inr (List.mem_flatten.2 ⟨phoneme,
          List.mem_map.2 ⟨_, lookup_mem _ _ _ hl, rfl⟩, h1⟩)
      · exact Or.inl h1
      · simp at h1

theorem foldl_applyRule_mem (c : Char) :
    ∀ (ps : List Str) (text : Str), c ∈ ps.foldl applyRule text →
      c ∈ text ∨ c = '|' ∨ c ∈ (letterRules.map Prod.snd).flatten
  | [], _, h => Or.inl h
  | p :: ps, text, h => by
    rcases foldl_applyRule_mem c ps (applyRule text p) h with h1 | h1
    · exact applyRule_mem text p c h1
    · exact Or.inr h1

theorem split_mem (sep : Char) :
    ∀ (text seg : Str), seg ∈ split sep text → ∀ c ∈ seg, c ∈ text
  | [], seg, h, c, hc => by
    simp only [split, List.mem_singleton] at h
    rw [h] at hc
    exact hc
  | d :: ds, seg, h, c, hc => by
    simp only [split] at h
    split_ifs at h with hd
    · rcases List.mem_cons.1 h with h1 | h1
      · rw [h1] at hc
        simp at hc
      · exact List.mem_cons_of_mem _ (split_mem sep ds seg h1 c hc)
    · cases hs : split sep ds with
      | nil =>
        rw [hs] at h
        simp only [List.mem_singleton] at h
        rw [h, List.mem_singleton] at hc
        exact hc ▸ List.mem_cons_self _ _
      | cons s ss =>
        rw [hs] at h
        simp only [List.mem_cons] at h
        rcases h with h1 | h1
        · rw [h1] at hc
          rcases List.mem_cons.1 hc with h2 | h2
          · exact h2 ▸ List.mem_cons_self _ _
          · exact List.mem_cons_of_mem _
              (split_mem sep ds s (by rw [hs]; exact List.mem_cons_self _ _) c h2)
        · exact List.mem_cons_of_mem _
            (split_mem sep ds seg (by rw [hs]; exact List.mem_cons_of_mem _ h1) c hc)

theorem segments_rewrite_mem (text seg : Str) (h : seg ∈ segments (rewrite text)) :
    ∀ c ∈ seg, c ∈ text ∨ c = '|' ∨ c ∈ (letterRules.map Prod.snd).flatten := by
  intro c hc
  unfold segments at h
  exact foldl_applyRule_mem c patterns text (split_mem '|' _ seg (List.mem_filter.1 h).1 c hc)

theorem replacement_chars_no_pause :
    ∀ c ∈ '|' :: (letterRules.map Prod.snd).flatten, specialDurations.lookup [c] = none := by
  decide!

/-- Entries never overlap in exact arithmetic.  Whenever `wordsToVisemes` returns,
`times[i] + durations[i] ≤ times[i+1]` for every valid `i`, pauses and coalescing across
pauses included.  When the input contains no key of `specialDurations` (and lowercasing, as
the builtin does, brings none in), the inequality is an equality for every `i`. -/
theorem entries_never_overlap (toLowerCase : Str → Str) (text : Str) (out : Output)
    (h : wordsToVisemes toLowerCase text = Except.ok out) :
    (∀ (i : ℕ) (h1 : i + 1 < out.times.length) (h2 : i < out.durations.length),
      out.times[i] + out.durations[i] ≤ out.times[i + 1])
    ∧ ((∀ c ∈ toLowerCase text, specialDurations.lookup [c] ≠ none → c ∈ text) →
      (∀ c ∈ text, specialDurations.lookup [c] = none) →
      ∀ (i : ℕ) (h1 : i + 1 < out.times.length) (h2 : i < out.durations.length),
        out.times[i] + out.durations[i] = out.times[i + 1]) := by
  have h0 : ∀ R : ℚ → ℚ → Prop, Separated R (emptyOutput text, 0) := fun R =>
    ⟨rfl, List.chain'_nil, fun e he => by simp [emptyOutput] at he⟩
  constructor
  · obtain ⟨t, hP⟩ := wordsToVisemes_preserves (Separated (· ≤ ·))
      (fun st v st1 _ hs ha =>
        addViseme_separated (· ≤ ·) le_refl (fun a b x hab => by linarith) st v st1 hs ha)
      (fun st d hd hs => ⟨hs.1, hs.2.1, fun e he => le_trans (hs.2.2 e he) (by simp only; linarith)⟩)
      toLowerCase text out (h0 _) h
    exact fun i h1 h2 => separated_getElem _ out t hP i h1 h2
  · intro hlow hin
    by_cases hb : text = [] ∨ (trim text).length = 0
    · rw [wordsToVisemes_blank toLowerCase text hb] at h
      simp only [Except.ok.injEq] at h
      exact fun i h1 h2 => separated_getElem _ out 0 (h ▸ h0 _) i h1 h2
    · rw [wordsToVisemes_nonblank toLowerCase text hb] at h
      have hC : ∀ s ∈ segments (rewrite (toLowerCase text)), ∀ c ∈ s,
          specialDurations.lookup [c] = none := by
        intro s hs c hc
        rcases segments_rewrite_mem _ s hs c hc with h1 | h1
        · by_contra hne
          exact hne (hin c (hlow c h1 hne))
        · exact replacement_chars_no_pause c (by
            rcases h1 with h1 | h1
            · exact h1 ▸ List.mem_cons_self _ _
            · exact List.mem_cons_of_mem _ h1)
      generalize segments (rewrite (toLowerCase text)) = segs at h hC
      cases hs : processSegments (emptyOutput text, 0) segs with
      | error e =>
        rw [hs] at h
        simp [Except.map] at h
      | ok st =>
        have hP := processSegments_preserves_on (Separated (· = ·))
          (fun c => specialDurations.lookup [c] = none)
          (fun st v st1 _ hs ha =>
            addViseme_separated (· = ·) (fun _ => rfl)
              (fun a b x hab => by rw [hab]) st v st1 hs ha)
          (fun st c d hc hm => by
            unfold getMember at hm
            rw [hc] at hm
            split_ifs at hm)
          segs _ st hC (h0 _) hs
        rw [hs] at h
        simp only [Except.map, Except.ok.injEq] at h
        subst h
        exact fun i h1 h2 => separated_getElem _ st.1 st.2 hP i h1 h2

/-- In exact arithmetic: in `m ma` a pause lies inside the coalesced first entry, which ends at
1.836 while the next one starts at 2.836. -/
theorem entries_never_overlap_witness :
    wordsToVisemes asciiToLowerCase "m ma".toList =
        Except.ok ⟨"m ma".toList, ["PP".toList, "aa".toList], [0, 2836 / 1000],
          [1836 / 1000, 95 / 100]⟩
    ∧ ([0, 2836 / 1000] : List ℚ)[0] + ([1836 / 1000, 95 / 100] : List ℚ)[0]
        ≤ ([0, 2836 / 1000] : List ℚ)[1] :=
  ⟨by decide!,
    (entries_never_overlap asciiToLowerCase "m ma".toList
      ⟨"m ma".toList, ["PP".toList, "aa".toList], [0, 2836 / 1000], [1836 / 1000, 95 / 100]⟩
      (by decide!)).1 0 (by decide) (by decide)⟩

/-! ## Delimited tokens are barriers for later patterns -/

theorem isPrefixOf_append_barrier (sep : Char) (y : Str) :
    ∀ (p x : Str), sep ∉ p → p.isPrefixOf (x ++ sep :: y) = p.isPrefixOf x
  | [], x, _ => by simp [List.isPrefixOf]
  | q :: qs, [], h => by
    have hq : q ≠ sep := fun hqs => h (hqs ▸ List.mem_cons_self _ _)
    simp [List.isPrefixOf, hq]
  | q :: qs, c :: cs, h => by
    have ih := isPrefixOf_append_barrier sep y qs cs (fun hm => h (List.mem_cons_of_mem _ hm))
    show (q == c && qs.isPrefixOf (cs ++ sep :: y)) = (q == c && qs.isPrefixOf cs)
    rw [ih]

theorem length_le_of_isPrefixOf :
    ∀ (p x : Str), p.isPrefixOf x = true → p.length ≤ x.length
  | [], _, _ => Nat.zero_le _
  | _ :: _, [], h => by simp [List.isPrefixOf] at h
  | q :: qs, c :: cs, h => by
    simp only [List.isPrefixOf, Bool.and_eq_true] at h
    have := length_le_of_isPrefixOf qs cs h.2
    simp only [List.length_cons]
    omega

theorem replaceAllAux_cons_zero (pattern replacement : Str) (c : Char) (cs : Str) :
    replaceAllAux pattern replacement 0 (c :: cs) =
      if pattern.isPrefixOf (c :: cs) then
        replacement ++ replaceAllAux pattern replacement (pattern.length - 1) cs
      else c :: replaceAllAux pattern replacement 0 cs := rfl

theorem replaceAllAux_cons_succ (pattern replacement : Str) (skip : ℕ) (c : Char) (cs : Str) :
    replaceAllAux pattern replacement (skip + 1) (c :: cs) =
      replaceAllAux pattern replacement skip cs := rfl

theorem replaceAllAux_barrier (pattern replacement : Str) (sep : Char) (b : Str)
    (hsep : sep ∉ pattern) (hne : pattern ≠ []) :
    ∀ (a : Str) (skip : ℕ), skip ≤ a.length →
      replaceAllAux pattern replacement skip (a ++ sep :: b) =
        replaceAllAux pattern replacement skip a ++ sep :: replaceAllAux pattern replacement 0 b
  | [], skip, h => by
    have h0 : skip = 0 := by simpa using h
    subst h0
    obtain ⟨q, qs, rfl⟩ := List.exists_cons_of_ne_nil hne
    have hq : q ≠ sep := fun hqs => hsep (hqs ▸ List.mem_cons_self _ _)
    simp [replaceAllAux, List.isPrefixOf, hq]
  | c :: cs, skip + 1, h => by
    rw [List.cons_append, replaceAllAux_cons_succ, replaceAllAux_cons_succ]
    exact replaceAllAux_barrier pattern replacement sep b hsep hne cs skip
      (by simpa using h)
  | c :: cs, 0, _ => by
    have hpre := isPrefixOf_append_barrier sep b pattern (c :: cs) hsep
    rw [List.cons_append] at hpre
    rw [List.cons_append, replaceAllAux_cons_zero, replaceAllAux_cons_zero, hpre]
    by_cases hm : pattern.isPrefixOf (c :: cs) = true
    · have hlen := length_le_of_isPrefixOf _ _ hm
      simp only [List.length_cons] at hlen
      rw [if_pos hm, if_pos hm,
        replaceAllAux_barrier pattern replacement sep b hsep hne cs (pattern.length - 1)
          (by omega),
        List.append_assoc]
    · rw [if_neg hm, if_neg hm,
        replaceAllAux_barrier pattern replacement sep b hsep hne cs 0 (Nat.zero_le _),
        List.cons_append]

theorem patterns_no_bar : ∀ p ∈ patterns, p ≠ [] ∧ '|' ∉ p := by decide

theorem applyRule_barrier (a b pattern : Str) (hp : pattern ∈ patterns) :
    applyRule (a ++ '|' :: b) pattern = applyRule a pattern ++ '|' :: applyRule b pattern := by
  unfold applyRule
  cases letterRules.lookup pattern with
  | none => rfl
  | some phoneme =>
    exact replaceAllAux_barrier pattern _ '|' b (patterns_no_bar pattern hp).2
      (patterns_no_bar pattern hp).1 a 0 (Nat.zero_le _)

theorem applyRule_token (a b phoneme pattern : Str) (hp : pattern ∈ patterns)
    (hph : applyRule phoneme pattern = phoneme) :
    applyRule (a ++ '|' :: phoneme ++ '|' :: b) pattern =
      applyRule a pattern ++ '|' :: phoneme ++ '|' :: applyRule b pattern := by
  have e : a ++ '|' :: phoneme ++ '|' :: b = a ++ '|' :: (phoneme ++ '|' :: b) := by simp
  rw [e, applyRule_barrier _ _ _ hp, applyRule_barrier _ _ _ hp, hph]
  simp

theorem foldl_applyRule_token (phoneme : Str) :
    ∀ (later : List Str), (∀ q ∈ later, q ∈ patterns ∧ applyRule phoneme q = phoneme) →
      ∀ (a b : Str), later.foldl applyRule (a ++ '|' :: phoneme ++ '|' :: b) =
        later.foldl applyRule a ++ '|' :: phoneme ++ '|' :: later.foldl applyRule b
  | [], _, _, _ => rfl
  | q :: qs, h, a, b => by
    have hq := h q (List.mem_cons_self _ _)
    rw [List.foldl_cons, applyRule_token a b phoneme q hq.1 hq.2]
    exact foldl_applyRule_token phoneme qs (fun r hr => h r (List.mem_cons_of_mem _ hr)) _ _

theorem later_patterns_miss_phoneme :
    ∀ k ∈ List.range patterns.length, ∀ ph ∈ letterRules.lookup (patterns.getD k []),
      ∀ q ∈ patterns.drop (k + 1), ¬ q <:+: ph ∧ applyRule ph q = ph := by
  decide

/-- C16 (replaced spans are never re-matched).  No pattern applied after a rule is a
substring of that rule's phoneme string; and whenever the text after the pass of rule `k`
contains the token `|phoneme|` of that rule between `a` and `b`, the final rewritten text is
the later rules applied to `a`, the token intact, and the later rules applied to `b`.  This
holds for every text, with or without the delimiter. -/
theorem replaced_spans_intact :
    (∀ (k : ℕ) (hk : k < patterns.length) (ph : Str),
      letterRules.lookup patterns[k] = some ph →
      ∀ q ∈ patterns.drop (k + 1), ¬ q <:+: ph)
    ∧ (∀ (text : Str) (k : ℕ) (hk : k < patterns.length) (ph a b : Str),
      letterRules.lookup patterns[k] = some ph →
      (patterns.take (k + 1)).foldl applyRule text = a ++ '|' :: ph ++ '|' :: b →
      rewrite text =
        (patterns.drop (k + 1)).foldl applyRule a ++ '|' :: ph ++ '|' ::
          (patterns.drop (k + 1)).foldl applyRule b) := by
  have key : ∀ (k : ℕ) (hk : k < patterns.length) (ph : Str),
      letterRules.lookup patterns[k] = some ph →
      ∀ q ∈ patterns.drop (k + 1), ¬ q <:+: ph ∧ applyRule ph q = ph := by
    intro k hk ph hph q hq
    have hget : patterns.getD k [] = patterns[k] := by
      rw [List.getD_eq_getElem?_getD, List.getElem?_eq_getElem hk]
      rfl
    exact later_patterns_miss_phoneme k (List.mem_range.2 hk) ph (by rw [hget]; exact hph) q hq
  constructor
  · exact fun k hk ph hph q hq => (key k hk ph hph q hq).1
  · intro text k hk ph a b hph hstep
    have hsplit : rewrite text =
        (patterns.drop (k + 1)).foldl applyRule ((patterns.take (k + 1)).foldl applyRule text) := by
      unfold rewrite
      rw [← List.foldl_append, List.take_append_drop]
    rw [hsplit, hstep]
    exact foldl_applyRule_token ph _
      (fun q hq => ⟨List.mem_of_mem_drop hq, (key k hk ph hph q hq).2⟩) a b

/-- Witness for C16: in `tschau` the first rule inserts `|tʃ|`, which the later rules, among
them `sch` and `ch`, leave intact while they rewrite `au`. -/
theorem replaced_spans_intact_witness :
    letterRules.lookup "tsch".toList = some "tʃ".toList
    ∧ (patterns.take 1).foldl applyRule "tschau".toList = [] ++ '|' :: "tʃ".toList ++ '|' :: "au".toList
    ∧ rewrite "tschau".toList =
        (patterns.drop 1).foldl applyRule [] ++ '|' :: "tʃ".toList ++ '|' ::
          (patterns.drop 1).foldl applyRule "au".toList
    ∧ rewrite "tschau".toList = "|tʃ||aʊ|".toList :=
  ⟨by decide, by decide,
    replaced_spans_intact.2 "tschau".toList 0 (by decide) "tʃ".toList [] "au".toList
      (by decide) (by decide),
    by decide⟩

/-! ## Number words -/

theorem numberToGermanWords_nan (num : NumArg) (h : parseInt num = none) :
    numberToGermanWords num = num.toStr := by
  rw [numberToGermanWords]
  split
  · rfl
  · rename_i n hn
    rw [h] at hn
    cases hn

theorem numberToGermanWords_tens (n : ℕ) (h1 : 20 ≤ n) (h2 : n < 100) :
    numberToGermanWords (NumArg.num n) =
      (if n % 10 > 0 then ones.getD (n % 10) [] ++ "und".toList else []) ++
        tens.getD (n / 10) [] := by
  rw [numberToGermanWords]
  split
  · rename_i hn
    simp [parseInt] at hn
  · rename_i m hm
    simp only [parseInt, Option.some.injEq] at hm
    subst hm
    have e0 : ¬ ((n : ℤ) = 0) := by omega
    have e1 : ¬ ((n : ℤ) < 0) := by omega
    have e2 : ¬ ((n : ℤ) < 10) := by omega
    have e3 : ¬ ((n : ℤ) < 20) := by omega
    have e4 : (n : ℤ) < 100 := by omega
    simp only [e0, e1, e2, e3, e4, ↓reduceDIte, Int.toNat_ofNat]

theorem numberToGermanWords_hundreds (n : ℕ) (h1 : 100 ≤ n) (h2 : n < 1000) :
    numberToGermanWords (NumArg.num n) =
      ones.getD (n / 100) [] ++ "hundert".toList ++
        (if n % 100 > 0 then numberToGermanWords (NumArg.num ((n % 100 : ℕ) : ℤ)) else []) := by
  rw [numberToGermanWords]
  split
  · rename_i hn
    simp [parseInt] at hn
  · rename_i m hm
    simp only [parseInt, Option.some.injEq] at hm
    subst hm
    have e0 : ¬ ((n : ℤ) = 0) := by omega
    have e1 : ¬ ((n : ℤ) < 0) := by omega
    have e2 : ¬ ((n : ℤ) < 10) := by omega
    have e3 : ¬ ((n : ℤ) < 20) := by omega
    have e4 : ¬ ((n : ℤ) < 100) := by omega
    have e5 : (n : ℤ) < 1000 := by omega
    simp only [e0, e1, e2, e3, e4, e5, ↓reduceDIte, Int.toNat_ofNat]

/-- C14 (numeral spelling below 1000).  For an integer `n` with `20 ≤ n < 100` the result is
the unit word followed by `und`, when `n mod 10 > 0`, followed by the tens word; for
`100 ≤ n < 1000` it is `ones[n div 100]`, then `hundert`, then the spelling of `n mod 100`
when that is positive and nothing otherwise.  `"21"` gives `eins` + `und` + `zwanzig` and
`"100"` gives `einshundert`. -/
theorem numeral_spelling_below_1000 :
    (∀ n : ℕ, 20 ≤ n → n < 100 →
      numberToGermanWords (NumArg.num n) =
        (if n % 10 > 0 then ones.getD (n % 10) [] ++ "und".toList else []) ++
          tens.getD (n / 10) [])
    ∧ (∀ n : ℕ, 100 ≤ n → n < 1000 →
      numberToGermanWords (NumArg.num n) =
        ones.getD (n / 100) [] ++ "hundert".toList ++
          (if n % 100 > 0 then numberToGermanWords (NumArg.num ((n % 100 : ℕ) : ℤ)) else []))
    ∧ numberToGermanWords (NumArg.str "21".toList) =
        "eins".toList ++ "und".toList ++ "zwanzig".toList
    ∧ numberToGermanWords (NumArg.str "100".toList) = "eins".toList ++ "hundert".toList :=
  ⟨numberToGermanWords_tens, numberToGermanWords_hundreds, by decide!, by decide!⟩

/-- Witness for C14: the numbers 21 and 100. -/
theorem numeral_spelling_below_1000_witness :
    numberToGermanWords (NumArg.num ((21 : ℕ) : ℤ)) =
        (if 21 % 10 > 0 then ones.getD (21 % 10) [] ++ "und".toList else []) ++
          tens.getD (21 / 10) []
    ∧ numberToGermanWords (NumArg.num ((100 : ℕ) : ℤ)) =
        ones.getD (100 / 100) [] ++ "hundert".toList ++
          (if 100 % 100 > 0 then numberToGermanWords (NumArg.num ((100 % 100 : ℕ) : ℤ)) else []) :=
  ⟨numeral_spelling_below_1000.1 21 (by decide) (by decide),
    numeral_spelling_below_1000.2.1 100 (by decide) (by decide)⟩

theorem parseIntString_of_not_numeric (s : Str) (h : isNumeric s = false) :
    parseIntString s = none := by
  unfold isNumeric at h
  unfold parseIntString
  simp only
  generalize (stripSign (s.dropWhile isWhiteSpace)).2 = r at h ⊢
  cases r with
  | nil => rfl
  | cons c cs =>
    simp only at h
    have hr : stripRadix (c :: cs) = (10, c :: cs) := by
      unfold stripRadix
      split
      · rename_i heq
        simp only [List.cons.injEq] at heq
        rw [heq.1] at h
        exact absurd h (by decide)
      · rename_i heq
        simp only [List.cons.injEq] at heq
        rw [heq.1] at h
        exact absurd h (by decide)
      · rfl
    rw [hr]
    simp [parseDigits, digitValue, h]

/-- C15 (non-numeric pass-through).  For a string that, after optional leading white space
and an optional sign, does not start with a decimal digit, integer parsing fails and
`numberToGermanWords` returns the string unchanged. -/
theorem non_numeric_passthrough (s : Str) (h : isNumeric s = false) :
    parseInt (NumArg.str s) = none ∧ numberToGermanWords (NumArg.str s) = s := by
  have hp : parseInt (NumArg.str s) = none := parseIntString_of_not_numeric s h
  exact ⟨hp, numberToGermanWords_nan _ hp⟩

/-- Witness for C15: the string ` -abc`. -/
theorem non_numeric_passthrough_witness :
    isNumeric " -abc".toList = false
    ∧ parseInt (NumArg.str " -abc".toList) = none
    ∧ numberToGermanWords (NumArg.str " -abc".toList) = " -abc".toList :=
  ⟨by decide, non_numeric_passthrough " -abc".toList (by decide)⟩

/-! ## Symbol words through the steps of `preProcessText` -/

theorem symbols_keys : ∀ e ∈ symbols, ∀ c ∈ e.1, c ∈ symbolsReg := by decide

theorem symbol_words_plain : ∀ e ∈ symbols, e.2 ≠ [] ∧ ∀ c ∈ e.2,
    c.isDigit = false ∧ c ≠ ',' ∧ c ∉ ['#', '_', '*', '"', ':', ';'] ∧ isWhiteSpace c = false
      ∧ (0x300 ≤ c.toNat && c.toNat ≤ 0x36f) = false := by decide

theorem replaceSymbols_padded (s : Str) (c : Char) (word : Str) (hc : c ∈ s)
    (hw : symbols.lookup [c] = some word) : Padded word (replaceSymbols s) := by
  obtain ⟨x, y, rfl⟩ := List.append_of_mem hc
  have hreg : c ∈ symbolsReg :=
    symbols_keys _ (lookup_mem _ _ _ hw) c (List.mem_singleton_self c)
  refine ⟨replaceSymbols x, replaceSymbols y, ?_⟩
  unfold replaceSymbols
  simp only [List.flatMap_append, List.flatMap_cons, hreg, ↓reduceIte, hw]
  simp

/-! ### The decimal comma -/

theorem decimalCommaAux_prefix :
    ∀ (A : Str) (state : CommaState) (r : Str),
      ∃ A' state', decimalCommaAux state (A ++ r) = A' ++ decimalCommaAux state' r
  | [], state, r => ⟨[], state, rfl⟩
  | c :: A, state, r => by
    rw [List.cons_append, decimalCommaAux]
    by_cases hd : c.isDigit = true
    · rw [if_pos hd]
      obtain ⟨A', st', h⟩ := decimalCommaAux_prefix A
        (if state = CommaState.secondGroup then state else CommaState.freshDigits) r
      exact ⟨c :: A', st', by rw [h]; rfl⟩
    · rw [if_neg hd]
      by_cases hk : c = ',' ∧ state = CommaState.freshDigits ∧
          ((A ++ r).head?.map Char.isDigit) = some true
      · rw [if_pos hk]
        obtain ⟨A', st', h⟩ := decimalCommaAux_prefix A CommaState.secondGroup r
        exact ⟨" Komma ".toList ++ A', st', by rw [h, List.append_assoc]⟩
      · rw [if_neg hk]
        obtain ⟨A', st', h⟩ := decimalCommaAux_prefix A CommaState.noDigits r
        exact ⟨c :: A', st', by rw [h]; rfl⟩

theorem decimalCommaAux_plain :
    ∀ (u : Str) (state : CommaState) (r : Str), u ≠ [] →
      (∀ c ∈ u, c.isDigit = false ∧ c ≠ ',') →
      decimalCommaAux state (u ++ r) = u ++ decimalCommaAux CommaState.noDigits r
  | [], _, _, h, _ => absurd rfl h
  | c :: u, state, r, _, hu => by
    have hc := hu c (List.mem_cons_self _ _)
    rw [List.cons_append, decimalCommaAux]
    simp only [hc.1, Bool.false_eq_true, ↓reduceIte, hc.2, false_and, List.cons_append,
      List.cons.injEq, true_and]
    cases u with
    | nil => rfl
    | cons d u =>
      exact decimalCommaAux_plain (d :: u) CommaState.noDigits r (List.cons_ne_nil _ _)
        (fun e he => hu e (List.mem_cons_of_mem _ he))

theorem decimalComma_padded (w t : Str) (hw : w ∈ symbols.map Prod.snd) (h : Padded w t) :
    Padded w (decimalComma t) := by
  obtain ⟨A, B, rfl⟩ := h
  obtain ⟨e, he, rfl⟩ := List.mem_map.1 hw
  obtain ⟨A', st', hA⟩ := decimalCommaAux_prefix A CommaState.noDigits (' ' :: (e.2 ++ ' ' :: B))
  have hplain : ∀ c ∈ ' ' :: (e.2 ++ [' ']), c.isDigit = false ∧ c ≠ ',' := by
    intro c hc
    simp only [List.mem_cons, List.mem_append, List.mem_singleton, List.not_mem_nil,
      or_false] at hc
    rcases hc with rfl | hc | rfl
    · exact ⟨by decide, by decide⟩
    · exact ⟨((symbol_words_plain e he).2 c hc).1, ((symbol_words_plain e he).2 c hc).2.1⟩
    · exact ⟨by decide, by decide⟩
  have hcore := decimalCommaAux_plain (' ' :: (e.2 ++ [' '])) st' B (List.cons_ne_nil _ _) hplain
  refine ⟨A', decimalCommaAux CommaState.noDigits B, ?_⟩
  unfold decimalComma
  rw [hA]
  have e1 : ' ' :: (e.2 ++ ' ' :: B) = (' ' :: (e.2 ++ [' '])) ++ B := by simp
  rw [e1, hcore]
  simp

/-! ### Numbers -/

theorem replaceNumbersAux_prefix :
    ∀ (A run r : Str), ∃ A' run', replaceNumbersAux run (A ++ r) = A' ++ replaceNumbersAux run' r
  | [], run, r => ⟨[], run, rfl⟩
  | c :: A, run, r => by
    rw [List.cons_append, replaceNumbersAux]
    by_cases hd : c.isDigit = true
    · rw [if_pos hd]
      exact replaceNumbersAux_prefix A (run ++ [c]) r
    · rw [if_neg hd]
      obtain ⟨A', run', h⟩ := replaceNumbersAux_prefix A [] r
      exact ⟨flushDigits run ++ c :: A', run', by rw [h]; simp⟩

theorem replaceNumbersAux_plain :
    ∀ (u run r : Str), u ≠ [] → (∀ c ∈ u, c.isDigit = false) →
      replaceNumbersAux run (u ++ r) = flushDigits run ++ u ++ replaceNumbersAux [] r
  | [], _, _, h, _ => absurd rfl h
  | c :: u, run, r, _, hu => by
    have hc := hu c (List.mem_cons_self _ _)
    rw [List.cons_append, replaceNumbersAux]
    simp only [hc, Bool.false_eq_true, ↓reduceIte]
    cases u with
    | nil => simp
    | cons d u =>
      rw [replaceNumbersAux_plain (d :: u) [] r (List.cons_ne_nil _ _)
        (fun e he => hu e (List.mem_cons_of_mem _ he))]
      simp [flushDigits]

theorem replaceNumbers_padded (w t : Str) (hw : w ∈ symbols.map Prod.snd) (h : Padded w t) :
    Padded w (replaceNumbers t) := by
  obtain ⟨A, B, rfl⟩ := h
  obtain ⟨e, he, rfl⟩ := List.mem_map.1 hw
  obtain ⟨A', run', hA⟩ := replaceNumbersAux_prefix A [] (' ' :: (e.2 ++ ' ' :: B))
  have hplain : ∀ c ∈ ' ' :: (e.2 ++ [' ']), c.isDigit = false := by
    intro c hc
    simp only [List.mem_cons, List.mem_append, List.mem_singleton, List.not_mem_nil,
      or_false] at hc
    rcases hc with rfl | hc | rfl
    · decide
    · exact ((symbol_words_plain e he).2 c hc).1
    · decide
  have hcore := replaceNumbersAux_plain (' ' :: (e.2 ++ [' '])) run' B (List.cons_ne_nil _ _)
    hplain
  refine ⟨A' ++ flushDigits run', replaceNumbersAux [] B, ?_⟩
  unfold replaceNumbers
  rw [hA]
  have e1 : ' ' :: (e.2 ++ ' ' :: B) = (' ' :: (e.2 ++ [' '])) ++ B := by simp
  rw [e1, hcore]
  simp

/-! ### Steps that delete single characters -/

theorem filter_padded (p : Char → Bool) (w t : Str) (hsp : p ' ' = true)
    (hw : ∀ c ∈ w, p c = true) (h : Padded w t) : Padded w (t.filter p) := by
  obtain ⟨A, B, rfl⟩ := h
  refine ⟨A.filter p, B.filter p, ?_⟩
  rw [List.filter_append, List.filter_cons_of_pos hsp, List.filter_append,
    List.filter_cons_of_pos hsp, List.filter_eq_self.2 hw]

theorem removeUnwanted_padded (w t : Str) (hw : w ∈ symbols.map Prod.snd) (h : Padded w t) :
    Padded w (removeUnwanted t) := by
  obtain ⟨e, he, rfl⟩ := List.mem_map.1 hw
  exact filter_padded _ _ _ (by decide)
    (fun c hc => by simpa using ((symbol_words_plain e he).2 c hc).2.2.1) h

theorem stripMarks_padded (w t : Str) (hw : w ∈ symbols.map Prod.snd) (h : Padded w t) :
    Padded w (stripMarks t) := by
  obtain ⟨e, he, rfl⟩ := List.mem_map.1 hw
  exact filter_padded _ _ _ (by decide)
    (fun c hc => by
      have := ((symbol_words_plain e he).2 c hc).2.2.2.2
      simp only [this, Bool.not_false]) h

/-! ### Repetitions -/

theorem getLast?_cons_of_ne_nil {α : Type} (c : α) :
    ∀ l : List α, l ≠ [] → (c :: l).getLast? = l.getLast?
  | [], h => absurd rfl h
  | _ :: _, _ => List.getLast?_cons_cons

theorem limitRepetitionAux_prefix :
    ∀ (A : Str) (prev : Option Char) (count : ℕ) (r : Str),
      ∃ A' prev' count', limitRepetitionAux prev count (A ++ r) =
          A' ++ limitRepetitionAux prev' count' r
        ∧ ((A' ≠ [] ∧ A'.getLast? = prev') ∨ (A' = [] ∧ prev' = prev))
  | [], prev, count, r => ⟨[], prev, count, rfl, Or.inr ⟨rfl, rfl⟩⟩
  | c :: A, prev, count, r => by
    rw [List.cons_append, limitRepetitionAux]
    by_cases h1 : prev = some c ∧ repeatable c = true
    · rw [if_pos h1]
      by_cases h2 : 2 ≤ count
      · rw [if_pos h2]
        exact limitRepetitionAux_prefix A prev count r
      · rw [if_neg h2]
        obtain ⟨A', p', k', h, hl⟩ := limitRepetitionAux_prefix A prev (count + 1) r
        refine ⟨c :: A', p', k', by rw [h]; rfl, Or.inl ⟨List.cons_ne_nil _ _, ?_⟩⟩
        rcases hl with ⟨hne, hlast⟩ | ⟨hnil, hp⟩
        · rw [getLast?_cons_of_ne_nil c A' hne, hlast]
        · rw [hnil, hp, h1.1]
          rfl
    · rw [if_neg h1]
      obtain ⟨A', p', k', h, hl⟩ := limitRepetitionAux_prefix A (some c) 1 r
      refine ⟨c :: A', p', k', by rw [h]; rfl, Or.inl ⟨List.cons_ne_nil _ _, ?_⟩⟩
      rcases hl with ⟨hne, hlast⟩ | ⟨hnil, hp⟩
      · rw [getLast?_cons_of_ne_nil c A' hne, hlast]
      · rw [hnil, hp]
        rfl

theorem limitRepetitionAux_word :
    ∀ e ∈ symbols, ∀ (count : ℕ) (B : Str),
      limitRepetitionAux (some ' ') count (e.2 ++ ' ' :: B) =
        e.2 ++ ' ' :: limitRepetitionAux (some ' ') 1 B := by
  intro e he count B
  simp only [symbols, List.mem_cons, List.mem_singleton, List.not_mem_nil, or_false] at he
  rcases he with rfl | rfl | rfl | rfl | rfl | rfl | rfl | rfl | rfl <;> rfl

theorem limitRepetition_padded (w t : Str) (hw : w ∈ symbols.map Prod.snd) (h : Padded w t) :
    Padded w (limitRepetition t) := by
  obtain ⟨A, B, rfl⟩ := h
  obtain ⟨e, he, rfl⟩ := List.mem_map.1 hw
  obtain ⟨A', p', k', hA, hl⟩ := limitRepetitionAux_prefix A none 0 (' ' :: (e.2 ++ ' ' :: B))
  unfold limitRepetition
  rw [hA, limitRepetitionAux]
  by_cases h1 : p' = some ' ' ∧ repeatable ' ' = true
  · rw [if_pos h1]
    by_cases h2 : 2 ≤ k'
    · rw [if_pos h2, h1.1, limitRepetitionAux_word e he]
      rcases hl with ⟨-, hlast⟩ | ⟨-, hp⟩
      · rw [h1.1] at hlast
        obtain ⟨A0, rfl⟩ := List.getLast?_eq_some_iff.1 hlast
        exact ⟨A0, limitRepetitionAux (some ' ') 1 B, by simp⟩
      · rw [h1.1] at hp
        cases hp
    · rw [if_neg h2, h1.1, limitRepetitionAux_word e he]
      exact ⟨A', limitRepetitionAux (some ' ') 1 B, rfl⟩
  · rw [if_neg h1, limitRepetitionAux_word e he]
    exact ⟨A', limitRepetitionAux (some ' ') 1 B, rfl⟩

/-! ### White space -/

theorem normalizeSpacingAux_prefix :
    ∀ (A : Str) (inRun : Bool) (r : Str),
      ∃ A' inRun', normalizeSpacingAux inRun (A ++ r) = A' ++ normalizeSpacingAux inRun' r
        ∧ (inRun' = true →
            (A' ≠ [] ∧ A'.getLast? = some ' ') ∨ (A' = [] ∧ inRun = true))
  | [], inRun, r => ⟨[], inRun, rfl, fun h => Or.inr ⟨rfl, h⟩⟩
  | c :: A, inRun, r => by
    rw [List.cons_append, normalizeSpacingAux]
    by_cases h1 : isWhiteSpace c = true
    · rw [if_pos h1]
      by_cases h2 : inRun = true
      · rw [if_pos h2]
        obtain ⟨A', b', h, hl⟩ := normalizeSpacingAux_prefix A true r
        refine ⟨A', b', h, fun hb => ?_⟩
        rcases hl hb with hl1 | ⟨hnil, -⟩
        · exact Or.inl hl1
        · exact Or.inr ⟨hnil, h2⟩
      · rw [if_neg h2]
        obtain ⟨A', b', h, hl⟩ := normalizeSpacingAux_prefix A true r
        refine ⟨' ' :: A', b', by rw [h]; rfl, fun hb => Or.inl ⟨List.cons_ne_nil _ _, ?_⟩⟩
        rcases hl hb with ⟨hne, hlast⟩ | ⟨hnil, -⟩
        · rw [getLast?_cons_of_ne_nil _ A' hne, hlast]
        · rw [hnil]
          rfl
    · rw [if_neg h1]
      obtain ⟨A', b', h, hl⟩ := normalizeSpacingAux_prefix A false r
      refine ⟨c :: A', b', by rw [h]; rfl, fun hb => Or.inl ⟨List.cons_ne_nil _ _, ?_⟩⟩
      rcases hl hb with ⟨hne, hlast⟩ | ⟨-, hf⟩
      · rw [getLast?_cons_of_ne_nil _ A' hne, hlast]
      · cases hf

theorem normalizeSpacingAux_plain :
    ∀ (u : Str) (inRun : Bool) (B : Str), u ≠ [] → (∀ c ∈ u, isWhiteSpace c = false) →
      normalizeSpacingAux inRun (u ++ ' ' :: B) = u ++ ' ' :: normalizeSpacingAux true B
  | [], _, _, h, _ => absurd rfl h
  | c :: u, inRun, B, _, hu => by
    have hc := hu c (List.mem_cons_self _ _)
    rw [List.cons_append, normalizeSpacingAux]
    simp only [hc, Bool.false_eq_true, ↓reduceIte, List.cons_append, List.cons.injEq, true_and]
    cases u with
    | nil =>
      rw [List.nil_append, normalizeSpacingAux]
      have hs : isWhiteSpace ' ' = true := by decide
      simp [hs]
    | cons d u =>
      exact normalizeSpacingAux_plain (d :: u) false B (List.cons_ne_nil _ _)
        (fun e he => hu e (List.mem_cons_of_mem _ he))

theorem normalizeSpacing_padded (w t : Str) (hw : w ∈ symbols.map Prod.snd) (h : Padded w t) :
    Padded w (normalizeSpacing t) := by
  obtain ⟨A, B, rfl⟩ := h
  obtain ⟨e, he, rfl⟩ := List.mem_map.1 hw
  obtain ⟨A', b', hA, hl⟩ := normalizeSpacingAux_prefix A false (' ' :: (e.2 ++ ' ' :: B))
  have hword := fun b => normalizeSpacingAux_plain e.2 b B (symbol_words_plain e he).1
    (fun c hc => ((symbol_words_plain e he).2 c hc).2.2.2.1)
  have hs : isWhiteSpace ' ' = true := by decide
  unfold normalizeSpacing
  rw [hA, normalizeSpacingAux, if_pos hs]
  by_cases hb : b' = true
  · rw [if_pos hb, hword]
    rcases hl hb with ⟨-, hlast⟩ | ⟨-, hf⟩
    · obtain ⟨A0, rfl⟩ := List.getLast?_eq_some_iff.1 hlast
      exact ⟨A0, normalizeSpacingAux true B, by simp⟩
    · cases hf
  · rw [if_neg hb, hword]
    exact ⟨A', normalizeSpacingAux true B, rfl⟩

/-! ### Normalisation and trimming -/

theorem normalize_padded (N : Str → Str) (w t : Str)
    (hspace : ∀ x y, N (x ++ ' ' :: y) = N x ++ ' ' :: N y) (hword : N w = w)
    (h : Padded w t) : Padded w (N t) := by
  obtain ⟨A, B, rfl⟩ := h
  exact ⟨N A, N B, by rw [hspace, hspace, hword]⟩

theorem dropWhile_append_of_all (p : Char → Bool) :
    ∀ (A r : Str), (∀ c ∈ A, p c = true) → (A ++ r).dropWhile p = r.dropWhile p
  | [], _, _ => rfl
  | c :: A, r, h => by
    rw [List.cons_append, List.dropWhile_cons_of_pos (h c (List.mem_cons_self _ _))]
    exact dropWhile_append_of_all p A r (fun d hd => h d (List.mem_cons_of_mem _ hd))

theorem dropWhile_append_of_exists (p : Char → Bool) :
    ∀ (A r : Str), (∃ c ∈ A, p c = false) →
      (A ++ r).dropWhile p = A.dropWhile p ++ r ∧ A.dropWhile p ≠ []
  | [], _, h => by
    obtain ⟨c, hc, -⟩ := h
    cases hc
  | c :: A, r, h => by
    by_cases hc : p c = true
    · rw [List.cons_append, List.dropWhile_cons_of_pos hc, List.dropWhile_cons_of_pos hc]
      refine dropWhile_append_of_exists p A r ?_
      obtain ⟨d, hd, hpd⟩ := h
      rcases List.mem_cons.1 hd with rfl | hd
      · rw [hc] at hpd
        cases hpd
      · exact ⟨d, hd, hpd⟩
    · rw [List.cons_append, List.dropWhile_cons_of_neg hc, List.dropWhile_cons_of_neg hc]
      exact ⟨rfl, List.cons_ne_nil _ _⟩

/-- Dropping leading white space in front of a word that follows a space. -/
theorem dropWhile_padded (w A R : Str) (hne : w ≠ []) (hw : ∀ c ∈ w, isWhiteSpace c = false) :
    ∃ L, (A ++ ' ' :: (w ++ R)).dropWhile isWhiteSpace = L ++ (w ++ R)
      ∧ (L = [] ∨ L.getLast? = some ' ') := by
  obtain ⟨c, cs, rfl⟩ := List.exists_cons_of_ne_nil hne
  have hc : ¬ isWhiteSpace c = true := by
    rw [hw c (List.mem_cons_self _ _)]
    decide
  have hs : isWhiteSpace ' ' = true := by decide
  by_cases hall : ∀ d ∈ A, isWhiteSpace d = true
  · refine ⟨[], ?_, Or.inl rfl⟩
    rw [dropWhile_append_of_all _ A _ hall, List.dropWhile_cons_of_pos hs, List.cons_append,
      List.dropWhile_cons_of_neg hc]
    rfl
  · have hex : ∃ d ∈ A, isWhiteSpace d = false := by
      by_contra hcon
      exact hall (fun d hd => by
        by_contra hd2
        exact hcon ⟨d, hd, by simpa using hd2⟩)
    obtain ⟨heq, -⟩ := dropWhile_append_of_exists isWhiteSpace A (' ' :: (c :: cs ++ R)) hex
    refine ⟨A.dropWhile isWhiteSpace ++ [' '], ?_, Or.inr (List.getLast?_concat _)⟩
    rw [heq]
    simp

theorem trim_padded (w t : Str) (hne : w ≠ []) (hw : ∀ c ∈ w, isWhiteSpace c = false)
    (h : Padded w t) :
    ∃ A B, trim t = A ++ w ++ B ∧ (A = [] ∨ A.getLast? = some ' ')
      ∧ (B = [] ∨ B.head? = some ' ') := by
  obtain ⟨A, B, rfl⟩ := h
  obtain ⟨L, hL, hLlast⟩ := dropWhile_padded w A (' ' :: B) hne hw
  have hrev : (L ++ (w ++ ' ' :: B)).reverse = B.reverse ++ ' ' :: (w.reverse ++ L.reverse) := by
    simp
  obtain ⟨L2, hL2, hL2last⟩ := dropWhile_padded w.reverse B.reverse L.reverse
    (by simpa using hne) (fun c hc => hw c (List.mem_reverse.1 hc))
  refine ⟨L, L2.reverse, ?_, hLlast, ?_⟩
  · unfold trim
    rw [hL, hrev, hL2]
    simp
  · rcases hL2last with h1 | h1
    · left
      rw [h1]
      rfl
    · right
      rw [List.head?_reverse]
      exact h1

/-- C11 as stated fails: for the inputs `%` and `50%` the word `Prozent` ends the output,
with no white space after it, and for `%` none before it either. -/
theorem symbol_word_counterexample :
    '%' ∈ "%".toList ∧ '%' ∈ "50%".toList
    ∧ symbols.lookup "%".toList = some "Prozent".toList
    ∧ preProcessText nfdLatin nfcLatin "%".toList = "Prozent".toList
    ∧ preProcessText nfdLatin nfcLatin "50%".toList = "funfzig Prozent".toList
    ∧ ¬ ∃ (A B : Str) (a b : Char), isWhiteSpace a = true ∧ isWhiteSpace b = true ∧
        preProcessText nfdLatin nfcLatin "%".toList = A ++ a :: ("Prozent".toList ++ b :: B) := by
  refine ⟨by decide, by decide, by decide, by decide!, by decide!, ?_⟩
  rintro ⟨A, B, a, b, -, -, h⟩
  have h1 : preProcessText nfdLatin nfcLatin "%".toList = "Prozent".toList := by decide!
  rw [h1] at h
  have hlen := congrArg List.length h
  simp at hlen
  omega

/-- C11 amended (symbol words are delimited).  For every input that contains a configured
symbol, the output of `preProcessText` contains the word of that symbol with, immediately
before it, a space or the start of the output and, immediately after it, a space or the end
of the output.  The host's normalisations are only assumed to split at spaces and to leave the
nine words alone. -/
theorem symbol_words_delimited (nfd nfc : Str → Str)
    (hnfd : ∀ x y, nfd (x ++ ' ' :: y) = nfd x ++ ' ' :: nfd y)
    (hnfdWords : ∀ e ∈ symbols, nfd e.2 = e.2)
    (hnfc : ∀ x y, nfc (x ++ ' ' :: y) = nfc x ++ ' ' :: nfc y)
    (hnfcWords : ∀ e ∈ symbols, nfc e.2 = e.2)
    (s : Str) (symbol : Char) (word : Str) (hs : symbol ∈ s)
    (hword : symbols.lookup [symbol] = some word) :
    ∃ A B, preProcessText nfd nfc s = A ++ word ++ B
      ∧ (A = [] ∨ A.getLast? = some ' ') ∧ (B = [] ∨ B.head? = some ' ') := by
  have he := lookup_mem _ _ _ hword
  have hw : word ∈ symbols.map Prod.snd := List.mem_map.2 ⟨_, he, rfl⟩
  have hplain := symbol_words_plain _ he
  unfold preProcessText
  refine trim_padded word _ hplain.1 (fun c hc => (hplain.2 c hc).2.2.2.1) ?_
  refine normalize_padded nfc word _ hnfc (hnfcWords _ he) ?_
  refine stripMarks_padded word _ hw ?_
  refine normalize_padded nfd word _ hnfd (hnfdWords _ he) ?_
  refine normalizeSpacing_padded word _ hw ?_
  refine limitRepetition_padded word _ hw ?_
  refine removeUnwanted_padded word _ hw ?_
  refine replaceNumbers_padded word _ hw ?_
  refine decimalComma_padded word _ hw ?_
  exact replaceSymbols_padded s symbol word hs hword

theorem nfdLatin_space (x y : Str) : nfdLatin (x ++ ' ' :: y) = nfdLatin x ++ ' ' :: nfdLatin y := by
  unfold nfdLatin
  rw [List.flatMap_append, List.flatMap_cons]
  rfl

/-- Witness for C11 amended: the input `50%`, whose output ends with the word. -/
theorem symbol_words_delimited_witness :
    '%' ∈ "50%".toList ∧ symbols.lookup ['%'] = some "Prozent".toList
    ∧ preProcessText nfdLatin nfcLatin "50%".toList = "funfzig Prozent".toList
    ∧ ∃ A B, preProcessText nfdLatin nfcLatin "50%".toList = A ++ "Prozent".toList ++ B
        ∧ (A = [] ∨ A.getLast? = some ' ') ∧ (B = [] ∨ B.head? = some ' ') :=
  ⟨by decide, by decide, by decide!,
    symbol_words_delimited nfdLatin nfcLatin nfdLatin_space (by decide)
      (fun _ _ => rfl) (fun _ _ => rfl) "50%".toList '%' "Prozent".toList (by decide)
      (by decide)⟩

/-- C12 (umlauts preserved) fails on the code: NFD splits `ü` into `u` and the combining
diaeresis U+0308, which lies in the range that line 173 removes, so `preProcessText("für")`
is `fur`; the accent of `é` is removed the same way. -/
theorem umlaut_is_stripped :
    nfdLatin "für".toList = ['f', 'u', Char.ofNat 0x308, 'r']
    ∧ stripMarks ['f', 'u', Char.ofNat 0x308, 'r'] = "fur".toList
    ∧ preProcessText nfdLatin nfcLatin "für".toList = "fur".toList
    ∧ 'ü' ∉ preProcessText nfdLatin nfcLatin "für".toList
    ∧ preProcessText nfdLatin nfcLatin "äöüÄÖÜ".toList = "aouAOU".toList
    ∧ preProcessText nfdLatin nfcLatin "é".toList = "e".toList := by
  refine ⟨by decide, by decide, by decide, by decide, by decide, by decide⟩

/-- C13 (raw symbols do not survive) fails on the code: the symbols are replaced first, and
the later normalisation turns U+2260 (not equal to) into `=` followed by the combining
overlay U+0338, which line 173 removes; `preProcessText` returns the raw symbol `=`. -/
theorem symbol_reintroduced :
    nfdLatin [Char.ofNat 0x2260] = ['=', Char.ofNat 0x338]
    ∧ replaceSymbols [Char.ofNat 0x2260] = [Char.ofNat 0x2260]
    ∧ preProcessText nfdLatin nfcLatin [Char.ofNat 0x2260] = ['=']
    ∧ '=' ∈ symbolsReg
    ∧ '=' ∈ preProcessText nfdLatin nfcLatin [Char.ofNat 0x2260] := by
  refine ⟨by decide, by decide, by decide, by decide, by decide⟩

/-! ## Rounding to binary64 -/

theorem roundHalfEven_floor_le (z : ℚ) : ⌊z⌋ ≤ roundHalfEven z := by
  unfold roundHalfEven
  split_ifs <;> omega

theorem roundHalfEven_le_floor_succ (z : ℚ) : roundHalfEven z ≤ ⌊z⌋ + 1 := by
  unfold roundHalfEven
  split_ifs <;> omega

theorem roundHalfEven_intCast (m : ℤ) : roundHalfEven (m : ℚ) = m := by
  unfold roundHalfEven
  simp

theorem roundHalfEven_mono {z z' : ℚ} (h : z ≤ z') : roundHalfEven z ≤ roundHalfEven z' := by
  have hf : ⌊z⌋ ≤ ⌊z'⌋ := Int.floor_mono h
  rcases hf.lt_or_eq with hlt | heq
  · calc roundHalfEven z ≤ ⌊z⌋ + 1 := roundHalfEven_le_floor_succ z
      _ ≤ ⌊z'⌋ := hlt
      _ ≤ roundHalfEven z' := roundHalfEven_floor_le z'
  · unfold roundHalfEven
    rw [heq]
    have h2 : z - (⌊z'⌋ : ℚ) ≤ z' - (⌊z'⌋ : ℚ) := by linarith
    split_ifs <;> first | omega | (exfalso; linarith)

theorem ulp_pos (q : ℚ) : 0 < ulp q := by
  unfold ulp
  positivity

theorem zpow_log_le {q : ℚ} (hq : 0 < q) : (2 : ℚ) ^ Int.log 2 q ≤ q := by
  have h := Int.zpow_log_le_self (b := 2) (by norm_num) hq
  simpa using h

theorem lt_zpow_log_succ (q : ℚ) : q < (2 : ℚ) ^ (Int.log 2 q + 1) := by
  have h := Int.lt_zpow_succ_log_self (b := 2) (by norm_num) q
  simpa using h

theorem log_eq_of_bounds {q : ℚ} {k : ℤ} (h1 : (2 : ℚ) ^ k ≤ q) (h2 : q < (2 : ℚ) ^ (k + 1)) :
    Int.log 2 q = k := by
  have hq : 0 < q := lt_of_lt_of_le (by positivity) h1
  have a : k ≤ Int.log 2 q := by
    rw [← Int.zpow_le_iff_le_log (by norm_num) hq]
    simpa using h1
  have b : Int.log 2 q < k + 1 := by
    rw [← Int.lt_zpow_iff_log_lt (by norm_num) hq]
    simpa using h2
  omega

theorem ulp_mul (q : ℚ) : (2 : ℚ) ^ (52 : ℕ) * ulp q = 2 ^ Int.log 2 q := by
  unfold ulp
  rw [← zpow_natCast, ← zpow_add₀ (by norm_num)]
  congr 1
  push_cast
  ring

theorem ulp_mul_succ (q : ℚ) : (2 : ℚ) ^ (53 : ℕ) * ulp q = 2 ^ (Int.log 2 q + 1) := by
  unfold ulp
  rw [← zpow_natCast, ← zpow_add₀ (by norm_num)]
  congr 1
  push_cast
  ring

theorem scaled_bounds {q : ℚ} (hq : 0 < q) :
    (2 : ℚ) ^ (52 : ℕ) ≤ q / ulp q ∧ q / ulp q < (2 : ℚ) ^ (53 : ℕ) := by
  have hu := ulp_pos q
  constructor
  · rw [le_div_iff₀ hu, ulp_mul]
    exact zpow_log_le hq
  · rw [div_lt_iff₀ hu, ulp_mul_succ]
    exact lt_zpow_log_succ q

theorem significand_bounds {q : ℚ} (hq : 0 < q) :
    (2 : ℤ) ^ (52 : ℕ) ≤ roundHalfEven (q / ulp q) ∧
      roundHalfEven (q / ulp q) ≤ (2 : ℤ) ^ (53 : ℕ) := by
  obtain ⟨h1, h2⟩ := scaled_bounds hq
  constructor
  · refine le_trans ?_ (roundHalfEven_floor_le _)
    rw [Int.le_floor]
    push_cast
    exact h1
  · refine le_trans (roundHalfEven_le_floor_succ _) ?_
    have : ⌊q / ulp q⌋ < (2 : ℤ) ^ (53 : ℕ) := by
      rw [Int.floor_lt]
      push_cast
      exact h2
    omega

theorem roundPos_bounds {q : ℚ} (hq : 0 < q) :
    (2 : ℚ) ^ Int.log 2 q ≤ roundPos q ∧ roundPos q ≤ (2 : ℚ) ^ (Int.log 2 q + 1) := by
  obtain ⟨h1, h2⟩ := significand_bounds hq
  have hu := ulp_pos q
  unfold roundPos
  constructor
  · rw [← ulp_mul]
    apply mul_le_mul_of_nonneg_right _ hu.le
    exact_mod_cast h1
  · rw [← ulp_mul_succ]
    apply mul_le_mul_of_nonneg_right _ hu.le
    exact_mod_cast h2

theorem roundPos_pos {q : ℚ} (hq : 0 < q) : 0 < roundPos q :=
  lt_of_lt_of_le (by positivity) (roundPos_bounds hq).1

theorem roundPos_mono {x y : ℚ} (hx : 0 < x) (h : x ≤ y) : roundPos x ≤ roundPos y := by
  have hy : 0 < y := lt_of_lt_of_le hx h
  have hk : Int.log 2 x ≤ Int.log 2 y := Int.log_mono_right hx h
  rcases hk.lt_or_eq with hlt | heq
  · calc roundPos x ≤ (2 : ℚ) ^ (Int.log 2 x + 1) := (roundPos_bounds hx).2
      _ ≤ (2 : ℚ) ^ Int.log 2 y := zpow_le_zpow_right₀ (by norm_num) hlt
      _ ≤ roundPos y := (roundPos_bounds hy).1
  · have hu : ulp x = ulp y := by unfold ulp; rw [heq]
    unfold roundPos
    rw [hu]
    apply mul_le_mul_of_nonneg_right _ (ulp_pos y).le
    have : roundHalfEven (x / ulp y) ≤ roundHalfEven (y / ulp y) :=
      roundHalfEven_mono (div_le_div_of_nonneg_right h (ulp_pos y).le)
    exact_mod_cast this

theorem roundPos_def (q : ℚ) : roundPos q = roundHalfEven (q / ulp q) * ulp q := rfl

theorem roundPos_idem {q : ℚ} (hq : 0 < q) : roundPos (roundPos q) = roundPos q := by
  obtain ⟨h1, h2⟩ := significand_bounds hq
  have hu := ulp_pos q
  rcases h2.lt_or_eq with hlt | heq
  · -- the significand stays below 2 ^ 53: same binade
    have hlog : Int.log 2 (roundPos q) = Int.log 2 q := by
      apply log_eq_of_bounds (roundPos_bounds hq).1
      unfold roundPos
      rw [← ulp_mul_succ]
      apply mul_lt_mul_of_pos_right _ hu
      exact_mod_cast hlt
    have hu2 : ulp (roundPos q) = ulp q := by unfold ulp; rw [hlog]
    have hdiv : roundPos q / ulp q = (roundHalfEven (q / ulp q) : ℚ) := by
      unfold roundPos
      field_simp
    rw [roundPos_def (roundPos q), hu2, hdiv, roundHalfEven_intCast]
    rfl
  · -- the significand is rounded up to 2 ^ 53: the next power of two
    have hval : roundPos q = (2 : ℚ) ^ (Int.log 2 q + 1) := by
      unfold roundPos
      rw [heq, ← ulp_mul_succ]
      push_cast
      rfl
    have hlog : Int.log 2 (roundPos q) = Int.log 2 q + 1 := by
      rw [hval]
      have := Int.log_zpow (R := ℚ) (b := 2) (by norm_num) (Int.log 2 q + 1)
      simpa using this
    have hu2 : ulp (roundPos q) = 2 * ulp q := by
      unfold ulp
      rw [hlog, show Int.log 2 q + 1 - 52 = (Int.log 2 q - 52) + 1 by ring,
        zpow_add_one₀ (by norm_num)]
      ring
    have hdiv : roundPos q / (2 * ulp q) = (((2 : ℤ) ^ (52 : ℕ) : ℤ) : ℚ) := by
      rw [hval, ← ulp_mul_succ]
      push_cast
      field_simp
      ring
    rw [roundPos_def (roundPos q), hu2, hdiv, roundHalfEven_intCast, hval, ← ulp_mul_succ]
    push_cast
    ring

theorem roundDouble_zero : roundDouble 0 = 0 := by
  simp [roundDouble]

theorem roundDouble_of_pos {q : ℚ} (hq : 0 < q) : roundDouble q = roundPos q := by
  simp [roundDouble, hq, hq.ne']

theorem roundDouble_of_neg {q : ℚ} (hq : q < 0) : roundDouble q = -roundPos (-q) := by
  simp [roundDouble, hq.ne, not_lt.mpr hq.le]

theorem roundDouble_mono : Monotone roundDouble := by
  intro x y h
  rcases lt_trichotomy x 0 with hx | hx | hx
  · rcases lt_trichotomy y 0 with hy | hy | hy
    · rw [roundDouble_of_neg hx, roundDouble_of_neg hy]
      have := roundPos_mono (neg_pos.mpr hy) (neg_le_neg h)
      linarith
    · rw [roundDouble_of_neg hx, hy, roundDouble_zero]
      have := roundPos_pos (neg_pos.mpr hx)
      linarith
    · rw [roundDouble_of_neg hx, roundDouble_of_pos hy]
      have := roundPos_pos (neg_pos.mpr hx)
      have := roundPos_pos hy
      linarith
  · subst hx
    rcases h.lt_or_eq with hy | hy
    · rw [roundDouble_zero, roundDouble_of_pos hy]
      exact (roundPos_pos hy).le
    · rw [← hy]
  · have hy : 0 < y := lt_of_lt_of_le hx h
    rw [roundDouble_of_pos hx, roundDouble_of_pos hy]
    exact roundPos_mono hx h

theorem roundDouble_idem (q : ℚ) : roundDouble (roundDouble q) = roundDouble q := by
  rcases lt_trichotomy q 0 with hq | hq | hq
  · have hp := roundPos_pos (neg_pos.mpr hq)
    rw [roundDouble_of_neg hq, roundDouble_of_neg (by linarith), neg_neg,
      roundPos_idem (neg_pos.mpr hq)]
  · subst hq
    rw [roundDouble_zero, roundDouble_zero]
  · rw [roundDouble_of_pos hq, roundDouble_of_pos (roundPos_pos hq), roundPos_idem hq]

/-! ## The code over rounded arithmetic -/

theorem addToLastRounded_concat (fl : ℚ → ℚ) (x : ℚ) :
    ∀ (ds : List ℚ) (d : ℚ), addToLastRounded fl x (ds ++ [d]) = ds ++ [fl (d + x)]
  | [], _ => rfl
  | [_], _ => rfl
  | e :: f :: ds, d => by
    have ih := addToLastRounded_concat fl x (f :: ds) d
    simp only [List.cons_append] at ih ⊢
    simp only [addToLastRounded, ih]

theorem addToLastRounded_length (fl : ℚ → ℚ) (x : ℚ) :
    ∀ ds : List ℚ, (addToLastRounded fl x ds).length = ds.length
  | [] => rfl
  | [_] => rfl
  | _ :: e :: ds => by
    simp only [addToLastRounded, List.length_cons]
    have ih := addToLastRounded_length fl x (e :: ds)
    simp only [List.length_cons] at ih
    omega

theorem durationOrOneRounded_of_not_inherited (fl : ℚ → ℚ) (viseme : Str)
    (hv : viseme ∉ objectPrototypeKeys) :
    durationOrOneRounded fl viseme = some (baseDuration fl viseme) := by
  unfold baseDuration durationOrOneRounded getMember
  cases hl : visemeDurations.lookup viseme with
  | none => simp [hv]
  | some x => simp

theorem baseDuration_fixed (fl : ℚ → ℚ) (hidem : ∀ x, fl (fl x) = fl x) (viseme : Str)
    (hd : durationOrOneRounded fl viseme = some (baseDuration fl viseme)) :
    fl (baseDuration fl viseme) = baseDuration fl viseme := by
  have key : ∀ d, durationOrOneRounded fl viseme = some d → fl d = d := by
    intro d h
    unfold durationOrOneRounded at h
    cases hm : getMember visemeDurations viseme with
    | inherited => simp [hm] at h
    | undefined =>
      rw [hm] at h
      simp only [Option.some.injEq] at h
      rw [← h, hidem]
    | own x =>
      rw [hm] at h
      simp only [Option.some.injEq] at h
      rw [← h]
      split_ifs <;> exact hidem _
  exact key _ hd

theorem addVisemeRounded_eq (fl : ℚ → ℚ) (output : Output) (viseme : Str) (currentTime : ℚ)
    (st1 : State) (h : addVisemeRounded fl output viseme currentTime = some st1) :
    durationOrOneRounded fl viseme = some (baseDuration fl viseme) ∧
      ((output.visemes.getLast? = some viseme ∧
          st1 = (⟨output.words, output.visemes, output.times,
                  addToLastRounded fl (fl (fl (7 / 10) * baseDuration fl viseme))
                    output.durations⟩,
                extend fl viseme currentTime)) ∨
        (output.visemes.getLast? ≠ some viseme ∧
          st1 = (⟨output.words, output.visemes ++ [viseme], output.times ++ [currentTime],
                  output.durations ++ [baseDuration fl viseme]⟩,
                fl (currentTime + baseDuration fl viseme)))) := by
  unfold addVisemeRounded at h
  cases hd : durationOrOneRounded fl viseme with
  | none => simp [hd] at h
  | some d =>
    have hb : baseDuration fl viseme = d := by simp [baseDuration, hd]
    rw [hb]
    refine ⟨rfl, ?_⟩
    rw [hd] at h
    by_cases hl : output.visemes.getLast? = some viseme
    · left
      have hne : output.visemes.length ≠ 0 := by
        intro h0
        rw [List.length_eq_zero] at h0
        rw [h0] at hl
        simp at hl
      rw [if_pos ⟨hne, hl⟩] at h
      simp only [Option.map_some', Option.some.injEq] at h
      refine ⟨hl, ?_⟩
      rw [← h]
      simp only [extend, hb]
    · right
      rw [if_neg (fun hc => hl hc.2)] at h
      simp only [Option.map_some', Option.some.injEq] at h
      exact ⟨hl, h.symm⟩

theorem wordsToVisemesRounded_blank (fl : ℚ → ℚ) (toLowerCase : Str → Str) (text : Str)
    (hb : text = [] ∨ (trim text).length = 0) :
    wordsToVisemesRounded fl toLowerCase text = Except.ok (emptyOutput text) := by
  unfold wordsToVisemesRounded
  exact if_pos hb

theorem wordsToVisemesRounded_nonblank (fl : ℚ → ℚ) (toLowerCase : Str → Str) (text : Str)
    (hb : ¬ (text = [] ∨ (trim text).length = 0)) :
    wordsToVisemesRounded fl toLowerCase text =
      Except.map Prod.fst
        (processSegmentsRounded fl (emptyOutput text, 0)
          (segments (rewrite (toLowerCase text)))) := by
  unfold wordsToVisemesRounded
  exact if_neg hb

/-! ### What the loops preserve -/

theorem addVisemesRounded_preserves (fl : ℚ → ℚ) (P : State → Prop)
    (hadd : ∀ st v st1, P st → addVisemeRounded fl st.1 v st.2 = some st1 → P st1) :
    ∀ (vs : List Str) (st st1 : State), P st →
      addVisemesRounded fl st vs = Except.ok st1 → P st1
  | [], st, st1, hP, h => by
    simp only [addVisemesRounded, Except.ok.injEq] at h
    exact h ▸ hP
  | v :: vs, st, st1, hP, h => by
    unfold addVisemesRounded at h
    cases ha : addVisemeRounded fl st.1 v st.2 with
    | none => simp [ha] at h
    | some st2 =>
      rw [ha] at h
      exact addVisemesRounded_preserves fl P hadd vs st2 st1 (hadd st v st2 hP ha) h

theorem visemeStepRounded_preserves (fl : ℚ → ℚ) (P : State → Prop)
    (hadd : ∀ st v st1, P st → addVisemeRounded fl st.1 v st.2 = some st1 → P st1)
    (st : State) (phoneme : Str) (st1 : State)
    (hP : P st) (h : visemeStepRounded fl st phoneme = Except.ok st1) : P st1 := by
  unfold visemeStepRounded at h
  cases hm : getMember phonemeToViseme phoneme with
  | inherited => simp [hm] at h
  | undefined =>
    rw [hm] at h
    simp only [Except.ok.injEq] at h
    exact h ▸ hP
  | own viseme =>
    rw [hm] at h
    simp only at h
    by_cases hvis : viseme = []
    · simp only [hvis, ne_eq, not_true_eq_false, ↓reduceIte, Except.ok.injEq] at h
      exact h ▸ hP
    · simp only [ne_eq, hvis, not_false_eq_true, ↓reduceIte] at h
      cases ha : addVisemeRounded fl st.1 viseme st.2 with
      | none => simp [ha] at h
      | some st2 =>
        rw [ha] at h
        simp only [Except.ok.injEq] at h
        exact h ▸ hadd st viseme st2 hP ha

theorem pauseStepRounded_preserves (fl : ℚ → ℚ) (P : State → Prop) (C : Char → Prop)
    (hpause : ∀ (st : State) (c : Char) (d : ℚ), C c →
      getMember specialDurations [c] = Member.own d → P st → P (st.1, fl (st.2 + fl d)))
    (st : State) (char : Char) (st1 : State) (hC : C char) (hP : P st)
    (h : pauseStepRounded fl st char = Except.ok st1) : P st1 := by
  unfold pauseStepRounded at h
  cases hm : getMember specialDurations [char] with
  | inherited => simp [hm] at h
  | undefined =>
    rw [hm] at h
    simp only [Except.ok.injEq] at h
    exact h ▸ hP
  | own d =>
    rw [hm] at h
    simp only [Except.ok.injEq] at h
    exact h ▸ hpause st char d hC hm hP

theorem processCharRounded_preserves (fl : ℚ → ℚ) (P : State → Prop) (C : Char → Prop)
    (hadd : ∀ st v st1, P st → addVisemeRounded fl st.1 v st.2 = some st1 → P st1)
    (hpause : ∀ (st : State) (c : Char) (d : ℚ), C c →
      getMember specialDurations [c] = Member.own d → P st → P (st.1, fl (st.2 + fl d)))
    (st : State) (char : Char) (st1 : State) (hC : C char) (hP : P st)
    (h : processCharRounded fl st char = Except.ok st1) : P st1 := by
  unfold processCharRounded at h
  cases hm : getMember letterToPhoneme [char] with
  | inherited => simp [hm] at h
  | undefined =>
    rw [hm] at h
    exact pauseStepRounded_preserves fl P C hpause st char st1 hC hP h
  | own phoneme =>
    rw [hm] at h
    simp only at h
    by_cases hph : phoneme = []
    · simp only [hph, ne_eq, not_true_eq_false, ↓reduceIte] at h
      exact pauseStepRounded_preserves fl P C hpause st char st1 hC hP h
    · simp only [ne_eq, hph, not_false_eq_true, ↓reduceIte] at h
      exact visemeStepRounded_preserves fl P hadd st phoneme st1 hP h

theorem processCharsRounded_preserves (fl : ℚ → ℚ) (P : State → Prop) (C : Char → Prop)
    (hadd : ∀ st v st1, P st → addVisemeRounded fl st.1 v st.2 = some st1 → P st1)
    (hpause : ∀ (st : State) (c : Char) (d : ℚ), C c →
      getMember specialDurations [c] = Member.own d → P st → P (st.1, fl (st.2 + fl d))) :
    ∀ (segment : Str) (st st1 : State), (∀ c ∈ segment, C c) → P st →
      processCharsRounded fl st segment = Except.ok st1 → P st1
  | [], st, st1, _, hP, h => by
    simp only [processCharsRounded, Except.ok.injEq] at h
    exact h ▸ hP
  | c :: cs, st, st1, hC, hP, h => by
    unfold processCharsRounded at h
    cases hc : processCharRounded fl st c with
    | error e => simp [hc] at h
    | ok st2 =>
      rw [hc] at h
      exact processCharsRounded_preserves fl P C hadd hpause cs st2 st1
        (fun d hd => hC d (List.mem_cons_of_mem _ hd))
        (processCharRounded_preserves fl P C hadd hpause st c st2
          (hC c (List.mem_cons_self _ _)) hP hc) h

theorem processSegmentRounded_preserves (fl : ℚ → ℚ) (P : State → Prop) (C : Char → Prop)
    (hadd : ∀ st v st1, P st → addVisemeRounded fl st.1 v st.2 = some st1 → P st1)
    (hpause : ∀ (st : State) (c : Char) (d : ℚ), C c →
      getMember specialDurations [c] = Member.own d → P st → P (st.1, fl (st.2 + fl d)))
    (st : State) (segment : Str) (st1 : State) (hC : ∀ c ∈ segment, C c) (hP : P st)
    (h : processSegmentRounded fl st segment = Except.ok st1) : P st1 := by
  unfold processSegmentRounded at h
  cases hm : getMember phonemeToViseme segment with
  | inherited => simp [hm] at h
  | undefined =>
    rw [hm] at h
    exact processCharsRounded_preserves fl P C hadd hpause segment st st1 hC hP h
  | own value =>
    rw [hm] at h
    simp only at h
    by_cases hv : value = []
    · simp only [hv, ne_eq, not_true_eq_false, ↓reduceIte] at h
      exact processCharsRounded_preserves fl P C hadd hpause segment st st1 hC hP h
    · simp only [ne_eq, hv, not_false_eq_true, ↓reduceIte] at h
      exact addVisemesRounded_preserves fl P hadd _ st st1 hP h

theorem processSegmentsRounded_preserves (fl : ℚ → ℚ) (P : State → Prop) (C : Char → Prop)
    (hadd : ∀ st v st1, P st → addVisemeRounded fl st.1 v st.2 = some st1 → P st1)
    (hpause : ∀ (st : State) (c : Char) (d : ℚ), C c →
      getMember specialDurations [c] = Member.own d → P st → P (st.1, fl (st.2 + fl d))) :
    ∀ (segs : List Str) (st st1 : State), (∀ s ∈ segs, ∀ c ∈ s, C c) → P st →
      processSegmentsRounded fl st segs = Except.ok st1 → P st1
  | [], st, st1, _, hP, h => by
    simp only [processSegmentsRounded, Except.ok.injEq] at h
    exact h ▸ hP
  | s :: ss, st, st1, hC, hP, h => by
    unfold processSegmentsRounded at h
    cases hc : processSegmentRounded fl st s with
    | error e => simp [hc] at h
    | ok st2 =>
      rw [hc] at h
      exact processSegmentsRounded_preserves fl P C hadd hpause ss st2 st1
        (fun t ht => hC t (List.mem_cons_of_mem _ ht))
        (processSegmentRounded_preserves fl P C hadd hpause st s st2
          (hC s (List.mem_cons_self _ _)) hP hc) h

/-- A property of the loop state that holds initially and is kept by every `addViseme` call
and by the pause of every character of the segments holds of the returned output. -/
theorem wordsToVisemesRounded_preserves (fl : ℚ → ℚ) (P : State → Prop) (C : Char → Prop)
    (hadd : ∀ st v st1, P st → addVisemeRounded fl st.1 v st.2 = some st1 → P st1)
    (hpause : ∀ (st : State) (c : Char) (d : ℚ), C c →
      getMember specialDurations [c] = Member.own d → P st → P (st.1, fl (st.2 + fl d)))
    (toLowerCase : Str → Str) (text : Str) (out : Output)
    (hC : ∀ s ∈ segments (rewrite (toLowerCase text)), ∀ c ∈ s, C c)
    (h0 : P (emptyOutput text, 0))
    (h : wordsToVisemesRounded fl toLowerCase text = Except.ok out) : ∃ t, P (out, t) := by
  by_cases hb : text = [] ∨ (trim text).length = 0
  · rw [wordsToVisemesRounded_blank fl toLowerCase text hb] at h
    simp only [Except.ok.injEq] at h
    exact ⟨0, h ▸ h0⟩
  · rw [wordsToVisemesRounded_nonblank fl toLowerCase text hb] at h
    generalize segments (rewrite (toLowerCase text)) = segs at h hC
    cases hs : processSegmentsRounded fl (emptyOutput text, 0) segs with
    | error e =>
      rw [hs] at h
      simp [Except.map] at h
    | ok st =>
      have hP := processSegmentsRounded_preserves fl P C hadd hpause _ _ st hC h0 hs
      rw [hs] at h
      simp only [Except.map, Except.ok.injEq] at h
      exact ⟨st.2, h ▸ hP⟩

/-! ### With `fl = id` the rounded code is the exact one -/

theorem durationOrOneRounded_id (viseme : Str) :
    durationOrOneRounded id viseme = durationOrOne viseme := rfl

theorem addToLastRounded_id (x : ℚ) : ∀ ds : List ℚ, addToLastRounded id x ds = addToLast x ds
  | [] => rfl
  | [_] => rfl
  | d :: e :: ds => by
    simp only [addToLastRounded, addToLast, addToLastRounded_id x (e :: ds)]

theorem addVisemeRounded_id (output : Output) (viseme : Str) (currentTime : ℚ) :
    addVisemeRounded id output viseme currentTime = addViseme output viseme currentTime := by
  unfold addVisemeRounded addViseme
  simp only [durationOrOneRounded_id, addToLastRounded_id, id]

theorem addVisemesRounded_id : ∀ (vs : List Str) (st : State),
    addVisemesRounded id st vs = addVisemes st vs
  | [], _ => rfl
  | v :: vs, st => by
    unfold addVisemesRounded addVisemes
    rw [addVisemeRounded_id]
    cases addViseme st.1 v st.2 with
    | none => rfl
    | some st1 => exact addVisemesRounded_id vs st1

theorem processCharRounded_id (st : State) (char : Char) :
    processCharRounded id st char = processChar st char := by
  unfold processCharRounded processChar visemeStepRounded visemeStep pauseStepRounded pauseStep
  simp only [addVisemeRounded_id, id]
  all_goals rfl

theorem processCharsRounded_id : ∀ (segment : Str) (st : State),
    processCharsRounded id st segment = processChars st segment
  | [], _ => rfl
  | c :: cs, st => by
    unfold processCharsRounded processChars
    rw [processCharRounded_id]
    cases processChar st c with
    | error e => rfl
    | ok st1 => exact processCharsRounded_id cs st1

theorem processSegmentsRounded_id : ∀ (segs : List Str) (st : State),
    processSegmentsRounded id st segs = processSegments st segs
  | [], _ => rfl
  | s :: ss, st => by
    unfold processSegmentsRounded processSegments
    have hseg : processSegmentRounded id st s = processSegment st s := by
      unfold processSegmentRounded processSegment
      simp only [addVisemesRounded_id, processCharsRounded_id]
      all_goals rfl
    rw [hseg]
    cases processSegment st s with
    | error e => rfl
    | ok st1 => exact processSegmentsRounded_id ss st1

/-- Without rounding the code over `fl` is the exact-arithmetic `wordsToVisemes`. -/
theorem wordsToVisemesRounded_id (toLowerCase : Str → Str) (text : Str) :
    wordsToVisemesRounded id toLowerCase text = wordsToVisemes toLowerCase text := by
  unfold wordsToVisemesRounded wordsToVisemes
  simp only [processSegmentsRounded_id]

theorem extend_id_iterate (viseme : Str) :
    ∀ (k : ℕ) (x : ℚ),
      Nat.iterate (extend id viseme) k x = x + k * (7 / 10 * baseDuration id viseme)
  | 0, x => by simp
  | k + 1, x => by
    rw [Function.iterate_succ_apply, extend_id_iterate viseme k]
    simp only [extend, id]
    push_cast
    ring

/-! ### Entries over rounded arithmetic -/

theorem zip_entries_concat (vs : List Str) (ts ds : List ℚ) (v : Str) (t d : ℚ)
    (h1 : vs.length = ts.length) (h2 : ts.length = ds.length) :
    (vs ++ [v]).zip ((ts ++ [t]).zip (ds ++ [d])) = vs.zip (ts.zip ds) ++ [(v, t, d)] := by
  rw [List.zip_append h2, List.zip_append (by simp [List.length_zip, h1, h2])]
  rfl

theorem addVisemeRounded_separated (fl : ℚ → ℚ) (hidem : ∀ x, fl (fl x) = fl x)
    (R : ℚ → ℚ → Prop) (hrefl : ∀ a, R a a)
    (hext : ∀ v a b, R a b → R (extend fl v a) (extend fl v b))
    (st : State) (viseme : Str) (st1 : State)
    (hs : SeparatedRounded fl R st) (h : addVisemeRounded fl st.1 viseme st.2 = some st1) :
    SeparatedRounded fl R st1 := by
  obtain ⟨hl1, hl2, hfix, hchain, hlast⟩ := hs
  unfold entries at hchain hlast
  obtain ⟨hd, ⟨hlastv, rfl⟩ | ⟨-, rfl⟩⟩ := addVisemeRounded_eq _ _ _ _ _ h
  · -- the last duration is extended
    rcases List.eq_nil_or_concat st.1.visemes with hnil | ⟨vs, v0, hvs⟩
    · rw [hnil] at hlastv
      simp at hlastv
    rcases List.eq_nil_or_concat st.1.times with htnil | ⟨ts, t0, hts⟩
    · rw [htnil, hvs] at hl1
      simp at hl1
    rcases List.eq_nil_or_concat st.1.durations with hdnil | ⟨ds, d0, hds⟩
    · rw [hdnil, hts] at hl2
      simp at hl2
    rw [List.concat_eq_append] at hvs hts hds
    have hv0 : v0 = viseme := by
      rw [hvs] at hlastv
      simpa using hlastv
    subst hv0
    have e1 : vs.length = ts.length := by
      rw [hvs, hts] at hl1
      simpa using hl1
    have e2 : ts.length = ds.length := by
      rw [hts, hds] at hl2
      simpa using hl2
    rw [hvs, hts, hds, zip_entries_concat _ _ _ _ _ _ e1 e2] at hchain hlast
    have hold : Linked fl R (v0, t0, d0) st.2 := hlast (v0, t0, d0) (by simp)
    have hnew : Linked fl R (v0, t0, extend fl v0 d0) (extend fl v0 st.2) := by
      obtain ⟨k, hk1, hk2⟩ := hold
      refine ⟨k + 1, ?_, ?_⟩
      · simp only at hk1 ⊢
        rw [Function.iterate_succ_apply', ← hk1]
      · simp only at hk2 ⊢
        rw [Function.iterate_succ_apply']
        exact hext _ _ _ hk2
    have hdur : addToLastRounded fl (fl (fl (7 / 10) * baseDuration fl v0)) (ds ++ [d0])
        = ds ++ [extend fl v0 d0] := by
      rw [addToLastRounded_concat]
      rfl
    refine ⟨hl1, ?_, ?_, ?_, ?_⟩
    · simp only [addToLastRounded_length]
      exact hl2
    · simp only [extend]
      exact hidem _
    · unfold entries
      simp only
      rw [hvs, hts, hds, hdur, zip_entries_concat _ _ _ _ _ _ e1 e2]
      rw [List.chain'_append] at hchain ⊢
      exact ⟨hchain.1, List.chain'_singleton _, fun a ha b hb => by
        have := hchain.2.2 a ha (v0, t0, d0) rfl
        simp only [List.head?_cons, Option.mem_def, Option.some.injEq] at hb
        rw [← hb]
        exact this⟩
    · unfold entries
      simp only
      rw [hvs, hts, hds, hdur, zip_entries_concat _ _ _ _ _ _ e1 e2]
      intro e he
      simp only [List.getLast?_concat, Option.mem_def, Option.some.injEq] at he
      rw [← he]
      exact hnew
  · -- a new entry starts at the time position
    refine ⟨?_, ?_, ?_, ?_, ?_⟩
    · simp only [List.length_append, List.length_singleton]
      omega
    · simp only [List.length_append, List.length_singleton]
      omega
    · exact hidem _
    · unfold entries
      simp only
      rw [zip_entries_concat _ _ _ _ _ _ hl1 hl2]
      refine List.Chain'.append hchain (List.chain'_singleton _) ?_
      intro a ha b hb
      simp only [List.head?_cons, Option.mem_def, Option.some.injEq] at hb
      rw [← hb]
      exact hlast a ha
    · unfold entries
      simp only
      rw [zip_entries_concat _ _ _ _ _ _ hl1 hl2]
      intro e he
      simp only [List.getLast?_concat, Option.mem_def, Option.some.injEq] at he
      rw [← he]
      exact ⟨0, rfl, hrefl _⟩

theorem pause_separated (fl : ℚ → ℚ) (hmono : Monotone fl) (hidem : ∀ x, fl (fl x) = fl x)
    (h0 : fl 0 = 0) (st : State) (d : ℚ) (hd : 0 ≤ d)
    (hs : SeparatedRounded fl (· ≤ ·) st) :
    SeparatedRounded fl (· ≤ ·) (st.1, fl (st.2 + fl d)) := by
  obtain ⟨hl1, hl2, hfix, hchain, hlast⟩ := hs
  have hfd : 0 ≤ fl d := h0 ▸ hmono hd
  have hle : st.2 ≤ fl (st.2 + fl d) := by
    calc st.2 = fl st.2 := hfix.symm
      _ ≤ fl (st.2 + fl d) := hmono (by linarith)
  refine ⟨hl1, hl2, hidem _, hchain, fun e he => ?_⟩
  obtain ⟨k, hk1, hk2⟩ := hlast e he
  exact ⟨k, hk1, le_trans hk2 hle⟩

theorem separatedRounded_getElem (fl : ℚ → ℚ) (R : ℚ → ℚ → Prop) (out : Output) (t : ℚ)
    (hs : SeparatedRounded fl R (out, t)) (i : ℕ) (h1 : i + 1 < out.times.length)
    (h2 : i < out.durations.length) (h3 : i < out.visemes.length) :
    Linked fl R (out.visemes[i], out.times[i], out.durations[i]) out.times[i + 1] := by
  have hl1 : out.visemes.length = out.times.length := hs.1
  have hl2 : out.times.length = out.durations.length := hs.2.1
  have hchain : (out.visemes.zip (out.times.zip out.durations)).Chain'
      (fun a b => Linked fl R a b.2.1) := hs.2.2.2.1
  have hzl : (out.visemes.zip (out.times.zip out.durations)).length = out.times.length := by
    simp [List.length_zip, hl1, hl2]
  have hc := List.chain'_iff_get.1 hchain i (by omega)
  simp only [List.get_eq_getElem, List.getElem_zip] at hc
  exact hc

theorem separatedRounded_init (fl : ℚ → ℚ) (h0 : fl 0 = 0) (R : ℚ → ℚ → Prop) (text : Str) :
    SeparatedRounded fl R (emptyOutput text, 0) :=
  ⟨rfl, rfl, h0, List.chain'_nil, fun e he => by simp [emptyOutput, entries] at he⟩

theorem wordsToVisemesRounded_separated_le (fl : ℚ → ℚ) (hmono : Monotone fl)
    (hidem : ∀ x, fl (fl x) = fl x) (h0 : fl 0 = 0)
    (toLowerCase : Str → Str) (text : Str) (out : Output)
    (h : wordsToVisemesRounded fl toLowerCase text = Except.ok out) :
    ∃ t, SeparatedRounded fl (· ≤ ·) (out, t) :=
  wordsToVisemesRounded_preserves fl (SeparatedRounded fl (· ≤ ·)) (fun _ => True)
    (fun st v st1 hs ha =>
      addVisemeRounded_separated fl hidem (· ≤ ·) le_refl
        (fun _ a b hab => hmono (by linarith)) st v st1 hs ha)
    (fun st _ d _ hm hs =>
      pause_separated fl hmono hidem h0 st d
        (specialDurations_nonneg _ (getMember_own _ _ _ hm)) hs)
    toLowerCase text out (fun _ _ _ _ => trivial) (separatedRounded_init fl h0 _ text) h

theorem wordsToVisemesRounded_separated_eq (fl : ℚ → ℚ)
    (hidem : ∀ x, fl (fl x) = fl x) (h0 : fl 0 = 0)
    (toLowerCase : Str → Str) (text : Str) (out : Output)
    (h : wordsToVisemesRounded fl toLowerCase text = Except.ok out)
    (hlow : ∀ c ∈ toLowerCase text, specialDurations.lookup [c] ≠ none → c ∈ text)
    (hin : ∀ c ∈ text, specialDurations.lookup [c] = none) :
    ∃ t, SeparatedRounded fl (· = ·) (out, t) := by
  have hC : ∀ s ∈ segments (rewrite (toLowerCase text)), ∀ c ∈ s,
      specialDurations.lookup [c] = none := by
    intro s hs c hc
    rcases segments_rewrite_mem _ s hs c hc with h1 | h1
    · by_contra hne
      exact hne (hin c (hlow c h1 hne))
    · exact replacement_chars_no_pause c (by
        rcases h1 with h1 | h1
        · exact h1 ▸ List.mem_cons_self _ _
        · exact List.mem_cons_of_mem _ h1)
  exact wordsToVisemesRounded_preserves fl (SeparatedRounded fl (· = ·))
    (fun c => specialDurations.lookup [c] = none)
    (fun st v st1 hs ha =>
      addVisemeRounded_separated fl hidem (· = ·) (fun _ => rfl)
        (fun _ a b hab => by rw [hab]) st v st1 hs ha)
    (fun st c d hc hm => by
      unfold getMember at hm
      rw [hc] at hm
      split_ifs at hm)
    toLowerCase text out hC (separatedRounded_init fl h0 _ text) h

theorem separatedRounded_lengths (fl : ℚ → ℚ) (R : ℚ → ℚ → Prop) (out : Output) (t : ℚ)
    (hs : SeparatedRounded fl R (out, t)) :
    out.visemes.length = out.times.length ∧ out.times.length = out.durations.length :=
  ⟨hs.1, hs.2.1⟩

theorem addVisemesRounded_repeat (fl : ℚ → ℚ) (words viseme : Str)
    (hd : durationOrOneRounded fl viseme = some (baseDuration fl viseme)) :
    ∀ (n : ℕ) (x t : ℚ),
      addVisemesRounded fl (⟨words, [viseme], [0], [x]⟩, t) (List.replicate n viseme) =
        Except.ok (⟨words, [viseme], [0], [Nat.iterate (extend fl viseme) n x]⟩,
          Nat.iterate (extend fl viseme) n t)
  | 0, x, t => by simp [addVisemesRounded]
  | n + 1, x, t => by
    have ih := addVisemesRounded_repeat fl words viseme hd n (extend fl viseme x)
      (extend fl viseme t)
    simp only [List.replicate_succ, addVisemesRounded, addVisemeRounded, hd]
    simp only [List.length_singleton, ne_eq, one_ne_zero, not_false_eq_true,
      List.getLast?_singleton, and_self, ↓reduceIte, Option.map_some', addToLastRounded]
    exact ih

/-! ## Coalescing and separation in the arithmetic of the code -/

/-- C1, counterexample.  The law fails as stated in two ways.  (a) The token `constructor` is
absent from `visemeDurations`, yet `visemeDurations["constructor"]` reads an inherited member
of `Object.prototype`, which is truthy: one call of `addViseme` stores it as the duration, so
the entry does not have the duration `1` of an absent token; it is not a number at all.
(b) In binary64 arithmetic four calls with `aa` leave the duration `0.95 + 0.665 + 0.665 +
0.665`, each sum rounded, which is the number printed as 2.945, while `0.95 + 3 * 0.7 * 0.95`
evaluates to the neighbouring number printed as 2.9449999999999994. -/
theorem coalescing_law_counterexample :
    (visemeDurations.lookup "constructor".toList = none
      ∧ "constructor".toList ∈ objectPrototypeKeys
      ∧ durationOrOne "constructor".toList = none
      ∧ addVisemes (⟨[], [], [], []⟩, 0) (List.replicate 1 "constructor".toList)
          = Except.error Failure.outsideModel
      ∧ addVisemesRounded roundDouble (⟨[], [], [], []⟩, 0)
            (List.replicate 1 "constructor".toList)
          = Except.error Failure.outsideModel)
    ∧ (addVisemesRounded roundDouble (⟨[], [], [], []⟩, 0) (List.replicate 4 "aa".toList) =
          Except.ok (⟨[], ["aa".toList], [0], [6631550451303055 / 2251799813685248]⟩,
            6631550451303055 / 2251799813685248)
      ∧ roundDouble (roundDouble (95 / 100)
            + roundDouble (roundDouble (3 * roundDouble (7 / 10)) * roundDouble (95 / 100)))
          = 6631550451303054 / 2251799813685248
      ∧ roundDouble (roundDouble (95 / 100)
            + roundDouble (roundDouble (3 * roundDouble (7 / 10)) * roundDouble (95 / 100)))
          ≠ 6631550451303055 / 2251799813685248
      ∧ roundDouble (2945 / 1000) = 6631550451303055 / 2251799813685248
      ∧ roundDouble (29449999999999994 / 10000000000000000)
          = 6631550451303054 / 2251799813685248) := by
  refine ⟨⟨by decide, by decide, by decide, by decide, by decide⟩,
    by decide!, by decide!, by decide!, by decide!, by decide!⟩

/-- C1 (coalescing law, in the arithmetic of the code).  Let `fl` be the rounding of the
arithmetic, with `fl (fl x) = fl x`.  For every viseme token `v` that does not name a member of
`Object.prototype` and every `N ≥ 1`: feeding `v` to `addViseme` `N` times in a row, from an
empty output and cursor `0` and threading the returned cursor, leaves the single entry
`visemes = [v]`, `times = [0]` whose duration is obtained from `d = visemeDurations[v] || 1`
by adding `0.7 * d` to it `N - 1` times, each sum rounded, and the final cursor is that
duration.  Without rounding this duration is `d + (N-1) * 0.7 * d`.  In binary64 arithmetic
`wordsToVisemes("mmm")` has `visemes = ["PP"]` and `durations = [1.08 + 2 * 0.7 * 1.08]`, the
expression evaluated in the same arithmetic: one entry for three input characters. -/
theorem coalescing_law_rounded (fl : ℚ → ℚ) (hidem : ∀ x, fl (fl x) = fl x)
    (words viseme : Str) (N : ℕ) (hN : 1 ≤ N) (hv : viseme ∉ objectPrototypeKeys) :
    (addVisemesRounded fl (⟨words, [], [], []⟩, 0) (List.replicate N viseme) =
        Except.ok
          (⟨words, [viseme], [0],
              [Nat.iterate (extend fl viseme) (N - 1) (baseDuration fl viseme)]⟩,
            Nat.iterate (extend fl viseme) (N - 1) (baseDuration fl viseme)))
    ∧ Nat.iterate (extend id viseme) (N - 1) (baseDuration id viseme) =
        (visemeDurations.lookup viseme).getD 1
          + ((N : ℚ) - 1) * (7 / 10) * (visemeDurations.lookup viseme).getD 1
    ∧ wordsToVisemesRounded roundDouble asciiToLowerCase "mmm".toList =
        Except.ok ⟨"mmm".toList, ["PP".toList], [0],
          [roundDouble (roundDouble (108 / 100)
            + roundDouble (roundDouble (2 * roundDouble (7 / 10)) * roundDouble (108 / 100)))]⟩
    ∧ (["PP".toList] : List Str).length < "mmm".toList.length := by
  refine ⟨?_, ?_, by decide!, by decide⟩
  · obtain ⟨n, rfl⟩ : ∃ n, N = n + 1 := ⟨N - 1, by omega⟩
    have hd := durationOrOneRounded_of_not_inherited fl viseme hv
    have hfix := baseDuration_fixed fl hidem viseme hd
    have h := addVisemesRounded_repeat fl words viseme hd n (baseDuration fl viseme)
      (fl (0 + baseDuration fl viseme))
    simp only [List.replicate_succ, addVisemesRounded, addVisemeRounded, hd]
    simp only [List.length_nil, ne_eq, not_true_eq_false, false_and, ↓reduceIte,
      Option.map_some', List.nil_append]
    rw [h, zero_add, hfix]
    rfl
  · obtain ⟨n, rfl⟩ : ∃ n, N = n + 1 := ⟨N - 1, by omega⟩
    have hb : baseDuration id viseme = (visemeDurations.lookup viseme).getD 1 := by
      have h1 := durationOrOneRounded_of_not_inherited id viseme hv
      rw [durationOrOneRounded_id, durationOrOne_eq viseme hv] at h1
      simp only [Option.some.injEq] at h1
      exact h1.symm
    rw [extend_id_iterate, hb]
    simp only [Nat.add_sub_cancel]
    push_cast
    ring

/-- Witness for C1: three calls with the token `PP` in binary64 arithmetic; the duration and
the cursor are the number printed as 2.592. -/
theorem coalescing_law_rounded_witness :
    (∀ x, roundDouble (roundDouble x) = roundDouble x) ∧ 1 ≤ 3 ∧
    "PP".toList ∉ objectPrototypeKeys ∧
    addVisemesRounded roundDouble (⟨[], [], [], []⟩, 0) (List.replicate 3 "PP".toList) =
      Except.ok (⟨[], ["PP".toList], [0], [5836665117072163 / 2251799813685248]⟩,
        5836665117072163 / 2251799813685248) :=
  ⟨roundDouble_idem, by decide, by decide, by
    have h := (coalescing_law_rounded roundDouble roundDouble_idem [] "PP".toList 3
      (by decide) (by decide)).1
    rw [h]
    decide!⟩

/-- C19, counterexample.  In binary64 arithmetic `wordsToVisemes("adda")` returns the times
`[0, 0.95, 2.735]` and the durations `[0.95, 1.7850000000000001, 0.95]`: the second entry is
the coalesced `DD` of `dd`, its duration is `1.05 + 0.735` rounded while the next start is
`(0.95 + 1.05) + 0.735` rounded.  So `times[1] + durations[1]` exceeds `times[2]`, by
`2 ^ -52` as an exact sum and by one unit in the last place as a binary64 sum, although the
input has no pause character: the inequality and the equality of the claim both fail. -/
theorem entries_overlap_counterexample :
    wordsToVisemesRounded roundDouble asciiToLowerCase "adda".toList =
      Except.ok ⟨"adda".toList, ["aa".toList, "DD".toList, "aa".toList],
        [0, 4278419646001971 / 4503599627370496, 6158672490429153 / 2251799813685248],
        [4278419646001971 / 4503599627370496, 502432833428521 / 281474976710656,
          4278419646001971 / 4503599627370496]⟩
    ∧ ¬ ((4278419646001971 : ℚ) / 4503599627370496 + 502432833428521 / 281474976710656
        ≤ 6158672490429153 / 2251799813685248)
    ∧ (4278419646001971 : ℚ) / 4503599627370496 + 502432833428521 / 281474976710656
        = 6158672490429153 / 2251799813685248 + 1 / 2 ^ 52
    ∧ (6158672490429153 : ℚ) / 2251799813685248
        < roundDouble (4278419646001971 / 4503599627370496 + 502432833428521 / 281474976710656)
    ∧ roundDouble (95 / 100) = 4278419646001971 / 4503599627370496
    ∧ roundDouble (2735 / 1000) = 6158672490429153 / 2251799813685248
    ∧ roundDouble (17850000000000001 / 10000000000000000) = 502432833428521 / 281474976710656
    ∧ (∀ c ∈ "adda".toList, specialDurations.lookup [c] = none) := by
  refine ⟨by decide!, by decide!, by decide!, by decide!, by decide!, by decide!, by decide!,
    by decide⟩

/-- C19 (entries do not overlap, in the arithmetic of the code).  Let `fl` be the rounding of
the arithmetic: monotone, `fl (fl x) = fl x` and `fl 0 = 0`.  Whenever `wordsToVisemes`
returns, every entry `i` that has a successor was appended with the duration
`d = visemeDurations[visemes[i]] || 1` and then extended `k` times by `0.7 * d`, so that
`durations[i]` is `d` followed by `k` rounded additions of `0.7 * d`; and `times[i+1]` is at
least the value that the same `k` rounded additions give when they start from
`times[i] + d`, pauses and coalescing across pauses included.  When the input contains no key
of `specialDurations` (and lowercasing, as the builtin does, brings none in), `times[i+1]` is
equal to that value.  Without rounding the two values are `durations[i]` and
`times[i] + durations[i]`: in exact arithmetic `times[i] + durations[i] ≤ times[i+1]`, with
equality when there is no pause. -/
theorem entries_separated_rounded (fl : ℚ → ℚ) (hmono : Monotone fl)
    (hidem : ∀ x, fl (fl x) = fl x) (h0 : fl 0 = 0)
    (toLowerCase : Str → Str) (text : Str) (out : Output)
    (h : wordsToVisemesRounded fl toLowerCase text = Except.ok out) :
    (∀ (i : ℕ) (h1 : i + 1 < out.times.length) (h2 : i < out.durations.length)
        (h3 : i < out.visemes.length),
      ∃ k : ℕ,
        out.durations[i]
          = Nat.iterate (extend fl out.visemes[i]) k (baseDuration fl out.visemes[i]) ∧
        Nat.iterate (extend fl out.visemes[i]) k
            (fl (out.times[i] + baseDuration fl out.visemes[i]))
          ≤ out.times[i + 1])
    ∧ ((∀ c ∈ toLowerCase text, specialDurations.lookup [c] ≠ none → c ∈ text) →
      (∀ c ∈ text, specialDurations.lookup [c] = none) →
      ∀ (i : ℕ) (h1 : i + 1 < out.times.length) (h2 : i < out.durations.length)
        (h3 : i < out.visemes.length),
      ∃ k : ℕ,
        out.durations[i]
          = Nat.iterate (extend fl out.visemes[i]) k (baseDuration fl out.visemes[i]) ∧
        Nat.iterate (extend fl out.visemes[i]) k
            (fl (out.times[i] + baseDuration fl out.visemes[i]))
          = out.times[i + 1])
    ∧ (∀ out0 : Output, wordsToVisemesRounded id toLowerCase text = Except.ok out0 →
      (∀ (i : ℕ) (h1 : i + 1 < out0.times.length) (h2 : i < out0.durations.length),
        out0.times[i] + out0.durations[i] ≤ out0.times[i + 1])
      ∧ ((∀ c ∈ toLowerCase text, specialDurations.lookup [c] ≠ none → c ∈ text) →
        (∀ c ∈ text, specialDurations.lookup [c] = none) →
        ∀ (i : ℕ) (h1 : i + 1 < out0.times.length) (h2 : i < out0.durations.length),
          out0.times[i] + out0.durations[i] = out0.times[i + 1])) := by
  refine ⟨?_, ?_, ?_⟩
  · obtain ⟨t, hs⟩ := wordsToVisemesRounded_separated_le fl hmono hidem h0 toLowerCase text out h
    exact fun i h1 h2 h3 => separatedRounded_getElem fl _ out t hs i h1 h2 h3
  · intro hlow hin
    obtain ⟨t, hs⟩ := wordsToVisemesRounded_separated_eq fl hidem h0 toLowerCase text out h
      hlow hin
    exact fun i h1 h2 h3 => separatedRounded_getElem fl _ out t hs i h1 h2 h3
  · intro out0 he
    have key : ∀ (R : ℚ → ℚ → Prop) (t : ℚ),
        SeparatedRounded id R (out0, t) →
        ∀ (i : ℕ) (h1 : i + 1 < out0.times.length) (h2 : i < out0.durations.length),
          R (out0.times[i] + out0.durations[i]) out0.times[i + 1] := by
      intro R t hs i h1 h2
      have hl := separatedRounded_lengths id R out0 t hs
      obtain ⟨k, hk1, hk2⟩ := separatedRounded_getElem id R out0 t hs i h1 h2 (by omega)
      simp only [extend_id_iterate, id] at hk1 hk2
      rw [hk1]
      have e : out0.times[i] + (baseDuration id out0.visemes[i]
            + (k : ℚ) * (7 / 10 * baseDuration id out0.visemes[i]))
          = out0.times[i] + baseDuration id out0.visemes[i]
            + (k : ℚ) * (7 / 10 * baseDuration id out0.visemes[i]) := by ring
      rw [e]
      exact hk2
    constructor
    · obtain ⟨t, hs⟩ := wordsToVisemesRounded_separated_le id monotone_id (fun _ => rfl) rfl
        toLowerCase text out0 he
      exact key (· ≤ ·) t hs
    · intro hlow hin
      obtain ⟨t, hs⟩ := wordsToVisemesRounded_separated_eq id (fun _ => rfl) rfl
        toLowerCase text out0 he hlow hin
      exact key (· = ·) t hs

/-- Witness for C19: the run on `adda` in binary64 arithmetic.  The entry `DD` starts at
0.95 and was extended once; one extension of `0.95 + 1.05 = 2` gives 2.735, the start of the
next entry, with equality as the input has no pause character. -/
theorem entries_separated_rounded_witness :
    Monotone roundDouble ∧ (∀ x, roundDouble (roundDouble x) = roundDouble x) ∧
    roundDouble 0 = 0 ∧
    wordsToVisemesRounded roundDouble asciiToLowerCase "adda".toList =
      Except.ok ⟨"adda".toList, ["aa".toList, "DD".toList, "aa".toList],
        [0, 4278419646001971 / 4503599627370496, 6158672490429153 / 2251799813685248],
        [4278419646001971 / 4503599627370496, 502432833428521 / 281474976710656,
          4278419646001971 / 4503599627370496]⟩ ∧
    (∀ c ∈ asciiToLowerCase "adda".toList, specialDurations.lookup [c] ≠ none →
      c ∈ "adda".toList) ∧
    (∀ c ∈ "adda".toList, specialDurations.lookup [c] = none) ∧
    (∃ k : ℕ,
      (502432833428521 / 281474976710656 : ℚ)
        = Nat.iterate (extend roundDouble "DD".toList) k (baseDuration roundDouble "DD".toList) ∧
      Nat.iterate (extend roundDouble "DD".toList) k
          (roundDouble (4278419646001971 / 4503599627370496
            + baseDuration roundDouble "DD".toList))
        ≤ 6158672490429153 / 2251799813685248) ∧
    (∃ k : ℕ,
      (502432833428521 / 281474976710656 : ℚ)
        = Nat.iterate (extend roundDouble "DD".toList) k (baseDuration roundDouble "DD".toList) ∧
      Nat.iterate (extend roundDouble "DD".toList) k
          (roundDouble (4278419646001971 / 4503599627370496
            + baseDuration roundDouble "DD".toList))
        = 6158672490429153 / 2251799813685248) :=
  ⟨roundDouble_mono, roundDouble_idem, roundDouble_zero, by decide!, by decide!, by decide!,
    (entries_separated_rounded roundDouble roundDouble_mono roundDouble_idem roundDouble_zero
      asciiToLowerCase "adda".toList
      ⟨"adda".toList, ["aa".toList, "DD".toList, "aa".toList],
        [0, 4278419646001971 / 4503599627370496, 6158672490429153 / 2251799813685248],
        [4278419646001971 / 4503599627370496, 502432833428521 / 281474976710656,
          4278419646001971 / 4503599627370496]⟩
      (by decide!)).1 1 (by decide) (by decide) (by decide),
    (entries_separated_rounded roundDouble roundDouble_mono roundDouble_idem roundDouble_zero
      asciiToLowerCase "adda".toList
      ⟨"adda".toList, ["aa".toList, "DD".toList, "aa".toList],
        [0, 4278419646001971 / 4503599627370496, 6158672490429153 / 2251799813685248],
        [4278419646001971 / 4503599627370496, 502432833428521 / 281474976710656,
          4278419646001971 / 4503599627370496]⟩
      (by decide!)).2.1 (by decide!) (by decide!) 1 (by decide) (by decide) (by decide)⟩

end LipsyncDe
